import Mathlib

/-!
Verification of the path-enumeration and indexing core of the
opp-efed-scenarios repository (Code/0_generate_hydro_files.py and the
outlet-flagging part of Code/modify.py).

The embedding below is a shallow one.  The numpy arrays of the source
become Lean lists of a fixed length; machine floats become exact
rationals (every claim checked here compares sums that the source
computes in the same accumulation order, so exact arithmetic is a
faithful model); the `while True` loop of `rapid_trace` becomes a step
function driven by fuel, with the run aborting in an `Except` error
whenever the source would raise (out-of-bounds numpy assignment) or
call `exit()` (the cycle check).  Negative numpy indices wrap, which
the model reproduces through `npIndex`.
-/

namespace HydroNav

/-- Cumulative sums with a running accumulator, the model of `np.cumsum`.
The value type is any additive commutative monoid: the claims below only
compare sums that the source forms in one fixed order, so this covers the
exact-arithmetic reading of the source's float32 attributes. -/
def cumsumFrom {R : Type} [AddCommMonoid R] (acc : R) : List R → List R
  | [] => []
  | x :: xs => (acc + x) :: cumsumFrom (acc + x) xs

/-- Model of `np.cumsum` on a one-dimensional array. -/
def cumsum {R : Type} [AddCommMonoid R] (l : List R) : List R := cumsumFrom 0 l

/-- Index of the first element satisfying `p`, if any.  This models both
`np.argmax` on a boolean vector (composed with `Option.getD 0`) and the
source's explicit first-match scans. -/
def firstTrue (p : α → Bool) : List α → Option Nat
  | [] => none
  | x :: xs => if p x then some 0 else (firstTrue p xs).map (· + 1)

/-- Position of the first occurrence of `t`, the model of the source's
`for j in range(active_reach.size): if active_reach[j] == last_node` scan
(and of a pandas index lookup in `unpack_nhd`). -/
def scanFor [DecidableEq α] (l : List α) (t : α) : Option Nat :=
  firstTrue (fun x => decide (x = t)) l

/-- Overwrite every position from `k` on with `z`, the model of
`active_reach[cursor:] = 0`. -/
def zeroFrom (l : List α) (k : Nat) (z : α) : List α :=
  l.take k ++ List.replicate (l.length - k) z

/-- Resolution of a (possibly negative) numpy index against an array of
length `len`: indices in `[-len, len)` are valid, negative ones wrap. -/
def npIndex (len : Nat) (i : Int) : Option Nat :=
  if 0 ≤ i ∧ i < (len : Int) then some i.toNat
  else if -(len : Int) ≤ i ∧ i < 0 then some (i + len).toNat
  else none

/-- The rows of `nodes` whose first column equals the active node, mapped to
their second column: the model of `nodes[nodes[:, 0] == active_node][:, 1]`.
A node pair is `(tocomid alias : Int, comid alias : Nat)`; the first
component is an `Int` because unmatched downstream ids become `-1`. -/
def upstreamOf (nodes : List (Int × Nat)) (v : Nat) : List Nat :=
  (nodes.filter (fun p => p.1 = (v : Int))).map (·.2)

/-- One upstream edge of the aliased network: `b` is directly upstream of
`a` exactly when the row `(a, b)` is in the nodes table. -/
def edge (nodes : List (Int × Nat)) (a b : Nat) : Prop :=
  ((a : Int), b) ∈ nodes

instance (nodes : List (Int × Nat)) (a b : Nat) : Decidable (edge nodes a b) := by
  unfold edge; infer_instance

/-- The fatal outcomes of a trace: the `exit()` taken by the cycle check,
and the `IndexError`s numpy raises when a preallocated array is written
past its end (working buffer, output path table, pending queue). -/
inductive TraceErr
  | cycleAt (comid : Int)
  | lengthOverflow
  | pathOverflow
  | queueOverflow
  | fuelOut
deriving DecidableEq, Repr

/-- The inputs of `rapid_trace` that stay fixed during a run. -/
structure NavCfg (R : Type) where
  nodes : List (Int × Nat)
  times : Nat → R
  dists : Nat → R
  conversion : Nat → Int
  maxLength : Nat
  maxPaths : Nat

/-- The mutable state of `rapid_trace`.  `rows`, `timeRows`, `distRows` hold
the committed output rows (the written slices of `all_paths`, `all_times`,
`all_dists`; each row has width `maxLength`).  `rowStarts` records the
`start_cursor` value at each commit, a value the source holds in a local
variable at that moment; it is carried along purely so that specifications
can speak about the absolute column layout of each committed row.  The
remaining fields are the source's cursors and per-outlet buffers. -/
structure TraceSt (R : Type) where
  rows : List (List Nat)
  timeRows : List (List R)
  distRows : List (List R)
  rowStarts : List Nat
  longest : Nat
  already : List Int
  queue : List (Nat × Nat)
  queueCursor : Int
  reach : List Nat
  timesBuf : List R
  distsBuf : List R
  startCursor : Nat
  cursor : Nat
  active : Nat
deriving DecidableEq

/-- Outcome of one iteration of the `while True` loop. -/
inductive StepOut (R : Type)
  | cont (s : TraceSt R)
  | done (s : TraceSt R)
  | fail (e : TraceErr)
deriving DecidableEq

/-- Push `upstream[1:]` onto the pending queue, one `queue[queue_cursor] =
upstream[j]` write at a time; each queued pair is `(active node, upstream
alias)`.  Writing outside the queue fails like numpy does. -/
def pushAll (a : Nat) : List Nat → List (Nat × Nat) → Int →
    Except TraceErr (List (Nat × Nat) × Int)
  | [], queue, qc => .ok (queue, qc)
  | u :: us, queue, qc =>
    match npIndex queue.length qc with
    | none => .error .queueOverflow
    | some k => pushAll a us (queue.set k (a, u)) (qc + 1)

/-- The cell mask `* (all_paths[path_cursor] > 0)` applied to one cell. -/
def maskCell {R : Type} [AddCommMonoid R] (a : Nat) (t : R) : R :=
  if 0 < a then t else 0

/-- The buffer-write half of one loop iteration: record the visit in the
visited set, write the active node and its attributes at the cursor,
advance the cursor and update the longest-path bound. -/
def visit {R : Type} [AddCommMonoid R] (cfg : NavCfg R) (s : TraceSt R) : TraceSt R :=
  { s with
    already := cfg.conversion s.active :: s.already
    reach := s.reach.set s.cursor s.active
    timesBuf := s.timesBuf.set s.cursor (cfg.times s.active)
    distsBuf := s.distsBuf.set s.cursor (cfg.dists s.active)
    cursor := s.cursor + 1
    longest := max s.longest (s.cursor + 1) }

/-- The commit of a finished path: copy `active_reach[start_cursor:]` into
a fresh output row (the columns before `start_cursor` stay zero) and store
the running sums of the attribute buffers masked by the row's nonzero
cells. -/
def commit {R : Type} [AddCommMonoid R] (s : TraceSt R) : TraceSt R :=
  let row := List.replicate s.startCursor 0 ++ s.reach.drop s.startCursor
  { s with
    rows := s.rows ++ [row]
    timeRows := s.timeRows ++ [List.zipWith maskCell row (cumsum s.timesBuf)]
    distRows := s.distRows ++ [List.zipWith maskCell row (cumsum s.distsBuf)]
    rowStarts := s.rowStarts ++ [s.startCursor] }

/-- Resumption at a popped branch `pair = (last node, next active)`: place
the cursor one past the first buffer position holding the resume-point
node (leaving it unchanged when the scan finds nothing), zero the buffers
from there on, and make the popped node active. -/
def resume {R : Type} [AddCommMonoid R] (s : TraceSt R) (pair : Nat × Nat) : TraceSt R :=
  let c2 := match scanFor s.reach pair.1 with
    | some j => j + 1
    | none => s.cursor
  { s with
    reach := zeroFrom s.reach c2 0
    timesBuf := zeroFrom s.timesBuf c2 0
    distsBuf := zeroFrom s.distsBuf c2 0
    startCursor := c2
    cursor := c2
    active := pair.2 }

/-- One iteration of the traversal loop of `rapid_trace`: fetch the
upstream rows, run the cycle check, append the active node to the working
buffers, then either advance upstream (queueing the extra branches) or
commit the finished path and pop the next pending branch. -/
def step {R : Type} [AddCommMonoid R] (cfg : NavCfg R) (s : TraceSt R) : StepOut R :=
  if cfg.conversion s.active ∈ s.already then
    .fail (.cycleAt (cfg.conversion s.active))
  else if s.cursor < cfg.maxLength then
    match upstreamOf cfg.nodes s.active with
    | u0 :: rest =>
      match pushAll s.active rest s.queue s.queueCursor with
      | .error e => .fail e
      | .ok (queue, qc) =>
        .cont { visit cfg s with queue := queue, queueCursor := qc, active := u0 }
    | [] =>
      if s.rows.length < cfg.maxPaths then
        match npIndex s.queue.length (s.queueCursor - 1) with
        | none => .fail .queueOverflow
        | some k =>
          if s.queue.getD k (0, 0) = (0, 0) then
            .done { commit (visit cfg s) with queueCursor := s.queueCursor - 1 }
          else
            .cont (resume { commit (visit cfg s) with queueCursor := s.queueCursor - 1 }
              (s.queue.getD k (0, 0)))
      else .fail .pathOverflow
  else .fail .lengthOverflow

/-- The traversal loop for one outlet, driven by fuel. -/
def traceOutlet {R : Type} [AddCommMonoid R] (cfg : NavCfg R) : Nat → TraceSt R → Except TraceErr (TraceSt R)
  | 0, _ => .error .fuelOut
  | fuel + 1, s =>
    match step cfg s with
    | .fail e => .error e
    | .done s' => .ok s'
    | .cont s' => traceOutlet cfg fuel s'

/-- Per-outlet reinitialization: fresh zeroed queue and working buffers,
cursors reset, the active node set to the outlet.  The committed rows, the
visited set and the longest-path bound persist across outlets. -/
def initOutlet {R : Type} [AddCommMonoid R] (cfg : NavCfg R) (s : TraceSt R) (o : Nat) : TraceSt R :=
  { s with
    queue := List.replicate cfg.nodes.length (0, 0)
    queueCursor := 0
    reach := List.replicate cfg.maxLength 0
    timesBuf := List.replicate cfg.maxLength 0
    distsBuf := List.replicate cfg.maxLength 0
    startCursor := 0
    cursor := 0
    active := o }

/-- Iterate the traversal over the outlet list. -/
def runOutlets {R : Type} [AddCommMonoid R] (cfg : NavCfg R) (fuel : Nat) : List Nat → TraceSt R → Except TraceErr (TraceSt R)
  | [], s => .ok s
  | o :: os, s =>
    match traceOutlet cfg fuel (initOutlet cfg s o) with
    | .error e => .error e
    | .ok s' => runOutlets cfg fuel os s'

/-- The state at entry of `rapid_trace`: no rows committed, empty visited
set, all cursors zero. -/
def initSt {R : Type} : TraceSt R :=
  { rows := [], timeRows := [], distRows := [], rowStarts := [], longest := 0, already := [], queue := [], queueCursor := 0, reach := [], timesBuf := [], distsBuf := [], startCursor := 0, cursor := 0, active := 0 }

/-- Model of `NavigatorBuilder.rapid_trace`: run the traversal over every
outlet, then slice the output arrays to `[:path_cursor, :longest_path]`. -/
def rapid_trace {R : Type} [AddCommMonoid R] (cfg : NavCfg R) (outlets : List Nat)
    (fuel : Nat) :
    Except TraceErr (List (List Nat) × List (List R) × List (List R)) :=
  match runOutlets cfg fuel outlets initSt with
  | .error e => .error e
  | .ok s => .ok (s.rows.map (·.take s.longest),
      s.timeRows.map (·.take s.longest),
      s.distRows.map (·.take s.longest))

/-! ## Post-processing: `map_paths` and `collapse_array` -/

/-- First occupied column of each row: the model of
`np.argmax(column_numbers > 0, axis=1)`, which yields 0 on an all-zero
row just as `np.argmax` does on an all-false vector. -/
def path_begins (paths : List (List Nat)) : List Nat :=
  paths.map (fun row => (firstTrue (fun a => decide (0 < a)) row).getD 0)

/-- The path-map triple `(i, i + end_row + 1, j)` recorded for a nonzero
cell at row `i`, column `j`; `end_row` counts how many of the immediately
following rows still begin past column `j`. -/
def pathMapEntry (n : Nat) (begins : List Nat) (i j : Nat) : Nat × Nat × Nat :=
  let endRow :=
    if i = n then 0
    else
      match firstTrue (fun b => decide (b ≤ j)) (begins.drop (i + 1)) with
      | some k => k
      | none => n - i - 1
  (i, i + endRow + 1, j)

/-- The double loop of `map_paths`: write the entry of every nonzero cell
into the per-alias table, later writes overwriting earlier ones. -/
def map_paths_core (paths : List (List Nat)) : List (Nat × Nat × Nat) :=
  paths.enum.foldl
    (fun pm iRow =>
      iRow.2.enum.foldl
        (fun pm jVal =>
          if 0 < jVal.2 then
            pm.set jVal.2 (pathMapEntry paths.length (path_begins paths) iRow.1 jVal.1)
          else pm)
        pm)
    (List.replicate ((paths.map (fun r => r.foldl max 0)).foldl max 0 + 1) (0, 0, 0))

/-- Model of `NavigatorBuilder.map_paths`.  `np.max` raises on an array of
size zero, hence the guard. -/
def map_paths (paths : List (List Nat)) : Option (List (Nat × Nat × Nat)) :=
  if paths.all List.isEmpty then none else some (map_paths_core paths)

/-- Model of `NavigatorBuilder.collapse_array`: per row, keep the cells
whose alias is positive (the boolean mask `row > 0`, applied to the alias,
time and distance rows alike) and record `np.argmax(row > 0)` as the
row's start column. -/
def collapse_array {R : Type} (paths : List (List Nat))
    (times dists : List (List R)) :
    List (List Nat) × List (List R) × List (List R) × List Nat :=
  (paths.map (fun row => row.filter (fun a => decide (0 < a))),
   (paths.zip times).map (fun rt =>
     ((rt.1.zip rt.2).filter (fun p => decide (0 < p.1))).map (·.2)),
   (paths.zip dists).map (fun rt =>
     ((rt.1.zip rt.2).filter (fun p => decide (0 < p.1))).map (·.2)),
   paths.map (fun row => (firstTrue (fun a => decide (0 < a)) row).getD 0))

/-! ## Network build: outlet flagging (`modify.nhd`) and `unpack_nhd` -/

/-- One reach record of the condensed NHD table, restricted to the columns
that the outlet flagging and the node extraction read.  `tocomid` is
`none` where the table holds NaN. -/
structure NhdRow where
  comid : Int
  tocomid : Option Int
  hydroseq : Int
  terminal_path : Int
  streamcalc : Int
  fcode : Int
deriving DecidableEq, Repr

/-- A reach record after the outlet flagging of `modify.nhd`. -/
structure FlaggedRow where
  comid : Int
  tocomid : Int
  outlet : Bool
deriving DecidableEq, Repr

/-- The outlet-flagging tail of `modify.nhd` (the statements from
`tocomid.fillna(-1)` to the severing of outlet connections).  A reach is
flagged when its hydroseq is a terminal-path id, when it drains to a comid
outside the table while having positive streamcalc, or when its fcode
marks it coastal; flagged reaches get their downstream comid severed
to 0.  The divergence merge earlier in `modify.nhd` only drops duplicate
downstream records and leaves tables without divergences unchanged, so it
is not part of this model. -/
def nhdOutletFlag (t : List NhdRow) (r : NhdRow) : Bool :=
  decide (r.hydroseq ∈ t.map (·.terminal_path)) ||
  (decide (r.tocomid.getD (-1) ∉ t.map (·.comid)) && decide (0 < r.streamcalc)) ||
  decide (r.fcode = 56600)

def modify_nhd_outlets (t : List NhdRow) : List FlaggedRow :=
  t.map (fun r =>
    { comid := r.comid
      tocomid := if nhdOutletFlag t r then 0 else r.tocomid.getD (-1)
      outlet := nhdOutletFlag t r })

/-- The node and outlet extraction of `NavigatorBuilder.unpack_nhd`: each
comid becomes the dense alias equal to its row position, downstream comids
not present in the table become the sentinel `-1`, and the outlets are the
aliases of the rows flagged by `modify.nhd`.  The reverse lookup
`conversion` is the comid column itself (sorting the arange-valued series
by value keeps the original order). -/
def tableComids (t : List FlaggedRow) : List Int := t.map (·.comid)

/-- The alias (dense index) of one comid: its position in the comid
column, or the sentinel `-1` when absent (`fillna(-1)`). -/
def aliasOf (comids : List Int) (c : Int) : Int :=
  match scanFor comids c with
  | some i => (i : Int)
  | none => -1

def unpack_nodes (t : List FlaggedRow) : List (Int × Nat) :=
  t.map (fun r =>
    (aliasOf (tableComids t) r.tocomid, (scanFor (tableComids t) r.comid).getD 0))

def unpack_outlets (t : List FlaggedRow) : List Nat :=
  (t.filter (·.outlet)).map (fun r => (scanFor (tableComids t) r.comid).getD 0)

def unpack_nhd (t : List FlaggedRow) :
    List (Int × Nat) × List Nat × List Int :=
  (unpack_nodes t, unpack_outlets t, tableComids t)

/-- The network build behind claim C3: outlet flagging followed by node
extraction. -/
def build_network (t : List NhdRow) : List (Int × Nat) × List Nat × List Int :=
  unpack_nhd (modify_nhd_outlets t)

/-! ## Basic lemmas about the list helpers -/

theorem getD_set_self {l : List α} {i : Nat} (x d : α) (h : i < l.length) :
    (l.set i x).getD i d = x := by
  simp [List.getD_eq_getElem?_getD, List.getElem?_set, h]

theorem getD_set_ne {l : List α} {i j : Nat} (x d : α) (h : i ≠ j) :
    (l.set i x).getD j d = l.getD j d := by
  simp [List.getD_eq_getElem?_getD, List.getElem?_set, h]

theorem getD_replicate {n i : Nat} (a : α) : (List.replicate n a).getD i a = a := by
  rcases Nat.lt_or_ge i n with h | h
  · simp [List.getD_eq_getElem?_getD, List.getElem?_replicate, h]
  · simp [List.getD_eq_getElem?_getD, List.getElem?_eq_none,
      (List.length_replicate n a).symm ▸ h]

theorem getD_append_left {l₁ l₂ : List α} {i : Nat} (d : α) (h : i < l₁.length) :
    (l₁ ++ l₂).getD i d = l₁.getD i d := by
  simp [List.getD_eq_getElem?_getD, List.getElem?_append, h]

theorem getD_append_right {l₁ l₂ : List α} {i : Nat} (d : α) (h : l₁.length ≤ i) :
    (l₁ ++ l₂).getD i d = l₂.getD (i - l₁.length) d := by
  simp [List.getD_eq_getElem?_getD, List.getElem?_append_right, h]

theorem getD_take_lt {l : List α} {n i : Nat} (d : α) (h : i < n) :
    (l.take n).getD i d = l.getD i d := by
  simp [List.getD_eq_getElem?_getD, List.getElem?_take, h]

theorem getD_of_le {l : List α} {i : Nat} (d : α) (h : l.length ≤ i) :
    l.getD i d = d := by
  simp [List.getD_eq_getElem?_getD, List.getElem?_eq_none, h]

theorem getD_drop {l : List α} (n i : Nat) (d : α) :
    (l.drop n).getD i d = l.getD (n + i) d := by
  simp [List.getD_eq_getElem?_getD, List.getElem?_drop]

theorem getD_zipWith {f : α → β → γ} {l₁ : List α} {l₂ : List β} {i : Nat}
    (d₁ : α) (d₂ : β) (d : γ) (h₁ : i < l₁.length) (h₂ : i < l₂.length) :
    (List.zipWith f l₁ l₂).getD i d = f (l₁.getD i d₁) (l₂.getD i d₂) := by
  simp [List.getD_eq_getElem?_getD, List.getElem?_zipWith,
    List.getElem?_eq_getElem, h₁, h₂]

theorem getD_map {f : α → β} {l : List α} {i : Nat} (d : α) (h : i < l.length) :
    (l.map f).getD i (f d) = f (l.getD i d) := by
  simp [List.getD_eq_getElem?_getD, List.getElem?_map, List.getElem?_eq_getElem, h]

theorem length_cumsumFrom {R : Type} [AddCommMonoid R] (acc : R) (l : List R) :
    (cumsumFrom acc l).length = l.length := by
  induction l generalizing acc with
  | nil => rfl
  | cons x xs ih => simp [cumsumFrom, ih]

theorem length_cumsum {R : Type} [AddCommMonoid R] (l : List R) :
    (cumsum l).length = l.length :=
  length_cumsumFrom 0 l

theorem cumsumFrom_getD {R : Type} [AddCommMonoid R] (acc : R) (l : List R)
    (p : Nat) (h : p < l.length) :
    (cumsumFrom acc l).getD p 0 = acc + (l.take (p + 1)).sum := by
  induction l generalizing acc p with
  | nil => simp at h
  | cons x xs ih =>
    cases p with
    | zero => simp [cumsumFrom]
    | succ p =>
      have hp : p < xs.length := by simpa using h
      simp only [cumsumFrom, List.getD_cons_succ, List.take_succ_cons, List.sum_cons]
      rw [ih (acc + x) p hp]
      rw [add_assoc]

theorem cumsum_getD {R : Type} [AddCommMonoid R] (l : List R) (p : Nat)
    (h : p < l.length) :
    (cumsum l).getD p 0 = (l.take (p + 1)).sum := by
  rw [cumsum, cumsumFrom_getD 0 l p h, zero_add]

theorem length_zeroFrom (l : List α) (k : Nat) (z : α) :
    (zeroFrom l k z).length = l.length := by
  simp [zeroFrom]
  omega

theorem getD_zeroFrom_lt {l : List α} {k j : Nat} (z d : α) (h : j < k) :
    (zeroFrom l k z).getD j d = l.getD j d := by
  unfold zeroFrom
  rcases Nat.lt_or_ge j l.length with hj | hj
  · rw [getD_append_left _ (by simp; omega), getD_take_lt _ h]
  · rw [getD_of_le _ (by rw [List.length_append, List.length_take, List.length_replicate]; omega),
      getD_of_le _ hj]

theorem getD_zeroFrom_ge {l : List α} {k j : Nat} (z : α) (h : k ≤ j) :
    (zeroFrom l k z).getD j z = z := by
  unfold zeroFrom
  rcases Nat.lt_or_ge j l.length with hj | hj
  · rw [getD_append_right _ (by simp; omega)]
    exact getD_replicate z
  · rw [getD_of_le _ (by rw [List.length_append, List.length_take, List.length_replicate]; omega)]

theorem firstTrue_eq_none_iff {p : α → Bool} {l : List α} :
    firstTrue p l = none ↔ ∀ x ∈ l, p x = false := by
  induction l with
  | nil => simp [firstTrue]
  | cons x xs ih =>
    by_cases hx : p x
    · simp [firstTrue, hx]
    · simp only [firstTrue, if_neg hx, Option.map_eq_none', ih, List.mem_cons]
      constructor
      · rintro h y (rfl | hy)
        · exact Bool.eq_false_iff.mpr hx
        · exact h y hy
      · intro h y hy
        exact h y (Or.inr hy)

theorem firstTrue_some {p : α → Bool} {l : List α} {j : Nat}
    (h : firstTrue p l = some j) (d : α) :
    j < l.length ∧ p (l.getD j d) = true ∧ ∀ i, i < j → p (l.getD i d) = false := by
  induction l generalizing j with
  | nil => simp [firstTrue] at h
  | cons x xs ih =>
    by_cases hx : p x
    · simp only [firstTrue, if_pos hx] at h
      cases h
      exact ⟨by simp, by simpa using hx, by omega⟩
    · simp only [firstTrue, if_neg hx, Option.map_eq_some'] at h
      obtain ⟨j', hj', rfl⟩ := h
      obtain ⟨h1, h2, h3⟩ := ih hj'
      refine ⟨by simpa using h1, by simpa using h2, ?_⟩
      intro i hi
      cases i with
      | zero => simpa using Bool.eq_false_iff.mpr hx
      | succ i => simpa using h3 i (by omega)

theorem firstTrue_isSome_of_getD {p : α → Bool} {l : List α} {i : Nat} (d : α)
    (hi : i < l.length) (hp : p (l.getD i d) = true) :
    (firstTrue p l).isSome := by
  cases hf : firstTrue p l with
  | some j => simp
  | none =>
    have hmem : l.getD i d ∈ l := by
      rw [List.getD_eq_getElem l d hi]
      exact List.getElem_mem hi
    have := firstTrue_eq_none_iff.mp hf (l.getD i d) hmem
    rw [hp] at this
    cases this

/-! ## Generic preservation machinery for the trace loop -/

/-- A predicate preserved by every non-failing step of the loop. -/
def StepPres {R : Type} [AddCommMonoid R] (cfg : NavCfg R) (P : TraceSt R → Prop) : Prop :=
  ∀ s s', P s → (step cfg s = .cont s' ∨ step cfg s = .done s') → P s'

theorem traceOutlet_pres {R : Type} [AddCommMonoid R] {cfg : NavCfg R}
    {P : TraceSt R → Prop} (hP : StepPres cfg P) :
    ∀ (fuel : Nat) (s s' : TraceSt R), P s → traceOutlet cfg fuel s = .ok s' → P s' := by
  intro fuel
  induction fuel with
  | zero => intro s s' _ h; simp [traceOutlet] at h
  | succ fuel ih =>
    intro s s' hs h
    unfold traceOutlet at h
    cases hstep : step cfg s with
    | fail e => rw [hstep] at h; cases h
    | done s₁ =>
      rw [hstep] at h
      cases h
      exact hP s s' hs (Or.inr hstep)
    | cont s₁ =>
      rw [hstep] at h
      exact ih s₁ s' (hP s s₁ hs (Or.inl hstep)) h

theorem traceOutlet_err {R : Type} [AddCommMonoid R] {cfg : NavCfg R}
    {P : TraceSt R → Prop} (hP : StepPres cfg P) :
    ∀ (fuel : Nat) (s : TraceSt R) (e : TraceErr), P s →
      traceOutlet cfg fuel s = .error e →
      e = .fuelOut ∨ ∃ s₀, P s₀ ∧ step cfg s₀ = .fail e := by
  intro fuel
  induction fuel with
  | zero =>
    intro s e _ h
    simp [traceOutlet] at h
    exact Or.inl h.symm
  | succ fuel ih =>
    intro s e hs h
    unfold traceOutlet at h
    cases hstep : step cfg s with
    | fail e' =>
      rw [hstep] at h
      cases h
      exact Or.inr ⟨s, hs, hstep⟩
    | done s₁ => rw [hstep] at h; cases h
    | cont s₁ =>
      rw [hstep] at h
      exact ih s₁ e (hP s s₁ hs (Or.inl hstep)) h

theorem runOutlets_pres {R : Type} [AddCommMonoid R] {cfg : NavCfg R}
    {P : TraceSt R → Prop} (hP : StepPres cfg P)
    (outlets : List Nat)
    (hI : ∀ s o, o ∈ outlets → P s → P (initOutlet cfg s o)) :
    ∀ (fuel : Nat) (s s' : TraceSt R), P s →
      runOutlets cfg fuel outlets s = .ok s' → P s' := by
  induction outlets with
  | nil =>
    intro fuel s s' hs h
    simp [runOutlets] at h
    exact h ▸ hs
  | cons o os ih =>
    intro fuel s s' hs h
    unfold runOutlets at h
    cases htr : traceOutlet cfg fuel (initOutlet cfg s o) with
    | error e => rw [htr] at h; cases h
    | ok s₁ =>
      rw [htr] at h
      have h₁ : P s₁ := traceOutlet_pres hP fuel _ s₁
        (hI s o (by simp) hs) htr
      exact ih (fun s o' ho' => hI s o' (by simp [ho'])) fuel s₁ s' h₁ h

theorem runOutlets_err {R : Type} [AddCommMonoid R] {cfg : NavCfg R}
    {P : TraceSt R → Prop} (hP : StepPres cfg P)
    (outlets : List Nat)
    (hI : ∀ s o, o ∈ outlets → P s → P (initOutlet cfg s o)) :
    ∀ (fuel : Nat) (s : TraceSt R) (e : TraceErr), P s →
      runOutlets cfg fuel outlets s = .error e →
      e = .fuelOut ∨ ∃ s₀, P s₀ ∧ step cfg s₀ = .fail e := by
  induction outlets with
  | nil => intro fuel s e _ h; simp [runOutlets] at h
  | cons o os ih =>
    intro fuel s e hs h
    unfold runOutlets at h
    cases htr : traceOutlet cfg fuel (initOutlet cfg s o) with
    | error e' =>
      rw [htr] at h
      cases h
      exact traceOutlet_err hP fuel _ e (hI s o (by simp) hs) htr
    | ok s₁ =>
      rw [htr] at h
      have h₁ : P s₁ := traceOutlet_pres hP fuel _ s₁ (hI s o (by simp) hs) htr
      exact ih (fun s o' ho' => hI s o' (by simp [ho'])) fuel s₁ e h₁ h

/-! ## Shape lemmas for one loop iteration -/

theorem pushAll_error {a : Nat} {us : List Nat} {queue : List (Nat × Nat)}
    {qc : Int} {e : TraceErr} (h : pushAll a us queue qc = .error e) :
    e = .queueOverflow := by
  induction us generalizing queue qc with
  | nil => simp [pushAll] at h
  | cons u us ih =>
    unfold pushAll at h
    split at h
    · cases h
      rfl
    · exact ih h

theorem step_cont_shape {R : Type} [AddCommMonoid R] {cfg : NavCfg R}
    {s s' : TraceSt R} (h : step cfg s = .cont s') :
    cfg.conversion s.active ∉ s.already ∧ s.cursor < cfg.maxLength ∧
    ((∃ u0 rest queue qc, upstreamOf cfg.nodes s.active = u0 :: rest ∧
        pushAll s.active rest s.queue s.queueCursor = .ok (queue, qc) ∧
        s' = { visit cfg s with queue := queue, queueCursor := qc, active := u0 }) ∨
     (∃ k, upstreamOf cfg.nodes s.active = [] ∧ s.rows.length < cfg.maxPaths ∧
        npIndex s.queue.length (s.queueCursor - 1) = some k ∧
        s.queue.getD k (0, 0) ≠ (0, 0) ∧
        s' = resume { commit (visit cfg s) with queueCursor := s.queueCursor - 1 }
          (s.queue.getD k (0, 0)))) := by
  unfold step at h
  split at h
  · cases h
  next h1 =>
    split at h
    next h2 =>
      refine ⟨h1, h2, ?_⟩
      split at h
      next u0 rest hup =>
        split at h
        next e hpush => cases h
        next queue qc hpush =>
          cases h
          exact Or.inl ⟨u0, rest, queue, qc, hup, hpush, rfl⟩
      next hup =>
        split at h
        next h3 =>
          split at h
          next hidx => cases h
          next k hidx =>
            split at h
            next h4 => cases h
            next h4 =>
              cases h
              exact Or.inr ⟨k, hup, h3, hidx, h4, rfl⟩
        next h3 => cases h
    next h2 => cases h

theorem step_done_shape {R : Type} [AddCommMonoid R] {cfg : NavCfg R}
    {s s' : TraceSt R} (h : step cfg s = .done s') :
    cfg.conversion s.active ∉ s.already ∧ s.cursor < cfg.maxLength ∧
    upstreamOf cfg.nodes s.active = [] ∧ s.rows.length < cfg.maxPaths ∧
    ∃ k, npIndex s.queue.length (s.queueCursor - 1) = some k ∧
      s.queue.getD k (0, 0) = (0, 0) ∧
      s' = { commit (visit cfg s) with queueCursor := s.queueCursor - 1 } := by
  unfold step at h
  split at h
  · cases h
  next h1 =>
    split at h
    next h2 =>
      refine ⟨h1, h2, ?_⟩
      split at h
      next u0 rest hup =>
        split at h
        next e hpush => cases h
        next queue qc hpush => cases h
      next hup =>
        split at h
        next h3 =>
          split at h
          next hidx => cases h
          next k hidx =>
            split at h
            next h4 =>
              cases h
              exact ⟨hup, h3, k, hidx, h4, rfl⟩
            next h4 => cases h
        next h3 => cases h
    next h2 => cases h

theorem step_fail_shape {R : Type} [AddCommMonoid R] {cfg : NavCfg R}
    {s : TraceSt R} {e : TraceErr} (h : step cfg s = .fail e) :
    (e = .cycleAt (cfg.conversion s.active) ∧ cfg.conversion s.active ∈ s.already) ∨
    (cfg.conversion s.active ∉ s.already ∧
      ((e = .lengthOverflow ∧ ¬ s.cursor < cfg.maxLength) ∨
       (s.cursor < cfg.maxLength ∧
        ((e = .queueOverflow ∧ ∃ u0 rest, upstreamOf cfg.nodes s.active = u0 :: rest) ∨
         (upstreamOf cfg.nodes s.active = [] ∧
          ((e = .pathOverflow ∧ ¬ s.rows.length < cfg.maxPaths) ∨
           (e = .queueOverflow ∧ s.rows.length < cfg.maxPaths ∧
            npIndex s.queue.length (s.queueCursor - 1) = none))))))) := by
  unfold step at h
  split at h
  next h1 =>
    cases h
    exact Or.inl ⟨rfl, h1⟩
  next h1 =>
    refine Or.inr ⟨h1, ?_⟩
    split at h
    next h2 =>
      refine Or.inr ⟨h2, ?_⟩
      split at h
      next u0 rest hup =>
        split at h
        next e' hpush =>
          cases h
          exact Or.inl ⟨pushAll_error hpush, u0, rest, hup⟩
        next queue qc hpush => cases h
      next hup =>
        refine Or.inr ⟨hup, ?_⟩
        split at h
        next h3 =>
          split at h
          next hidx =>
            cases h
            exact Or.inr ⟨rfl, h3, hidx⟩
          next k hidx =>
            split at h
            next h4 => cases h
            next h4 => cases h
        next h3 =>
          cases h
          exact Or.inl ⟨rfl, h3⟩
    next h2 =>
      cases h
      exact Or.inl ⟨rfl, h2⟩

/-! ## Further helper lemmas -/

instance {e a : Type} [DecidableEq e] [DecidableEq a] : DecidableEq (Except e a) :=
  fun x y =>
    match x, y with
    | .ok v, .ok w =>
      if h : v = w then isTrue (by rw [h]) else isFalse (fun hh => h (Except.ok.inj hh))
    | .error v, .error w =>
      if h : v = w then isTrue (by rw [h]) else isFalse (fun hh => h (Except.error.inj hh))
    | .ok _, .error _ => isFalse (fun hh => Except.noConfusion hh)
    | .error _, .ok _ => isFalse (fun hh => Except.noConfusion hh)

theorem foldl_inv {β γ : Type} (P : γ → Prop) (f : γ → β → γ) (l : List β) (b : γ)
    (hb : P b) (hf : ∀ c x, x ∈ l → P c → P (f c x)) : P (l.foldl f b) := by
  induction l generalizing b with
  | nil => exact hb
  | cons x xs ih =>
    exact ih (f b x) (hf b x (by simp) hb) (fun c y hy => hf c y (by simp [hy]))

theorem getD_map_take {α : Type} (l : List (List α)) (n i : Nat) :
    (l.map (·.take n)).getD i [] = (l.getD i []).take n := by
  rcases Nat.lt_or_ge i l.length with h | h
  · rw [List.getD_eq_getElem _ _ (by simpa using h), List.getD_eq_getElem _ _ h,
      List.getElem_map]
  · rw [getD_of_le _ (by simpa using h), getD_of_le _ h, List.take_nil]

theorem scanFor_mem {α : Type} [DecidableEq α] {l : List α} {x : α} (hx : x ∈ l) :
    ∃ i, scanFor l x = some i := by
  unfold scanFor
  cases hs : firstTrue (fun y => decide (y = x)) l with
  | some i => exact ⟨i, rfl⟩
  | none =>
    exfalso
    have := firstTrue_eq_none_iff.mp hs x hx
    simp at this

theorem scanFor_some {α : Type} [DecidableEq α] {l : List α} {x : α} {i : Nat}
    (h : scanFor l x = some i) (d : α) :
    i < l.length ∧ l.getD i d = x ∧ ∀ k, k < i → l.getD k d ≠ x := by
  obtain ⟨h1, h2, h3⟩ := firstTrue_some h d
  refine ⟨h1, by simpa using h2, fun k hk => by simpa using h3 k hk⟩

theorem scanFor_none {α : Type} [DecidableEq α] {l : List α} {x : α}
    (h : x ∉ l) : scanFor l x = none := by
  apply firstTrue_eq_none_iff.mpr
  intro y hy
  simp only [decide_eq_false_iff_not]
  rintro rfl
  exact h hy

theorem nodup_getD_inj {α : Type} {d : α} {l : List α} (hl : l.Nodup)
    {i j : Nat} (hi : i < l.length) (hj : j < l.length)
    (h : l.getD i d = l.getD j d) : i = j := by
  rw [List.getD_eq_getElem _ _ hi, List.getD_eq_getElem _ _ hj] at h
  exact List.Nodup.getElem_inj_iff hl |>.mp h

/-! ## Claim C8: determinism of the enumerator -/

/-- Claim C8: running `rapid_trace` twice on the same unchanged network
with the same configuration (same nodes, outlets, attribute tables,
`max_length`, `max_paths`) produces identical path, cumulative-time and
cumulative-distance arrays.  The trace is a pure function of these inputs
(the source's only other effect is progress logging), and its traversal
tie-break is fixed by input order, so pointwise-equal inputs give
byte-identical outputs. -/
theorem rapid_trace_deterministic {R : Type} [AddCommMonoid R]
    (cfg cfg' : NavCfg R) (outlets outlets' : List Nat) (fuel fuel' : Nat)
    (hn : cfg.nodes = cfg'.nodes)
    (ht : ∀ a, cfg.times a = cfg'.times a)
    (hd : ∀ a, cfg.dists a = cfg'.dists a)
    (hc : ∀ a, cfg.conversion a = cfg'.conversion a)
    (hml : cfg.maxLength = cfg'.maxLength)
    (hmp : cfg.maxPaths = cfg'.maxPaths)
    (ho : outlets = outlets') (hf : fuel = fuel') :
    rapid_trace cfg outlets fuel = rapid_trace cfg' outlets' fuel' := by
  have hcfg : cfg = cfg' := by
    obtain ⟨n1, t1, d1, c1, l1, p1⟩ := cfg
    obtain ⟨n2, t2, d2, c2, l2, p2⟩ := cfg'
    simp only at hn ht hd hc hml hmp
    subst hn hml hmp
    rw [funext ht, funext hd, funext hc]
  rw [hcfg, ho, hf]

/-- A concrete network configuration used by claim witnesses. -/
def witCfgA : NavCfg Int :=
  { nodes := [(-1, 1), (1, 2), (1, 3), (2, 4)], times := fun _ => 2,
    dists := fun _ => 1, conversion := fun a => (a : Int) + 100,
    maxLength := 6, maxPaths := 6 }

/-- The same network as `witCfgA`, written differently. -/
def witCfgB : NavCfg Int :=
  { nodes := [(-1, 1), (1, 2), (1, 3), (2, 4)], times := fun _ => 1 + 1,
    dists := fun _ => 1, conversion := fun a => 100 + (a : Int),
    maxLength := 6, maxPaths := 6 }

/-- Witness for claim C8 at a concrete four-reach network. -/
theorem rapid_trace_deterministic_witness :
    rapid_trace witCfgA [1] 20 = rapid_trace witCfgB [1] 20 :=
  rapid_trace_deterministic witCfgA witCfgB [1] [1] 20 20 rfl (fun _ => rfl)
    (fun _ => rfl) (fun a => by simp [witCfgA, witCfgB, Int.add_comm])
    rfl rfl rfl rfl

/-! ## Claim C3: outlets versus sentinel downstream aliases -/

theorem modify_comids (t : List NhdRow) :
    tableComids (modify_nhd_outlets t) = t.map (·.comid) := by
  unfold tableComids modify_nhd_outlets
  rw [List.map_map]
  rfl

theorem flagged_outlet_tocomid {t : List NhdRow} {r : FlaggedRow}
    (hr : r ∈ modify_nhd_outlets t) (hout : r.outlet = true) : r.tocomid = 0 := by
  unfold modify_nhd_outlets at hr
  obtain ⟨r0, _, rfl⟩ := List.mem_map.mp hr
  simp only at hout ⊢
  rw [hout]
  simp

/-- Claim C3 counterexample input: a single reach whose downstream comid
99 is absent from the table (dangling) and whose streamcalc is 0, so no
flagging rule fires. -/
def nhdDangling : List NhdRow :=
  [{ comid := 10, tocomid := some 99, hydroseq := 1, terminal_path := 5,
     streamcalc := 0, fcode := 0 }]

/-- Claim C3 counterexample: on `nhdDangling` the only alias, 0, has the
sentinel `-1` as its downstream alias, yet the outlets list does not
contain it — so the outlets list does not equal the set of
sentinel-downstream aliases. -/
theorem sentinel_alias_not_outlet :
    ((build_network nhdDangling).1.getD 0 (0, 0)).1 = -1 ∧
    (0 : Nat) ∉ (build_network nhdDangling).2.1 := by decide

/-- Claim C3 amended: every alias in the outlets list produced by the
network build has the sentinel `-1` as its downstream alias (assuming
distinct comids and that no reach has comid 0, the severing value); the
converse inclusion fails, because a reach with a dangling downstream
reference but nonpositive streamcalc is not flagged as an outlet. -/
theorem outlets_have_sentinel_downstream (t : List NhdRow)
    (hnodup : (t.map (·.comid)).Nodup)
    (h0 : (0 : Int) ∉ t.map (·.comid)) :
    ∀ al ∈ (build_network t).2.1, ((build_network t).1.getD al (0, 0)).1 = -1 := by
  intro al hal
  unfold build_network unpack_nhd at hal ⊢
  simp only at hal ⊢
  unfold unpack_outlets at hal
  obtain ⟨r, hrf, rfl⟩ := List.mem_map.mp hal
  obtain ⟨hr, hout⟩ := List.mem_filter.mp hrf
  have hcom : tableComids (modify_nhd_outlets t) = t.map (·.comid) := modify_comids t
  have hmem : r.comid ∈ tableComids (modify_nhd_outlets t) :=
    List.mem_map.mpr ⟨r, hr, rfl⟩
  obtain ⟨i, hscan⟩ := scanFor_mem hmem
  obtain ⟨hilt, hieq, -⟩ := scanFor_some hscan (0 : Int)
  have hlen : (tableComids (modify_nhd_outlets t)).length =
      (modify_nhd_outlets t).length := by
    unfold tableComids
    simp
  obtain ⟨j, hj, hjr⟩ := List.mem_iff_getElem.mp hr
  have hcj : (tableComids (modify_nhd_outlets t)).getD j 0 = r.comid := by
    rw [List.getD_eq_getElem _ _ (hlen ▸ hj)]
    unfold tableComids
    rw [List.getElem_map]
    rw [hjr]
  have hnd : (tableComids (modify_nhd_outlets t)).Nodup := by
    rw [hcom]; exact hnodup
  have hij : i = j := by
    have heq : (tableComids (modify_nhd_outlets t)).getD i (default : Int) =
        (tableComids (modify_nhd_outlets t)).getD j (default : Int) := by
      have hieq' : (tableComids (modify_nhd_outlets t)).getD i (default : Int) = r.comid := by
        rw [List.getD_eq_getElem _ _ hilt] at hieq ⊢
        exact hieq
      have hcj' : (tableComids (modify_nhd_outlets t)).getD j (default : Int) = r.comid := by
        rw [List.getD_eq_getElem _ _ (hlen ▸ hj)] at hcj ⊢
        exact hcj
      rw [hieq', hcj']
    exact nodup_getD_inj hnd hilt (hlen ▸ hj) heq
  subst hij
  rw [hscan]
  simp only [Option.getD_some]
  unfold unpack_nodes
  rw [List.getD_eq_getElem _ _ (by simpa using hj), List.getElem_map, hjr]
  simp only
  have htoc : r.tocomid = 0 := flagged_outlet_tocomid hr hout
  rw [htoc]
  unfold aliasOf
  rw [scanFor_none (by rw [hcom]; exact h0)]

/-- Claim C3 witness input: reach 10 is flagged a terminal-path outlet
(and its dangling downstream 99 is severed), reach 11 drains to it. -/
def nhdFlagged : List NhdRow :=
  [{ comid := 10, tocomid := some 99, hydroseq := 1, terminal_path := 1,
     streamcalc := 3, fcode := 0 },
   { comid := 11, tocomid := some 10, hydroseq := 2, terminal_path := 1,
     streamcalc := 3, fcode := 0 }]

/-- Witness for the amended claim C3 at `nhdFlagged`: alias 0 is in the
outlets list, and the theorem yields its sentinel downstream alias. -/
theorem outlets_have_sentinel_downstream_witness :
    ((build_network nhdFlagged).1.getD 0 (0, 0)).1 = -1 :=
  outlets_have_sentinel_downstream nhdFlagged (by decide) (by decide) 0 (by decide)

/-! ## Claim C7: the array compactor -/

theorem mem_take_start_not_pos {row : List Nat} {x : Nat}
    (hx : x ∈ row.take ((firstTrue (fun a => decide (0 < a)) row).getD 0)) :
    ¬ 0 < x := by
  cases hf : firstTrue (fun a => decide (0 < a)) row with
  | none =>
    rw [hf] at hx
    simp at hx
  | some j =>
    rw [hf] at hx
    obtain ⟨k, hk, hkx⟩ := List.mem_iff_getElem.mp hx
    have hkj : k < j := lt_of_lt_of_le hk (by simp [List.length_take])
    have hkr : k < row.length := by
      have := hk
      simp [List.length_take] at this
      omega
    have hfalse := (firstTrue_some hf 0).2.2 k hkj
    rw [List.getD_eq_getElem _ _ hkr] at hfalse
    rw [List.getElem_take] at hkx
    rw [hkx] at hfalse
    simpa using hfalse

theorem mem_drop_start_pos {row : List Nat} {x : Nat}
    (hcontig : ∀ j, (firstTrue (fun a => decide (0 < a)) row).getD 0 ≤ j →
      j < row.length → 0 < row.getD j 0)
    (hx : x ∈ row.drop ((firstTrue (fun a => decide (0 < a)) row).getD 0)) :
    0 < x := by
  obtain ⟨k, hk, hkx⟩ := List.mem_iff_getElem.mp hx
  rw [List.getElem_drop] at hkx
  have hklen : (firstTrue (fun a => decide (0 < a)) row).getD 0 + k < row.length := by
    have := hk
    simp [List.length_drop] at this
    omega
  have := hcontig _ (Nat.le_add_right _ k) hklen
  rw [List.getD_eq_getElem _ _ hklen, hkx] at this
  exact this

theorem filter_pos_eq_drop (row : List Nat)
    (hcontig : ∀ j, (firstTrue (fun a => decide (0 < a)) row).getD 0 ≤ j →
      j < row.length → 0 < row.getD j 0) :
    row.filter (fun a => decide (0 < a)) =
      row.drop ((firstTrue (fun a => decide (0 < a)) row).getD 0) := by
  conv_lhs => rw [← List.take_append_drop ((firstTrue (fun a => decide (0 < a)) row).getD 0) row]
  rw [List.filter_append]
  have h1 : (row.take ((firstTrue (fun a => decide (0 < a)) row).getD 0)).filter
      (fun a => decide (0 < a)) = [] := by
    apply List.filter_eq_nil_iff.mpr
    intro x hx
    simpa using mem_take_start_not_pos hx
  have h2 : (row.drop ((firstTrue (fun a => decide (0 < a)) row).getD 0)).filter
      (fun a => decide (0 < a)) =
      row.drop ((firstTrue (fun a => decide (0 < a)) row).getD 0) := by
    apply List.filter_eq_self.mpr
    intro x hx
    simpa using mem_drop_start_pos hcontig hx
  rw [h1, h2, List.nil_append]

theorem zip_filter_pos_eq_drop {R : Type} (row : List Nat) (vals : List R)
    (hlen : vals.length = row.length)
    (hcontig : ∀ j, (firstTrue (fun a => decide (0 < a)) row).getD 0 ≤ j →
      j < row.length → 0 < row.getD j 0) :
    ((row.zip vals).filter (fun p => decide (0 < p.1))).map Prod.snd =
      vals.drop ((firstTrue (fun a => decide (0 < a)) row).getD 0) := by
  have hzip : row.zip vals =
      (row.take ((firstTrue (fun a => decide (0 < a)) row).getD 0)).zip
        (vals.take ((firstTrue (fun a => decide (0 < a)) row).getD 0)) ++
      (row.drop ((firstTrue (fun a => decide (0 < a)) row).getD 0)).zip
        (vals.drop ((firstTrue (fun a => decide (0 < a)) row).getD 0)) := by
    rw [← List.zip_append (by simp [List.length_take, hlen])]
    rw [List.take_append_drop, List.take_append_drop]
  rw [hzip, List.filter_append]
  have h1 : ((row.take ((firstTrue (fun a => decide (0 < a)) row).getD 0)).zip
      (vals.take ((firstTrue (fun a => decide (0 < a)) row).getD 0))).filter
      (fun p => decide (0 < p.1)) = [] := by
    apply List.filter_eq_nil_iff.mpr
    intro p hp
    have := (List.of_mem_zip hp).1
    simpa using mem_take_start_not_pos this
  have h2 : ((row.drop ((firstTrue (fun a => decide (0 < a)) row).getD 0)).zip
      (vals.drop ((firstTrue (fun a => decide (0 < a)) row).getD 0))).filter
      (fun p => decide (0 < p.1)) =
      (row.drop ((firstTrue (fun a => decide (0 < a)) row).getD 0)).zip
        (vals.drop ((firstTrue (fun a => decide (0 < a)) row).getD 0)) := by
    apply List.filter_eq_self.mpr
    intro p hp
    have := (List.of_mem_zip hp).1
    simpa using mem_drop_start_pos hcontig this
  rw [h1, h2, List.nil_append]
  apply List.map_snd_zip
  simp [List.length_drop, List.length_take, hlen]

/-- Claim C7 counterexample: on the single-row Path Table `[[2, 0, 3]]`
(alias 0 occupies an interior cell) the compactor reports start column 0
but returns `[2, 3]`, which is not the row's occupied suffix
`[2, 0, 3]` from the start column: interior zero cells are dropped too,
and the third cell's absolute column is 2, not its trimmed offset 1 plus
the start 0. -/
theorem collapse_array_counterexample :
    (collapse_array [[2, 0, 3]] [[(1 : Int), 1, 1]] [[1, 1, 1]]).2.2.2 = [0] ∧
    (collapse_array [[2, 0, 3]] [[(1 : Int), 1, 1]] [[1, 1, 1]]).1.getD 0 [] = [2, 3] ∧
    (collapse_array [[2, 0, 3]] [[(1 : Int), 1, 1]] [[1, 1, 1]]).1.getD 0 [] ≠
      ([2, 0, 3] : List Nat).drop 0 := by decide

/-- Claim C7 amended: for each row, `collapse_array` keeps exactly the
cells with positive alias, in order, applying the same mask to the time
and distance rows, and records the row's first occupied column as its
start; when the row's positive cells run contiguously from that first
occupied column to the end of the row, the trimmed arrays equal the
row's suffix from the recorded start column, so each retained cell's
absolute column is its offset in the trimmed row plus the start. -/
theorem collapse_array_trims {R : Type} (paths : List (List Nat))
    (times dists : List (List R)) (i : Nat)
    (hi : i < paths.length) (hiT : i < times.length) (hiD : i < dists.length)
    (hT : (times.getD i []).length = (paths.getD i []).length)
    (hD : (dists.getD i []).length = (paths.getD i []).length)
    (hcontig : ∀ j, (firstTrue (fun a => decide (0 < a)) (paths.getD i [])).getD 0 ≤ j →
      j < (paths.getD i []).length → 0 < (paths.getD i []).getD j 0) :
    (collapse_array paths times dists).2.2.2.getD i 0 =
      (firstTrue (fun a => decide (0 < a)) (paths.getD i [])).getD 0 ∧
    (collapse_array paths times dists).1.getD i [] =
      (paths.getD i []).drop ((collapse_array paths times dists).2.2.2.getD i 0) ∧
    (collapse_array paths times dists).2.1.getD i [] =
      (times.getD i []).drop ((collapse_array paths times dists).2.2.2.getD i 0) ∧
    (collapse_array paths times dists).2.2.1.getD i [] =
      (dists.getD i []).drop ((collapse_array paths times dists).2.2.2.getD i 0) := by
  have hstart : (collapse_array paths times dists).2.2.2.getD i 0 =
      (firstTrue (fun a => decide (0 < a)) (paths.getD i [])).getD 0 := by
    unfold collapse_array
    simp only
    rw [List.getD_eq_getElem _ _ (by simpa using hi), List.getElem_map,
      List.getD_eq_getElem _ _ hi]
  refine ⟨hstart, ?_, ?_, ?_⟩
  · rw [hstart]
    unfold collapse_array
    simp only
    rw [List.getD_eq_getElem _ _ (by simpa using hi), List.getElem_map,
      ← List.getD_eq_getElem _ ([] : List Nat) hi]
    exact filter_pos_eq_drop _ hcontig
  · rw [hstart]
    unfold collapse_array
    simp only
    have hizip : i < (paths.zip times).length := by
      simp [List.length_zip]
      omega
    rw [List.getD_eq_getElem _ _ (by simpa using hizip), List.getElem_map,
      List.getElem_zip]
    rw [← List.getD_eq_getElem _ ([] : List Nat) hi,
      ← List.getD_eq_getElem _ ([] : List R) hiT]
    exact zip_filter_pos_eq_drop _ _ hT hcontig
  · rw [hstart]
    unfold collapse_array
    simp only
    have hizip : i < (paths.zip dists).length := by
      simp [List.length_zip]
      omega
    rw [List.getD_eq_getElem _ _ (by simpa using hizip), List.getElem_map,
      List.getElem_zip]
    rw [← List.getD_eq_getElem _ ([] : List Nat) hi,
      ← List.getD_eq_getElem _ ([] : List R) hiD]
    exact zip_filter_pos_eq_drop _ _ hD hcontig

/-- Witness for the amended claim C7 on the row `[0, 5, 7]`. -/
theorem collapse_array_trims_witness :
    (collapse_array [[0, 5, 7]] [[(1 : Int), 2, 3]] [[4, 5, 6]]).2.2.2.getD 0 0 =
      (firstTrue (fun a => decide (0 < a)) (([[0, 5, 7]] : List (List Nat)).getD 0 [])).getD 0 ∧
    (collapse_array [[0, 5, 7]] [[(1 : Int), 2, 3]] [[4, 5, 6]]).1.getD 0 [] =
      (([[0, 5, 7]] : List (List Nat)).getD 0 []).drop
        ((collapse_array [[0, 5, 7]] [[(1 : Int), 2, 3]] [[4, 5, 6]]).2.2.2.getD 0 0) ∧
    (collapse_array [[0, 5, 7]] [[(1 : Int), 2, 3]] [[4, 5, 6]]).2.1.getD 0 [] =
      (([[(1 : Int), 2, 3]] : List (List Int)).getD 0 []).drop
        ((collapse_array [[0, 5, 7]] [[(1 : Int), 2, 3]] [[4, 5, 6]]).2.2.2.getD 0 0) ∧
    (collapse_array [[0, 5, 7]] [[(1 : Int), 2, 3]] [[4, 5, 6]]).2.2.1.getD 0 [] =
      (([[(4 : Int), 5, 6]] : List (List Int)).getD 0 []).drop
        ((collapse_array [[0, 5, 7]] [[(1 : Int), 2, 3]] [[4, 5, 6]]).2.2.2.getD 0 0) :=
  collapse_array_trims [[0, 5, 7]] [[(1 : Int), 2, 3]] [[4, 5, 6]] 0
    (by decide) (by decide) (by decide) (by decide) (by decide) (by decide)

/-! ## Claim C9: alias 0 is treated as padding everywhere -/

/-- Invariant: committed cumulative rows are zero wherever the committed
alias row holds 0, and the three output tables have equal row counts. -/
def MaskInv {R : Type} [AddCommMonoid R] (s : TraceSt R) : Prop :=
  s.timeRows.length = s.rows.length ∧ s.distRows.length = s.rows.length ∧
  ∀ i p, (s.rows.getD i []).getD p 0 = 0 →
    (s.timeRows.getD i []).getD p 0 = 0 ∧ (s.distRows.getD i []).getD p 0 = 0

theorem maskInv_commit {R : Type} [AddCommMonoid R] (s : TraceSt R)
    (hs : MaskInv s) : MaskInv (commit s) := by
  obtain ⟨hTL, hDL, hm⟩ := hs
  refine ⟨by simp [commit, hTL], by simp [commit, hDL], ?_⟩
  intro i p hp
  unfold commit at hp ⊢
  simp only at hp ⊢
  rcases Nat.lt_trichotomy i s.rows.length with hi | hi | hi
  · rw [getD_append_left _ hi] at hp
    rw [getD_append_left _ (hTL ▸ hi), getD_append_left _ (hDL ▸ hi)]
    exact hm i p hp
  · subst hi
    rw [getD_append_right _ (le_refl _)] at hp
    rw [getD_append_right _ (le_of_eq hTL), getD_append_right _ (le_of_eq hDL)]
    simp only [Nat.sub_self, hTL, hDL] at hp ⊢
    simp only [List.getD_cons_zero] at hp ⊢
    constructor
    · rcases Nat.lt_or_ge p (List.zipWith maskCell
          (List.replicate s.startCursor 0 ++ s.reach.drop s.startCursor)
          (cumsum s.timesBuf)).length with hpl | hpl
      · have h1 : p < (List.replicate s.startCursor 0 ++
            s.reach.drop s.startCursor).length := by
          rw [List.length_zipWith] at hpl
          omega
        have h2 : p < (cumsum s.timesBuf).length := by
          rw [List.length_zipWith] at hpl
          omega
        rw [getD_zipWith 0 0 0 h1 h2, hp]
        simp [maskCell]
      · rw [getD_of_le _ hpl]
    · rcases Nat.lt_or_ge p (List.zipWith maskCell
          (List.replicate s.startCursor 0 ++ s.reach.drop s.startCursor)
          (cumsum s.distsBuf)).length with hpl | hpl
      · have h1 : p < (List.replicate s.startCursor 0 ++
            s.reach.drop s.startCursor).length := by
          rw [List.length_zipWith] at hpl
          omega
        have h2 : p < (cumsum s.distsBuf).length := by
          rw [List.length_zipWith] at hpl
          omega
        rw [getD_zipWith 0 0 0 h1 h2, hp]
        simp [maskCell]
      · rw [getD_of_le _ hpl]
  · rw [getD_of_le ([] : List Nat) (by simp; omega)] at hp
    rw [getD_of_le ([] : List R) (by simp; omega),
      getD_of_le ([] : List R) (by simp; omega)]
    simp
theorem maskInv_step {R : Type} [AddCommMonoid R] (cfg : NavCfg R) :
    StepPres cfg (fun s : TraceSt R => MaskInv s) := by
  intro s s' hs hor
  rcases hor with hc | hd
  · obtain ⟨-, -, hsh⟩ := step_cont_shape hc
    rcases hsh with ⟨u0, rest, queue, qc, -, -, rfl⟩ | ⟨k, -, -, -, -, rfl⟩
    · obtain ⟨hTL, hDL, hm⟩ := hs
      exact ⟨by simpa [visit] using hTL, by simpa [visit] using hDL,
        by simpa [visit] using hm⟩
    · have hcommit := maskInv_commit (visit cfg s)
        (by obtain ⟨hTL, hDL, hm⟩ := hs
            exact ⟨by simpa [visit] using hTL, by simpa [visit] using hDL,
              by simpa [visit] using hm⟩)
      obtain ⟨hTL, hDL, hm⟩ := hcommit
      exact ⟨by simpa [resume] using hTL, by simpa [resume] using hDL,
        by simpa [resume] using hm⟩
  · obtain ⟨-, -, -, -, k, -, -, rfl⟩ := step_done_shape hd
    have hcommit := maskInv_commit (visit cfg s)
      (by obtain ⟨hTL, hDL, hm⟩ := hs
          exact ⟨by simpa [visit] using hTL, by simpa [visit] using hDL,
            by simpa [visit] using hm⟩)
    obtain ⟨hTL, hDL, hm⟩ := hcommit
    exact ⟨hTL, hDL, hm⟩

/-- Shape of a successful `rapid_trace` run: the final state of the
outlet iteration, with the outputs sliced to `longest_path` columns. -/
theorem rapid_trace_ok_elim {R : Type} [AddCommMonoid R] {cfg : NavCfg R}
    {outlets : List Nat} {fuel : Nat}
    {out : List (List Nat) × List (List R) × List (List R)}
    (h : rapid_trace cfg outlets fuel = .ok out) :
    ∃ s, runOutlets cfg fuel outlets initSt = .ok s ∧
      out = (s.rows.map (·.take s.longest), s.timeRows.map (·.take s.longest),
        s.distRows.map (·.take s.longest)) := by
  unfold rapid_trace at h
  split at h
  · cases h
  next s hs =>
    cases h
    exact ⟨s, hs, rfl⟩

theorem map_paths_zero_entry {paths : List (List Nat)}
    {pm : List (Nat × Nat × Nat)} (h : map_paths paths = some pm) :
    pm.getD 0 (0, 0, 0) = (0, 0, 0) := by
  unfold map_paths at h
  split at h
  · cases h
  · cases h
    unfold map_paths_core
    apply foldl_inv (fun c : List (Nat × Nat × Nat) => c.getD 0 (0, 0, 0) = (0, 0, 0))
    · exact getD_replicate (0, 0, 0)
    · intro c ir _ hc
      apply foldl_inv (fun c : List (Nat × Nat × Nat) => c.getD 0 (0, 0, 0) = (0, 0, 0))
      · exact hc
      · intro c jv _ hc2
        by_cases hj : 0 < jv.2
        · rw [if_pos hj]
          rw [getD_set_ne _ _ (by omega)]
          exact hc2
        · rw [if_neg hj]
          exact hc2

theorem collapse_cells_pos {R : Type} (paths : List (List Nat))
    (times dists : List (List R)) (i : Nat) (x : Nat)
    (hx : x ∈ (collapse_array paths times dists).1.getD i []) : 0 < x := by
  unfold collapse_array at hx
  simp only at hx
  rcases Nat.lt_or_ge i paths.length with hi | hi
  · rw [List.getD_eq_getElem _ _ (by simpa using hi), List.getElem_map] at hx
    have := List.mem_filter.mp hx
    simpa using this.2
  · rw [getD_of_le _ (by simpa using hi)] at hx
    cases hx

/-- Claim C9: every post-processing operation treats alias value 0 as an
empty cell rather than a valid reach.  On any successful `rapid_trace`
output, the cumulative time and distance are zero at every path position
whose stored alias is 0; `map_paths` leaves the Path Locator Map entry of
alias 0 at its zero initialization; and `collapse_array` keeps only cells
with positive aliases, dropping alias-0 cells from the compacted rows.
So the reach assigned dense alias 0 is systematically excluded from the
index even when it lies on real flow paths. -/
theorem alias_zero_excluded {R : Type} [AddCommMonoid R] (cfg : NavCfg R)
    (outlets : List Nat) (fuel : Nat)
    (ps : List (List Nat)) (ts ds : List (List R))
    (h : rapid_trace cfg outlets fuel = .ok (ps, ts, ds)) :
    (∀ r p, (ps.getD r []).getD p 0 = 0 →
      (ts.getD r []).getD p 0 = 0 ∧ (ds.getD r []).getD p 0 = 0) ∧
    (∀ pm, map_paths ps = some pm → pm.getD 0 (0, 0, 0) = (0, 0, 0)) ∧
    (∀ i x, x ∈ (collapse_array ps ts ds).1.getD i [] → 0 < x) := by
  refine ⟨?_, fun pm hpm => map_paths_zero_entry hpm,
    fun i x hx => collapse_cells_pos ps ts ds i x hx⟩
  obtain ⟨sF, hrun, hout⟩ := rapid_trace_ok_elim h
  obtain ⟨hps, hts, hds⟩ : ps = sF.rows.map (·.take sF.longest) ∧
      ts = sF.timeRows.map (·.take sF.longest) ∧
      ds = sF.distRows.map (·.take sF.longest) := by
    have h1 := congrArg Prod.fst hout
    have h2 := congrArg (fun q => q.snd.fst) hout
    have h3 := congrArg (fun q => q.snd.snd) hout
    exact ⟨h1, h2, h3⟩
  have hmask : MaskInv sF := by
    apply runOutlets_pres (maskInv_step cfg) outlets ?_ fuel initSt sF ?_ hrun
    · intro s o _ hP
      obtain ⟨hTL, hDL, hm⟩ := hP
      exact ⟨by simpa [initOutlet] using hTL, by simpa [initOutlet] using hDL,
        by simpa [initOutlet] using hm⟩
    · exact ⟨rfl, rfl, by intro i p hp; simp [initSt]⟩
  obtain ⟨hTL, hDL, hm⟩ := hmask
  intro r p hp
  rw [hps, getD_map_take] at hp
  rw [hts, hds, getD_map_take, getD_map_take]
  rcases Nat.lt_or_ge p sF.longest with hpl | hpl
  · rw [getD_take_lt _ hpl] at hp
    rw [getD_take_lt _ hpl, getD_take_lt _ hpl]
    exact hm r p hp
  · constructor
    · apply getD_of_le
      rw [List.length_take]
      omega
    · apply getD_of_le
      rw [List.length_take]
      omega

/-- Witness network for claim C9: the outlet is the reach with dense
alias 0, so alias 0 lies on a real flow path. -/
def witCfgZero : NavCfg Int :=
  { nodes := [(0, 1)], times := fun _ => 2, dists := fun _ => 1,
    conversion := fun a => (a : Int) + 100, maxLength := 4, maxPaths := 4 }

/-- Witness for claim C9 at `witCfgZero`, whose single path holds alias 0
at column 0 with masked cumulative values. -/
theorem alias_zero_excluded_witness :
    (∀ r p, (([[0, 1]] : List (List Nat)).getD r []).getD p 0 = 0 →
      (([[0, 4]] : List (List Int)).getD r []).getD p 0 = 0 ∧
      (([[0, 2]] : List (List Int)).getD r []).getD p 0 = 0) ∧
    (∀ pm, map_paths [[0, 1]] = some pm → pm.getD 0 (0, 0, 0) = (0, 0, 0)) ∧
    (∀ i x, x ∈ (collapse_array [[0, 1]] [[(0 : Int), 4]] [[0, 2]]).1.getD i [] → 0 < x) :=
  alias_zero_excluded witCfgZero [0] 50 [[0, 1]] [[0, 4]] [[0, 2]] (by decide)

/-! ## The upstream reachability relation and forest lemmas -/

/-- Transitive-reflexive closure of the upstream edge relation, with a
tail constructor (extend at the upstream end). -/
inductive UpReach (nodes : List (Int × Nat)) : Nat → Nat → Prop
  | refl (a : Nat) : UpReach nodes a a
  | tail {a b c : Nat} : UpReach nodes a b → edge nodes b c → UpReach nodes a c

/-- The network has no directed cycle in the upstream direction. -/
def Acyclic (nodes : List (Int × Nat)) : Prop :=
  ∀ a b, UpReach nodes a b → edge nodes b a → False

/-- Every alias is the upstream end of at most one edge: the aliased
comid column is duplicate-free, so each reach has a unique downstream
neighbor.  This is the forest invariant the spec's data model states. -/
def ChildUnique (nodes : List (Int × Nat)) : Prop :=
  ∀ p q, p ∈ nodes → q ∈ nodes → p.2 = q.2 → p = q

theorem upstreamOf_mem {nodes : List (Int × Nat)} {a b : Nat} :
    b ∈ upstreamOf nodes a ↔ edge nodes a b := by
  unfold upstreamOf edge
  constructor
  · intro hb
    obtain ⟨p, hp, rfl⟩ := List.mem_map.mp hb
    obtain ⟨hpn, hp1⟩ := List.mem_filter.mp hp
    have : p = ((a : Int), p.2) := by
      have := of_decide_eq_true hp1
      exact Prod.ext this rfl
    rw [← this]
    exact hpn
  · intro hb
    exact List.mem_map.mpr ⟨((a : Int), b), List.mem_filter.mpr ⟨hb, by simp⟩, rfl⟩

theorem UpReach.trans {nodes : List (Int × Nat)} {a b c : Nat}
    (h1 : UpReach nodes a b) (h2 : UpReach nodes b c) : UpReach nodes a c := by
  induction h2 with
  | refl => exact h1
  | tail _ he ih => exact UpReach.tail ih he

theorem UpReach.head {nodes : List (Int × Nat)} {a b c : Nat}
    (h1 : edge nodes a b) (h2 : UpReach nodes b c) : UpReach nodes a c :=
  UpReach.trans (UpReach.tail (UpReach.refl a) h1) h2

theorem upReach_lt {nodes : List (Int × Nat)} {N : Nat}
    (hN : ∀ p ∈ nodes, p.2 < N) {a b : Nat} (h : UpReach nodes a b)
    (ha : a < N) : b < N := by
  induction h with
  | refl => exact ha
  | tail _ he ih => exact hN _ he

theorem parent_unique {nodes : List (Int × Nat)} (hcu : ChildUnique nodes)
    {p1 p2 x : Nat} (h1 : edge nodes p1 x) (h2 : edge nodes p2 x) : p1 = p2 := by
  have := hcu _ _ h1 h2 rfl
  have h' := congrArg Prod.fst this
  simpa using h'

theorem upReach_comparable {nodes : List (Int × Nat)} (hcu : ChildUnique nodes)
    {a z : Nat} (haz : UpReach nodes a z) :
    ∀ b, UpReach nodes b z → UpReach nodes a b ∨ UpReach nodes b a := by
  induction haz with
  | refl => exact fun b hb => Or.inr hb
  | tail hac hcz ih =>
    intro b hbz
    cases hbz with
    | refl => exact Or.inl (UpReach.tail hac hcz)
    | tail hbc' hc'z =>
      have := parent_unique hcu hc'z hcz
      rw [this] at hbc'
      exact ih b hbc'

theorem upReach_to_root {nodes : List (Int × Nat)} {o : Nat}
    (hrp : ∀ p ∈ nodes, p.2 ≠ o) {a : Nat} (h : UpReach nodes a o) : a = o := by
  cases h with
  | refl => rfl
  | tail _ he => exact absurd rfl (hrp _ he)

theorem chain_upReach {nodes : List (Int × Nat)} {w : List Nat}
    (hw : List.Chain' (edge nodes) w) :
    ∀ i j, i ≤ j → j < w.length → UpReach nodes (w.getD i 0) (w.getD j 0) := by
  intro i j hij hj
  induction j, hij using Nat.le_induction with
  | base => exact UpReach.refl _
  | succ j hij ih =>
    have hj' : j < w.length := by omega
    have hstep : edge nodes (w.getD j 0) (w.getD (j + 1) 0) := by
      have := List.chain'_iff_get.mp hw j (by omega)
      rw [List.getD_eq_getElem _ _ hj', List.getD_eq_getElem _ _ hj]
      simpa [List.get_eq_getElem] using this
    exact UpReach.tail (ih hj') hstep

theorem chain_nodup {nodes : List (Int × Nat)} (hacyc : Acyclic nodes)
    {w : List Nat} (hw : List.Chain' (edge nodes) w) : w.Nodup := by
  rw [List.nodup_iff_getElem?_ne_getElem?]
  intro i j hij hj
  intro hEq
  rw [List.getElem?_eq_getElem (by omega), List.getElem?_eq_getElem hj] at hEq
  have hEq' : w.getD i 0 = w.getD j 0 := by
    rw [List.getD_eq_getElem _ _ (by omega), List.getD_eq_getElem _ _ hj]
    exact Option.some.inj hEq
  have hup : UpReach nodes (w.getD i 0) (w.getD (j - 1) 0) :=
    chain_upReach hw i (j - 1) (by omega) (by omega)
  have hstep : edge nodes (w.getD (j - 1) 0) (w.getD j 0) := by
    have := List.chain'_iff_get.mp hw (j - 1) (by omega)
    rw [List.getD_eq_getElem _ _ (by omega), List.getD_eq_getElem _ _ hj]
    have h1 : j - 1 + 1 = j := by omega
    simpa [List.get_eq_getElem, h1] using this
  rw [← hEq'] at hstep
  exact hacyc _ _ hup hstep

/-- An upstream walk: a nonempty chain of upstream edges from `root` to
`tip`. -/
def IsUpWalk (nodes : List (Int × Nat)) (w : List Nat) (root tip : Nat) : Prop :=
  w.head? = some root ∧ w.getLast? = some tip ∧ List.Chain' (edge nodes) w

theorem upwalk_unique {nodes : List (Int × Nat)} (hcu : ChildUnique nodes)
    {outlets : List Nat} (hrp : ∀ o ∈ outlets, ∀ a, ¬ edge nodes a o) :
    ∀ (w1 : List Nat) {w2 root1 root2 x}, root1 ∈ outlets → root2 ∈ outlets →
      IsUpWalk nodes w1 root1 x → IsUpWalk nodes w2 root2 x → w1 = w2 := by
  intro w1
  induction w1 using List.reverseRecOn with
  | nil => intro w2 root1 root2 x _ _ h1 _; cases h1.1
  | append_singleton l1 y ih =>
    intro w2 root1 root2 x ho1 ho2 h1 h2
    obtain ⟨hh1, hl1, hc1⟩ := h1
    have hy : y = x := by simpa using hl1
    obtain ⟨hh2, hl2, hc2⟩ := h2
    rcases List.eq_nil_or_concat w2 with rfl | ⟨l2, z, rfl⟩
    · cases hh2
    simp only [List.concat_eq_append] at hh2 hl2 hc2 ih ⊢
    have hz : z = x := by simpa using hl2
    rcases List.eq_nil_or_concat l1 with rfl | ⟨l1', y1, rfl⟩
    · -- w1 = [y]: its root is y itself, an outlet with no parent
      have hroot : root1 = y := by have := hh1; simp at this; omega
      rcases List.eq_nil_or_concat l2 with rfl | ⟨l2', y2, rfl⟩
      · rw [hy, hz]
      · exfalso
        simp only [List.concat_eq_append] at hh2 hc2
        have hedge : edge nodes y2 z := by
          have := (List.chain'_append.mp hc2).2.2
          simp at this
          exact this
        rw [hz, ← hy, ← hroot] at hedge
        exact hrp _ ho1 _ hedge
    · simp only [List.concat_eq_append] at hh1 hc1 hl1 ih ⊢
      have hedge1 : edge nodes y1 y := by
        have := (List.chain'_append.mp hc1).2.2
        simp at this
        exact this
      rcases List.eq_nil_or_concat l2 with rfl | ⟨l2', y2, rfl⟩
      · exfalso
        have hroot : root2 = z := by have := hh2; simp at this; omega
        rw [hy] at hedge1
        rw [hz] at hroot
        rw [← hroot] at hedge1
        exact hrp _ ho2 _ hedge1
      · simp only [List.concat_eq_append] at hh2 hc2 ⊢
        have hedge2 : edge nodes y2 z := by
          have := (List.chain'_append.mp hc2).2.2
          simp at this
          exact this
        rw [hz, ← hy] at hedge2
        have hyy : y1 = y2 := parent_unique hcu hedge1 hedge2
        have hw1 : IsUpWalk nodes (l1' ++ [y1]) root1 y1 := by
          refine ⟨?_, by simp, (List.chain'_append.mp hc1).1⟩
          have hsh : (l1' ++ [y1] ++ [y]).head? = (l1' ++ [y1]).head? :=
            List.head?_append_of_ne_nil _ (by simp)
          rw [← hsh]
          exact hh1
        have hw2 : IsUpWalk nodes (l2' ++ [y2]) root2 y1 := by
          refine ⟨?_, by simp [hyy], (List.chain'_append.mp hc2).1⟩
          have hsh : (l2' ++ [y2] ++ [z]).head? = (l2' ++ [y2]).head? :=
            List.head?_append_of_ne_nil _ (by simp)
          rw [← hsh]
          exact hh2
        have heq := ih ho1 ho2 hw1 hw2
        rw [heq, hy, hz]

/-! ## Effect lemmas for queue pushes, pops, and the resume scan -/

theorem npIndex_eq_some_of_nonneg {len : Nat} {i : Int} (h0 : 0 ≤ i)
    (hl : i < (len : Int)) : npIndex len i = some i.toNat := by
  unfold npIndex
  rw [if_pos ⟨h0, hl⟩]

theorem npIndex_some_nonneg {len : Nat} {i : Int} {k : Nat} (h0 : 0 ≤ i)
    (h : npIndex len i = some k) : k = i.toNat ∧ i < (len : Int) := by
  unfold npIndex at h
  split at h
  next hcond => exact ⟨(Option.some.inj h).symm, hcond.2⟩
  next =>
    split at h
    next hcond => omega
    next => cases h

theorem npIndex_neg_one {len : Nat} (hl : 0 < len) :
    npIndex len (-1) = some (len - 1) := by
  unfold npIndex
  rw [if_neg (by omega), if_pos (by omega)]
  congr 1
  omega

theorem npIndex_none {len : Nat} {i : Int}
    (h : i < -(len : Int) ∨ (len : Int) ≤ i) : npIndex len i = none := by
  unfold npIndex
  rw [if_neg (by omega), if_neg (by omega)]

theorem pushAll_ok_spec {a : Nat} {us : List Nat} {queue queue' : List (Nat × Nat)}
    {qc qc' : Int} (h : pushAll a us queue qc = .ok (queue', qc')) (hqc : 0 ≤ qc) :
    qc' = qc + us.length ∧ queue'.length = queue.length ∧
    (∀ j, j < us.length → (qc + j < (queue.length : Int)) ∧
      queue'.getD (qc.toNat + j) (0, 0) = (a, us.getD j 0)) ∧
    (∀ (k : Nat) (d : Nat × Nat), ((k : Int) < qc ∨ qc + us.length ≤ (k : Int)) →
      queue'.getD k d = queue.getD k d) := by
  induction us generalizing queue qc with
  | nil =>
    unfold pushAll at h
    cases h
    exact ⟨by simp, rfl, fun j hj => absurd hj (by simp), fun k d _ => rfl⟩
  | cons u us ih =>
    unfold pushAll at h
    cases hn : npIndex queue.length qc with
    | none => rw [hn] at h; cases h
    | some k =>
      rw [hn] at h
      obtain ⟨hk, hlt⟩ := npIndex_some_nonneg hqc hn
      subst hk
      obtain ⟨ihq, ihlen, ihw, ihp⟩ := ih h (by omega)
      rw [List.length_set] at ihw
      refine ⟨by rw [ihq]; simp only [List.length_cons]; push_cast; omega,
        by rw [ihlen, List.length_set], ?_, ?_⟩
      · intro j hj
        cases j with
        | zero =>
          refine ⟨by omega, ?_⟩
          have hpres := ihp qc.toNat (0, 0) (Or.inl (by omega))
          rw [Nat.add_zero, hpres, getD_set_self _ _ (by omega)]
          rfl
        | succ j =>
          obtain ⟨hb, hw⟩ := ihw j (by simpa using hj)
          refine ⟨by push_cast at hb ⊢; omega, ?_⟩
          have harith : (qc + 1).toNat + j = qc.toNat + (j + 1) := by omega
          rw [harith] at hw
          rw [hw]
          rfl
      · intro k' d hk'
        simp only [List.length_cons] at hk'
        have hpres := ihp k' d (by rcases hk' with h1 | h1
                                   · exact Or.inl (by omega)
                                   · right
                                     push_cast at h1 ⊢
                                     omega)
        rw [hpres, getD_set_ne _ _ (by omega)]

theorem pushAll_no_error {a : Nat} {us : List Nat} {queue : List (Nat × Nat)}
    {qc : Int} (hqc : 0 ≤ qc) (hbound : qc + us.length ≤ (queue.length : Int)) :
    ∃ queue' qc', pushAll a us queue qc = .ok (queue', qc') := by
  induction us generalizing queue qc with
  | nil => exact ⟨queue, qc, rfl⟩
  | cons u us ih =>
    simp only [List.length_cons] at hbound
    have hlt : qc < (queue.length : Int) := by
      push_cast at hbound
      omega
    obtain ⟨queue', qc', hrec⟩ := @ih (queue.set qc.toNat (a, u)) (qc + 1)
      (by omega) (by rw [List.length_set]; push_cast at hbound ⊢; omega)
    refine ⟨queue', qc', ?_⟩
    unfold pushAll
    rw [npIndex_eq_some_of_nonneg hqc hlt]
    exact hrec

theorem scanFor_buffer {reach : List Nat} {c a i : Nat}
    (hnodup : (reach.take c).Nodup) (hi : i < c) (hc : c ≤ reach.length)
    (hia : reach.getD i 0 = a) : scanFor reach a = some i := by
  unfold scanFor
  cases hs : firstTrue (fun x => decide (x = a)) reach with
  | none =>
    exfalso
    have hmem : reach.getD i 0 ∈ reach := by
      rw [List.getD_eq_getElem _ _ (by omega)]
      exact List.getElem_mem _
    have := firstTrue_eq_none_iff.mp hs _ hmem
    rw [hia] at this
    simp at this
  | some j =>
    obtain ⟨hjl, hja, hjmin⟩ := firstTrue_some hs 0
    have hji : j ≤ i := by
      by_contra hlt
      have := hjmin i (by omega)
      rw [hia] at this
      simp at this
    rcases Nat.eq_or_lt_of_le hji with rfl | hjlt
    · rfl
    · exfalso
      have hja' : reach.getD j 0 = a := by simpa using hja
      have heq : (reach.take c).getD j 0 = (reach.take c).getD i 0 := by
        rw [getD_take_lt _ (by omega), getD_take_lt _ hi, hja', hia]
      have := nodup_getD_inj hnodup (by rw [List.length_take]; omega)
        (by rw [List.length_take]; omega) heq
      omega

/-! ## Degree counting for the pending queue bound -/

theorem upstreamOf_length_countP (nodes : List (Int × Nat)) (v : Nat) :
    (upstreamOf nodes v).length = nodes.countP (fun p => decide (p.1 = (v : Int))) := by
  unfold upstreamOf
  rw [List.length_map, ← List.countP_eq_length_filter]

theorem indicator_sum_le_one {S : List Nat} (hS : S.Nodup) (x : Int) :
    (S.map (fun v : Nat => if x = (v : Int) then 1 else 0)).sum ≤ 1 := by
  induction S with
  | nil => simp
  | cons v S ih =>
    rcases List.nodup_cons.mp hS with ⟨hv, hS'⟩
    by_cases hx : x = (v : Int)
    · have hzero : (S.map (fun w : Nat => if x = (w : Int) then 1 else 0)).sum = 0 := by
        apply List.sum_eq_zero
        intro y hy
        obtain ⟨w, hw, rfl⟩ := List.mem_map.mp hy
        have hne : x ≠ (w : Int) := by
          intro hxw
          apply hv
          have hvw : (v : Int) = (w : Int) := by omega
          rwa [Nat.cast_inj.mp hvw]
        rw [if_neg hne]
      simp only [List.map_cons, List.sum_cons, if_pos hx, hzero]
      omega
    · simp only [List.map_cons, List.sum_cons, if_neg hx, zero_add]
      exact ih hS'

theorem sum_upstream_le (nodes : List (Int × Nat)) {S : List Nat} (hS : S.Nodup) :
    (S.map (fun v : Nat => (upstreamOf nodes v).length)).sum ≤ nodes.length := by
  simp only [upstreamOf_length_countP]
  induction nodes with
  | nil => simp
  | cons p nodes ih =>
    have hsplit : ∀ v : Nat, (p :: nodes).countP (fun q => decide (q.1 = (v : Int))) =
        nodes.countP (fun q => decide (q.1 = (v : Int))) +
          (if p.1 = (v : Int) then 1 else 0) := by
      intro v
      by_cases hp : p.1 = (v : Int)
      · rw [List.countP_cons_of_pos _ _ (by simpa using hp), if_pos hp]
      · rw [List.countP_cons_of_neg _ _ (by simpa using hp), if_neg hp]
        omega
    calc (S.map (fun v : Nat => (p :: nodes).countP (fun q => decide (q.1 = (v : Int))))).sum
        = (S.map (fun v : Nat => nodes.countP (fun q => decide (q.1 = (v : Int))) +
            (if p.1 = (v : Int) then 1 else 0))).sum := by
          congr 1
          exact List.map_congr_left (fun v _ => hsplit v)
      _ = (S.map (fun v : Nat => nodes.countP (fun q => decide (q.1 = (v : Int))))).sum +
            (S.map (fun v : Nat => if p.1 = (v : Int) then 1 else 0)).sum := by
          rw [← List.sum_map_add]
      _ ≤ nodes.length + 1 := by
          have h2 := indicator_sum_le_one hS p.1
          omega
      _ = (p :: nodes).length := by simp

/-! ## The run invariant -/

/-- Soundness of one committed output row: there is a walk `w` from an
outlet such that every occupied cell of the row sits on `w` at its own
column, with the stored cumulative values equal to the attribute sums
over the walk up to that column. -/
def RowSound {R : Type} [AddCommMonoid R] (cfg : NavCfg R) (outlets : List Nat)
    (row : List Nat) (trow drow : List R) : Prop :=
  ∃ root w, root ∈ outlets ∧ w.head? = some root ∧ List.Chain' (edge cfg.nodes) w ∧
    ∀ p, 0 < row.getD p 0 →
      p < w.length ∧ w.getD p 0 = row.getD p 0 ∧
      trow.getD p 0 = ((w.take (p + 1)).map cfg.times).sum ∧
      drow.getD p 0 = ((w.take (p + 1)).map cfg.dists).sum

/-- The global part of the run invariant: facts about the committed
output rows and the visited set, preserved across outlets. -/
structure GInv {R : Type} [AddCommMonoid R] (cfg : NavCfg R) (outlets : List Nat)
    (N : Nat) (s : TraceSt R) : Prop where
  timeLen : s.timeRows.length = s.rows.length
  distLen : s.distRows.length = s.rows.length
  startsLen : s.rowStarts.length = s.rows.length
  rowsMax : s.rows.length ≤ cfg.maxPaths
  rowsSound : ∀ r, r < s.rows.length → RowSound cfg outlets (s.rows.getD r [])
    (s.timeRows.getD r []) (s.distRows.getD r [])
  vis : ∃ V : List Nat, V.Nodup ∧ s.already = V.map cfg.conversion ∧
    (∀ v ∈ V, v < N) ∧
    s.rows.length = (V.filter (fun v => decide (upstreamOf cfg.nodes v = []))).length

/-- The per-outlet part of the run invariant: the working buffers hold a
walk from the current outlet `o`, the pending queue holds upstream edges
whose resume points sit on the retained buffer in queue order, and the
queue is never filled to its last slot. -/
structure OInv {R : Type} [AddCommMonoid R] (cfg : NavCfg R) (outlets : List Nat)
    (N o : Nat) (s : TraceSt R) : Prop where
  g : GInv cfg outlets N s
  rootMem : o ∈ outlets
  reachLen : s.reach.length = cfg.maxLength
  timesLen : s.timesBuf.length = cfg.maxLength
  distsLen : s.distsBuf.length = cfg.maxLength
  queueLen : s.queue.length = cfg.nodes.length
  startLe : s.startCursor ≤ s.cursor
  cursorLe : s.cursor ≤ cfg.maxLength
  cursorAl : s.cursor ≤ s.already.length
  bufWalk : List.Chain' (edge cfg.nodes) (s.reach.take s.cursor)
  bufHead : 0 < s.cursor → s.reach.getD 0 0 = o
  activeLink : (s.cursor = 0 ∧ s.active = o) ∨
    (0 < s.cursor ∧ edge cfg.nodes (s.reach.getD (s.cursor - 1) 0) s.active)
  activeLt : s.active < N
  bufTimes : ∀ k, k < s.cursor → s.timesBuf.getD k 0 = cfg.times (s.reach.getD k 0)
  bufDists : ∀ k, k < s.cursor → s.distsBuf.getD k 0 = cfg.dists (s.reach.getD k 0)
  bufZero : ∀ k, s.cursor ≤ k → s.reach.getD k 0 = 0
  bufTZero : ∀ k, s.cursor ≤ k → s.timesBuf.getD k 0 = (0 : R)
  bufDZero : ∀ k, s.cursor ≤ k → s.distsBuf.getD k 0 = (0 : R)
  qcNonneg : 0 ≤ s.queueCursor
  queueLive : ∀ k : Nat, (k : Int) < s.queueCursor →
    edge cfg.nodes (s.queue.getD k (0, 0)).1 (s.queue.getD k (0, 0)).2 ∧
    ∃ i, i < s.cursor ∧ s.reach.getD i 0 = (s.queue.getD k (0, 0)).1
  queueMono : ∀ k1 k2 i1 i2 : Nat, k1 ≤ k2 → (k2 : Int) < s.queueCursor →
    i1 < s.cursor → i2 < s.cursor →
    s.reach.getD i1 0 = (s.queue.getD k1 (0, 0)).1 →
    s.reach.getD i2 0 = (s.queue.getD k2 (0, 0)).1 → i1 ≤ i2
  queueBound : ∃ S : List Nat, S.Nodup ∧
    (∀ v ∈ S, cfg.conversion v ∈ s.already ∧ upstreamOf cfg.nodes v ≠ []) ∧
    s.queueCursor + S.length ≤ ((S.map (fun v => (upstreamOf cfg.nodes v).length)).sum : Int)
  queueTail : ∀ k, s.queue.length ≤ k + 1 → s.queue.getD k (0, 0) = (0, 0)

/-! ## Preservation machinery with a separate exit condition -/

/-- Like `StepPres`, but the loop exit (`done`) establishes a possibly
different condition `Q` than the one maintained in the loop. -/
def StepPresTo {R : Type} [AddCommMonoid R] (cfg : NavCfg R)
    (P Q : TraceSt R → Prop) : Prop :=
  ∀ s, P s → (∀ s', step cfg s = .cont s' → P s') ∧
    (∀ s', step cfg s = .done s' → Q s')

theorem traceOutlet_presTo {R : Type} [AddCommMonoid R] {cfg : NavCfg R}
    {P Q : TraceSt R → Prop} (hPQ : StepPresTo cfg P Q) :
    ∀ (fuel : Nat) (s s' : TraceSt R), P s → traceOutlet cfg fuel s = .ok s' → Q s' := by
  intro fuel
  induction fuel with
  | zero => intro s s' _ h; simp [traceOutlet] at h
  | succ fuel ih =>
    intro s s' hs h
    unfold traceOutlet at h
    cases hstep : step cfg s with
    | fail e => rw [hstep] at h; cases h
    | done s₁ =>
      rw [hstep] at h
      cases h
      exact (hPQ s hs).2 s' hstep
    | cont s₁ =>
      rw [hstep] at h
      exact ih s₁ s' ((hPQ s hs).1 s₁ hstep) h

theorem traceOutlet_exit {R : Type} [AddCommMonoid R] {cfg : NavCfg R}
    {P Q : TraceSt R → Prop} (hPQ : StepPresTo cfg P Q) :
    ∀ (fuel : Nat) (s s' : TraceSt R), P s → traceOutlet cfg fuel s = .ok s' →
      ∃ s₀, P s₀ ∧ step cfg s₀ = .done s' := by
  intro fuel
  induction fuel with
  | zero => intro s s' _ h; simp [traceOutlet] at h
  | succ fuel ih =>
    intro s s' hs h
    unfold traceOutlet at h
    cases hstep : step cfg s with
    | fail e => rw [hstep] at h; cases h
    | done s₁ =>
      rw [hstep] at h
      cases h
      exact ⟨s, hs, hstep⟩
    | cont s₁ =>
      rw [hstep] at h
      exact ih s₁ s' ((hPQ s hs).1 s₁ hstep) h

theorem traceOutlet_errTo {R : Type} [AddCommMonoid R] {cfg : NavCfg R}
    {P Q : TraceSt R → Prop} (hPQ : StepPresTo cfg P Q) :
    ∀ (fuel : Nat) (s : TraceSt R) (e : TraceErr), P s →
      traceOutlet cfg fuel s = .error e →
      e = .fuelOut ∨ ∃ s₀, P s₀ ∧ step cfg s₀ = .fail e := by
  intro fuel
  induction fuel with
  | zero =>
    intro s e _ h
    simp [traceOutlet] at h
    exact Or.inl h.symm
  | succ fuel ih =>
    intro s e hs h
    unfold traceOutlet at h
    cases hstep : step cfg s with
    | fail e' =>
      rw [hstep] at h
      cases h
      exact Or.inr ⟨s, hs, hstep⟩
    | done s₁ => rw [hstep] at h; cases h
    | cont s₁ =>
      rw [hstep] at h
      exact ih s₁ e ((hPQ s hs).1 s₁ hstep) h

theorem runOutlets_presTo {R : Type} [AddCommMonoid R] {cfg : NavCfg R}
    {P : Nat → TraceSt R → Prop} {Q : TraceSt R → Prop}
    (outlets : List Nat)
    (hPQ : ∀ o ∈ outlets, StepPresTo cfg (P o) Q)
    (hI : ∀ s o, o ∈ outlets → Q s → P o (initOutlet cfg s o)) :
    ∀ (fuel : Nat) (s s' : TraceSt R), Q s →
      runOutlets cfg fuel outlets s = .ok s' → Q s' := by
  induction outlets with
  | nil =>
    intro fuel s s' hs h
    simp [runOutlets] at h
    exact h ▸ hs
  | cons o os ih =>
    intro fuel s s' hs h
    unfold runOutlets at h
    cases htr : traceOutlet cfg fuel (initOutlet cfg s o) with
    | error e => rw [htr] at h; cases h
    | ok s₁ =>
      rw [htr] at h
      have h₁ : Q s₁ := traceOutlet_presTo (hPQ o (by simp)) fuel _ s₁
        (hI s o (by simp) hs) htr
      exact ih (fun o' ho' => hPQ o' (by simp [ho']))
        (fun s o' ho' => hI s o' (by simp [ho'])) fuel s₁ s' h₁ h

/-! ## Buffer helpers for the preservation proof -/

theorem set_take_succ {l : List α} {c : Nat} (x : α) (h : c < l.length) :
    (l.set c x).take (c + 1) = l.take c ++ [x] := by
  apply List.ext_getElem
  · simp
    omega
  · intro i h1 h2
    rw [List.getElem_take]
    rw [List.getElem_set]
    simp only [List.length_take] at h1
    rcases Nat.lt_or_ge i c with hic | hic
    · rw [if_neg (by omega)]
      rw [List.getElem_append_left (by simp; omega), List.getElem_take]
    · have hic' : i = c := by omega
      rw [if_pos hic'.symm]
      subst hic'
      rw [List.getElem_append_right (by simp only [List.length_take]; omega)]
      simp

theorem getLast?_take {l : List α} {c : Nat} (d : α) (h0 : 0 < c) (h : c ≤ l.length) :
    (l.take c).getLast? = some (l.getD (c - 1) d) := by
  have hlen : (l.take c).length = c := by simp; omega
  rw [List.getLast?_eq_getElem?, hlen]
  rw [List.getElem?_eq_getElem (by rw [hlen]; omega)]
  rw [List.getElem_take]
  rw [List.getD_eq_getElem _ _ (by omega)]

theorem head?_take {l : List α} {c : Nat} (d : α) (h0 : 0 < c) (hl : 0 < l.length) :
    (l.take c).head? = some (l.getD 0 d) := by
  have hlen : 0 < (l.take c).length := by simp; omega
  rw [List.head?_eq_getElem?]
  rw [List.getElem?_eq_getElem hlen]
  rw [List.getElem_take]
  rw [List.getD_eq_getElem _ _ hl]

theorem take_eq_map_take {R : Type} [AddCommMonoid R] {l1 : List R} {l2 : List Nat}
    {f : Nat → R} {n : Nat} (h1 : n ≤ l1.length) (h2 : n ≤ l2.length)
    (h : ∀ k, k < n → l1.getD k 0 = f (l2.getD k 0)) :
    l1.take n = (l2.take n).map f := by
  apply List.ext_getElem
  · simp
    omega
  · intro i ha hb
    simp only [List.length_take] at ha
    rw [List.getElem_take, List.getElem_map, List.getElem_take]
    have := h i (by omega)
    rw [List.getD_eq_getElem _ _ (by omega), List.getD_eq_getElem _ _ (by omega)] at this
    exact this

/-! ## Preservation of the run invariant -/

theorem ginv_after_commit {R : Type} [AddCommMonoid R] {cfg : NavCfg R}
    {outlets : List Nat} {N o : Nat} {s : TraceSt R}
    (hs : OInv cfg outlets N o s)
    (hfresh : cfg.conversion s.active ∉ s.already)
    (hc : s.cursor < cfg.maxLength)
    (hup : upstreamOf cfg.nodes s.active = [])
    (hrows : s.rows.length < cfg.maxPaths)
    (qc : Int) :
    GInv cfg outlets N { commit (visit cfg s) with queueCursor := qc } := by
  obtain ⟨g, rootMem, reachLen, timesLen, distsLen, queueLen, startLe, cursorLe,
    cursorAl, bufWalk, bufHead, activeLink, activeLt, bufTimes, bufDists,
    bufZero, bufTZero, bufDZero, qcNonneg, queueLive, queueMono, queueBound,
    queueTail⟩ := hs
  obtain ⟨timeLen, distLen, startsLen, rowsMax, rowsSound, vis⟩ := g
  have hstartML : s.startCursor ≤ cfg.maxLength := le_trans startLe (by omega)
  have hrowLen : (List.replicate s.startCursor 0 ++
      (s.reach.set s.cursor s.active).drop s.startCursor).length = cfg.maxLength := by
    simp [reachLen]
    omega
  constructor
  · simp [commit, visit, timeLen]
  · simp [commit, visit, distLen]
  · simp [commit, visit, startsLen]
  · simp only [commit, visit]
    simp
    omega
  · -- row soundness
    intro r hr
    simp only [commit, visit] at hr ⊢
    simp only [List.length_append, List.length_cons, List.length_nil] at hr
    rcases Nat.lt_or_ge r s.rows.length with hrold | hrnew
    · rw [getD_append_left _ hrold, getD_append_left _ (by omega),
        getD_append_left _ (by omega)]
      exact rowsSound r hrold
    · have hreq : r = s.rows.length := by omega
      subst hreq
      rw [getD_append_right _ (le_refl _), getD_append_right _ (by omega),
        getD_append_right _ (by omega)]
      simp only [Nat.sub_self, timeLen, distLen, List.getD_cons_zero]
      -- the committed row is sound along the buffer walk
      refine ⟨o, (s.reach.set s.cursor s.active).take (s.cursor + 1), rootMem, ?_, ?_, ?_⟩
      · -- head of the walk is the outlet
        rw [set_take_succ _ (by rw [reachLen]; omega)]
        rcases Nat.eq_zero_or_pos s.cursor with hc0 | hc0
        · rcases activeLink with ⟨-, ha⟩ | ⟨hpos, -⟩
          · simp [hc0, ha]
          · omega
        · rw [List.head?_append_of_ne_nil _ (List.ne_nil_of_length_pos
            (by simp only [List.length_take, List.length_set]; rw [reachLen]; omega))]
          rw [head?_take 0 hc0 (by rw [reachLen]; omega)]
          rw [bufHead hc0]
      · -- the walk is a chain
        rw [set_take_succ _ (by rw [reachLen]; omega)]
        rw [List.chain'_append]
        refine ⟨bufWalk, List.chain'_singleton _, ?_⟩
        intro x hx y hy
        rw [Option.mem_def] at hx hy
        rcases Nat.eq_zero_or_pos s.cursor with hc0 | hc0
        · rw [hc0] at hx
          simp at hx
        · rw [getLast?_take 0 hc0 (by rw [reachLen]; omega)] at hx
          have hxv := Option.some.inj hx
          have hyv : s.active = y := by simpa using hy
          rw [← hxv, ← hyv]
          rcases activeLink with ⟨hce, -⟩ | ⟨-, hlink⟩
          · omega
          · exact hlink
      · intro p hp
        -- locate the occupied cell inside the buffer
        have hplen : p < cfg.maxLength := by
          by_contra hge
          rw [getD_of_le _ (by rw [hrowLen]; omega)] at hp
          omega
        have hpstart : s.startCursor ≤ p := by
          by_contra hlt
          rw [getD_append_left _ (by simp; omega), getD_replicate] at hp
          omega
        have hcell : (List.replicate s.startCursor 0 ++
            (s.reach.set s.cursor s.active).drop s.startCursor).getD p 0 =
            (s.reach.set s.cursor s.active).getD p 0 := by
          rw [getD_append_right _ (by simp; omega), List.length_replicate, getD_drop]
          congr 1
          omega
        rw [hcell] at hp ⊢
        have hpc : p < s.cursor + 1 := by
          by_contra hge
          rw [getD_set_ne _ _ (by omega)] at hp
          rw [bufZero p (by omega)] at hp
          omega
        have hwlen : ((s.reach.set s.cursor s.active).take (s.cursor + 1)).length
            = s.cursor + 1 := by
          simp [reachLen]
          omega
        refine ⟨by omega, by rw [getD_take_lt _ hpc], ?_, ?_⟩
        · -- cumulative time at p is the walk time sum
          rw [getD_zipWith 0 0 0 (by omega) (by rw [length_cumsum]; simp [timesLen]; omega)]
          rw [maskCell, if_pos (by omega)]
          rw [cumsum_getD _ p (by simp [timesLen]; omega)]
          rw [List.take_take, min_eq_left (by omega)]
          congr 1
          apply take_eq_map_take (by simp [timesLen]; omega) (by simp [reachLen]; omega)
          intro k hk
          rcases Nat.lt_or_ge k s.cursor with hkc | hkc
          · rw [getD_set_ne _ _ (by omega), getD_set_ne _ _ (by omega)]
            exact bufTimes k hkc
          · have hkeq : k = s.cursor := by omega
            subst hkeq
            rw [getD_set_self _ _ (by omega), getD_set_self _ _ (by omega)]
        · rw [getD_zipWith 0 0 0 (by omega) (by rw [length_cumsum]; simp [distsLen]; omega)]
          rw [maskCell, if_pos (by omega)]
          rw [cumsum_getD _ p (by simp [distsLen]; omega)]
          rw [List.take_take, min_eq_left (by omega)]
          congr 1
          apply take_eq_map_take (by simp [distsLen]; omega) (by simp [reachLen]; omega)
          intro k hk
          rcases Nat.lt_or_ge k s.cursor with hkc | hkc
          · rw [getD_set_ne _ _ (by omega), getD_set_ne _ _ (by omega)]
            exact bufDists k hkc
          · have hkeq : k = s.cursor := by omega
            subst hkeq
            rw [getD_set_self _ _ (by omega), getD_set_self _ _ (by omega)]
  · -- visited-set bookkeeping
    obtain ⟨V, hVnd, hValr, hVlt, hVcount⟩ := vis
    refine ⟨s.active :: V, ?_, ?_, ?_, ?_⟩
    · refine List.nodup_cons.mpr ⟨?_, hVnd⟩
      intro hmem
      exact hfresh (hValr ▸ List.mem_map_of_mem cfg.conversion hmem)
    · simp [commit, visit, hValr]
    · intro v hv
      rcases List.mem_cons.mp hv with rfl | hv'
      · exact activeLt
      · exact hVlt v hv'
    · simp only [commit, visit]
      rw [List.filter_cons_of_pos (by simpa using hup)]
      simp [hVcount]

theorem zeroFrom_take {l : List α} {k : Nat} (z : α) (h : k ≤ l.length) :
    (zeroFrom l k z).take k = l.take k := by
  unfold zeroFrom
  rw [List.take_append_of_le_length (by simp; omega), List.take_take,
    min_eq_left (le_refl k)]

theorem visit_chain {R : Type} [AddCommMonoid R] {cfg : NavCfg R}
    {outlets : List Nat} {N o : Nat} {s : TraceSt R}
    (hs : OInv cfg outlets N o s) (hc : s.cursor < cfg.maxLength) :
    List.Chain' (edge cfg.nodes) ((s.reach.set s.cursor s.active).take (s.cursor + 1)) := by
  rw [set_take_succ _ (by rw [hs.reachLen]; omega)]
  rw [List.chain'_append]
  refine ⟨hs.bufWalk, List.chain'_singleton _, ?_⟩
  intro x hx y hy
  rw [Option.mem_def] at hx hy
  rcases Nat.eq_zero_or_pos s.cursor with hc0 | hc0
  · rw [hc0] at hx
    simp at hx
  · rw [getLast?_take 0 hc0 (by rw [hs.reachLen]; omega)] at hx
    have hxv := Option.some.inj hx
    have hyv : s.active = y := by simpa using hy
    rw [← hxv, ← hyv]
    rcases hs.activeLink with ⟨hce, -⟩ | ⟨-, hlink⟩
    · omega
    · exact hlink

theorem visit_nodup {R : Type} [AddCommMonoid R] {cfg : NavCfg R}
    {outlets : List Nat} {N o : Nat} {s : TraceSt R} (hacyc : Acyclic cfg.nodes)
    (hs : OInv cfg outlets N o s) (hc : s.cursor < cfg.maxLength) :
    ((s.reach.set s.cursor s.active).take (s.cursor + 1)).Nodup :=
  chain_nodup hacyc (visit_chain hs hc)

theorem visit_head {R : Type} [AddCommMonoid R] {cfg : NavCfg R}
    {outlets : List Nat} {N o : Nat} {s : TraceSt R}
    (hs : OInv cfg outlets N o s) (hc : s.cursor < cfg.maxLength) :
    (s.reach.set s.cursor s.active).getD 0 0 = o := by
  rcases Nat.eq_zero_or_pos s.cursor with hc0 | hc0
  · rcases hs.activeLink with ⟨-, ha⟩ | ⟨hpos, -⟩
    · rw [← hc0, getD_set_self _ _ (by rw [hs.reachLen]; omega)]
      exact ha
    · omega
  · rw [getD_set_ne _ _ (by omega)]
    exact hs.bufHead hc0

theorem ginv_resume {R : Type} [AddCommMonoid R] {cfg : NavCfg R}
    {outlets : List Nat} {N : Nat} {s : TraceSt R} (pair : Nat × Nat)
    (hg : GInv cfg outlets N s) : GInv cfg outlets N (resume s pair) := by
  obtain ⟨timeLen, distLen, startsLen, rowsMax, rowsSound, vis⟩ := hg
  exact ⟨timeLen, distLen, startsLen, rowsMax, rowsSound, vis⟩

theorem ginv_initOutlet {R : Type} [AddCommMonoid R] {cfg : NavCfg R}
    {outlets : List Nat} {N : Nat} {s : TraceSt R} (o : Nat)
    (hg : GInv cfg outlets N s) : GInv cfg outlets N (initOutlet cfg s o) := by
  obtain ⟨timeLen, distLen, startsLen, rowsMax, rowsSound, vis⟩ := hg
  exact ⟨timeLen, distLen, startsLen, rowsMax, rowsSound, vis⟩

theorem oinv_initOutlet {R : Type} [AddCommMonoid R] {cfg : NavCfg R}
    {outlets : List Nat} {N o : Nat} {s : TraceSt R}
    (ho : o ∈ outlets) (hoLt : o < N)
    (hg : GInv cfg outlets N s) : OInv cfg outlets N o (initOutlet cfg s o) := by
  refine ⟨ginv_initOutlet o hg, ho, by simp [initOutlet], by simp [initOutlet],
    by simp [initOutlet], by simp [initOutlet], le_refl 0, by simp [initOutlet],
    by simp [initOutlet], by simp [initOutlet], ?_, ?_, hoLt, ?_, ?_, ?_, ?_, ?_,
    by simp [initOutlet], ?_, ?_, ?_, ?_⟩
  · intro h
    simp [initOutlet] at h
  · exact Or.inl ⟨rfl, rfl⟩
  · intro k hk
    simp [initOutlet] at hk
  · intro k hk
    simp [initOutlet] at hk
  · intro k hk
    simp only [initOutlet]
    exact getD_replicate 0
  · intro k hk
    simp only [initOutlet]
    exact getD_replicate 0
  · intro k hk
    simp only [initOutlet]
    exact getD_replicate 0
  · intro k hk
    simp only [initOutlet] at hk
    omega
  · intro k1 k2 i1 i2 _ hk2 _ _ _ _
    simp only [initOutlet] at hk2
    omega
  · exact ⟨[], List.nodup_nil, by simp, by simp [initOutlet]⟩
  · intro k hk
    simp only [initOutlet]
    exact getD_replicate (0, 0)

theorem oinv_branch {R : Type} [AddCommMonoid R] {cfg : NavCfg R}
    {outlets : List Nat} {N o : Nat} {s : TraceSt R} {u0 : Nat} {rest : List Nat}
    {queue : List (Nat × Nat)} {qc : Int}
    (hN : ∀ p ∈ cfg.nodes, p.2 < N) (hacyc : Acyclic cfg.nodes)
    (hs : OInv cfg outlets N o s)
    (hfresh : cfg.conversion s.active ∉ s.already)
    (hc : s.cursor < cfg.maxLength)
    (hup : upstreamOf cfg.nodes s.active = u0 :: rest)
    (hpush : pushAll s.active rest s.queue s.queueCursor = .ok (queue, qc)) :
    OInv cfg outlets N o
      { visit cfg s with queue := queue, queueCursor := qc, active := u0 } := by
  have hedge_u : ∀ u ∈ u0 :: rest, edge cfg.nodes s.active u := by
    intro u hu
    exact upstreamOf_mem.mp (hup ▸ hu)
  obtain ⟨hqEq, hqLen, hqWrite, hqPres⟩ := pushAll_ok_spec hpush hs.qcNonneg
  have hnodup := visit_nodup hacyc hs hc
  have hreachLen' : (s.reach.set s.cursor s.active).length = cfg.maxLength := by
    rw [List.length_set, hs.reachLen]
  have hsetc : (s.reach.set s.cursor s.active).getD s.cursor 0 = s.active :=
    getD_set_self _ _ (by rw [hs.reachLen]; omega)
  -- the old queue-entry resume points never sit at the new buffer slot
  have hOldPos : ∀ k : Nat, (k : Int) < s.queueCursor → ∀ i, i < s.cursor + 1 →
      (s.reach.set s.cursor s.active).getD i 0 = (s.queue.getD k (0, 0)).1 →
      i < s.cursor ∧ s.reach.getD i 0 = (s.queue.getD k (0, 0)).1 := by
    intro k hk i hi hiv
    obtain ⟨-, i0, hi0, hi0v⟩ := hs.queueLive k hk
    have hi0v' : (s.reach.set s.cursor s.active).getD i0 0 = (s.queue.getD k (0, 0)).1 := by
      rw [getD_set_ne _ _ (by omega)]
      exact hi0v
    rcases Nat.lt_or_ge i s.cursor with hic | hic
    · rw [getD_set_ne _ _ (by omega)] at hiv
      exact ⟨hic, hiv⟩
    · exfalso
      have hieq : i = s.cursor := by omega
      subst hieq
      have : i0 = s.cursor := by
        apply nodup_getD_inj hnodup
        · rw [List.length_take, hreachLen']
          omega
        · rw [List.length_take, hreachLen']
          omega
        · rw [getD_take_lt _ (by omega), getD_take_lt _ (by omega)]
          rw [hi0v', hiv]
      omega
  obtain ⟨g, rootMem, reachLen, timesLen, distsLen, queueLen, startLe, cursorLe,
    cursorAl, bufWalk, bufHead, activeLink, activeLt, bufTimes, bufDists,
    bufZero, bufTZero, bufDZero, qcNonneg, queueLive, queueMono, queueBound,
    queueTail⟩ := hs
  -- the strengthened queue bound, needed both for queueBound and queueTail
  obtain ⟨S, hSnd, hSmem, hSsum⟩ := queueBound
  have hactS : s.active ∉ S := by
    intro hmem
    exact hfresh (hSmem s.active hmem).1
  have hS'nd : (s.active :: S).Nodup := List.nodup_cons.mpr ⟨hactS, hSnd⟩
  have hS'sum : qc + (s.active :: S).length ≤
      (((s.active :: S).map (fun v : Nat => (upstreamOf cfg.nodes v).length)).sum : Int) := by
    simp only [List.map_cons, List.sum_cons, List.length_cons, hup]
    omega
  have hqcTop : qc ≤ (s.queue.length : Int) - 1 := by
    have hle := sum_upstream_le cfg.nodes hS'nd
    have h2 : (((s.active :: S).map (fun v : Nat => (upstreamOf cfg.nodes v).length)).sum : Int)
        ≤ (cfg.nodes.length : Int) := by exact_mod_cast hle
    rw [queueLen]
    simp only [List.length_cons] at hS'sum
    omega
  constructor
  -- global part: rows untouched, visited set grows by a branching node
  case g =>
    obtain ⟨timeLen, distLen, startsLen, rowsMax, rowsSound, vis⟩ := g
    refine ⟨timeLen, distLen, startsLen, rowsMax, rowsSound, ?_⟩
    obtain ⟨V, hVnd, hValr, hVlt, hVcount⟩ := vis
    refine ⟨s.active :: V, ?_, by simp [visit, hValr], ?_, ?_⟩
    · refine List.nodup_cons.mpr ⟨?_, hVnd⟩
      intro hmem
      exact hfresh (hValr ▸ List.mem_map_of_mem cfg.conversion hmem)
    · intro v hv
      rcases List.mem_cons.mp hv with rfl | hv'
      · exact activeLt
      · exact hVlt v hv'
    · simp only [visit]
      rw [List.filter_cons_of_neg (by simp [hup])]
      exact hVcount
  case rootMem => exact rootMem
  case reachLen => simpa [visit] using hreachLen'
  case timesLen => simp [visit, timesLen]
  case distsLen => simp [visit, distsLen]
  case queueLen => simpa [queueLen] using hqLen
  case startLe => simp only [visit]; omega
  case cursorLe => simp only [visit]; omega
  case cursorAl => simp only [visit, List.length_cons]; omega
  case bufWalk => exact visit_chain ⟨g, rootMem, reachLen, timesLen, distsLen,
      queueLen, startLe, cursorLe, cursorAl, bufWalk, bufHead, activeLink,
      activeLt, bufTimes, bufDists, bufZero, bufTZero, bufDZero, qcNonneg,
      queueLive, queueMono, ⟨S, hSnd, hSmem, hSsum⟩, queueTail⟩ hc
  case bufHead =>
    intro _
    exact visit_head ⟨g, rootMem, reachLen, timesLen, distsLen,
      queueLen, startLe, cursorLe, cursorAl, bufWalk, bufHead, activeLink,
      activeLt, bufTimes, bufDists, bufZero, bufTZero, bufDZero, qcNonneg,
      queueLive, queueMono, ⟨S, hSnd, hSmem, hSsum⟩, queueTail⟩ hc
  case activeLink =>
    right
    refine ⟨by simp [visit], ?_⟩
    simp only [visit, Nat.add_sub_cancel]
    rw [hsetc]
    exact hedge_u u0 (by simp)
  case activeLt =>
    have := hedge_u u0 (by simp)
    exact hN _ this
  case bufTimes =>
    intro k hk
    simp only [visit] at hk ⊢
    rcases Nat.lt_or_ge k s.cursor with hkc | hkc
    · rw [getD_set_ne _ _ (by omega), getD_set_ne _ _ (by omega)]
      exact bufTimes k hkc
    · have hkeq : k = s.cursor := by omega
      subst hkeq
      rw [getD_set_self _ _ (by rw [timesLen]; omega),
        getD_set_self _ _ (by rw [reachLen]; omega)]
  case bufDists =>
    intro k hk
    simp only [visit] at hk ⊢
    rcases Nat.lt_or_ge k s.cursor with hkc | hkc
    · rw [getD_set_ne _ _ (by omega), getD_set_ne _ _ (by omega)]
      exact bufDists k hkc
    · have hkeq : k = s.cursor := by omega
      subst hkeq
      rw [getD_set_self _ _ (by rw [distsLen]; omega),
        getD_set_self _ _ (by rw [reachLen]; omega)]
  case bufZero =>
    intro k hk
    simp only [visit] at hk ⊢
    rw [getD_set_ne _ _ (by omega)]
    exact bufZero k (by omega)
  case bufTZero =>
    intro k hk
    simp only [visit] at hk ⊢
    rw [getD_set_ne _ _ (by omega)]
    exact bufTZero k (by omega)
  case bufDZero =>
    intro k hk
    simp only [visit] at hk ⊢
    rw [getD_set_ne _ _ (by omega)]
    exact bufDZero k (by omega)
  case qcNonneg =>
    simp only [visit]
    rw [hqEq]
    have : (0 : Int) ≤ rest.length := by positivity
    omega
  case queueLive =>
    intro k hk
    simp only [visit] at hk ⊢
    rcases Int.lt_or_le (k : Int) s.queueCursor with hkold | hknew
    · rw [hqPres k (0, 0) (Or.inl hkold)]
      obtain ⟨he, i, hi, hiv⟩ := queueLive k hkold
      refine ⟨he, i, by omega, ?_⟩
      rw [getD_set_ne _ _ (by omega)]
      exact hiv
    · have hkj : ∃ j, j < rest.length ∧ k = s.queueCursor.toNat + j := by
        refine ⟨k - s.queueCursor.toNat, ?_, ?_⟩
        · rw [hqEq] at hk
          omega
        · omega
      obtain ⟨j, hj, rfl⟩ := hkj
      rw [(hqWrite j hj).2]
      have hrmem : rest.getD j 0 ∈ u0 :: rest := by
        right
        rw [List.getD_eq_getElem _ _ hj]
        exact List.getElem_mem hj
      exact ⟨hedge_u _ hrmem, s.cursor, by omega, hsetc⟩
  case queueMono =>
    intro k1 k2 i1 i2 hk12 hk2 hi1 hi2 hv1 hv2
    simp only [visit] at hk2 hi1 hi2 hv1 hv2 ⊢
    rcases Int.lt_or_le (k2 : Int) s.queueCursor with hk2old | hk2new
    · have hk1old : (k1 : Int) < s.queueCursor := by
        have : (k1 : Int) ≤ k2 := by exact_mod_cast hk12
        omega
      rw [hqPres k1 (0, 0) (Or.inl hk1old)] at hv1
      rw [hqPres k2 (0, 0) (Or.inl hk2old)] at hv2
      obtain ⟨hi1c, hv1'⟩ := hOldPos k1 hk1old i1 hi1 hv1
      obtain ⟨hi2c, hv2'⟩ := hOldPos k2 hk2old i2 hi2 hv2
      exact queueMono k1 k2 i1 i2 hk12 hk2old hi1c hi2c hv1' hv2'
    · -- the top entry's resume point is the freshly written slot
      have hkj : ∃ j, j < rest.length ∧ k2 = s.queueCursor.toNat + j := by
        refine ⟨k2 - s.queueCursor.toNat, ?_, ?_⟩
        · rw [hqEq] at hk2
          omega
        · omega
      obtain ⟨j, hj, rfl⟩ := hkj
      rw [(hqWrite j hj).2] at hv2
      have hi2c : i2 = s.cursor := by
        apply nodup_getD_inj hnodup
        · rw [List.length_take, hreachLen']
          omega
        · rw [List.length_take, hreachLen']
          omega
        · rw [getD_take_lt _ (by omega), getD_take_lt _ (by omega)]
          rw [hv2, hsetc]
      omega
  case queueBound =>
    exact ⟨s.active :: S, hS'nd, by
      intro v hv
      rcases List.mem_cons.mp hv with rfl | hv'
      · exact ⟨by simp [visit], by rw [hup]; simp⟩
      · exact ⟨by simp only [visit]; exact List.mem_cons_of_mem _ (hSmem v hv').1,
          (hSmem v hv').2⟩, by simpa [visit] using hS'sum⟩
  case queueTail =>
    intro k hk
    rw [hqLen] at hk
    rw [hqPres k (0, 0) (Or.inr (by rw [← hqEq]; rw [queueLen] at hqcTop; omega))]
    exact queueTail k hk

theorem resume_scan_some {R : Type} [AddCommMonoid R] (s : TraceSt R) (pair : Nat × Nat)
    {j : Nat} (h : scanFor s.reach pair.1 = some j) :
    resume s pair = { s with
      reach := zeroFrom s.reach (j + 1) 0
      timesBuf := zeroFrom s.timesBuf (j + 1) 0
      distsBuf := zeroFrom s.distsBuf (j + 1) 0
      startCursor := j + 1
      cursor := j + 1
      active := pair.2 } := by
  unfold resume
  rw [h]

theorem oinv_resume {R : Type} [AddCommMonoid R] {cfg : NavCfg R}
    {outlets : List Nat} {N o : Nat} {s : TraceSt R} {k : Nat}
    (hN : ∀ p ∈ cfg.nodes, p.2 < N) (hacyc : Acyclic cfg.nodes)
    (hs : OInv cfg outlets N o s)
    (hfresh : cfg.conversion s.active ∉ s.already)
    (hc : s.cursor < cfg.maxLength)
    (hup : upstreamOf cfg.nodes s.active = [])
    (hrows : s.rows.length < cfg.maxPaths)
    (hidx : npIndex s.queue.length (s.queueCursor - 1) = some k)
    (hne : s.queue.getD k (0, 0) ≠ (0, 0)) :
    OInv cfg outlets N o
      (resume { commit (visit cfg s) with queueCursor := s.queueCursor - 1 }
        (s.queue.getD k (0, 0))) := by
  have hqc0 := hs.qcNonneg
  -- the pop index: a wrapped read of the sentinel slot would contradict `hne`
  have hqc1 : 1 ≤ s.queueCursor := by
    by_contra hlt
    have hq0 : s.queueCursor = 0 := by omega
    rw [hq0] at hidx
    rcases Nat.eq_zero_or_pos s.queue.length with hl0 | hl0
    · rw [npIndex_none (Or.inl (by omega))] at hidx
      exact Option.noConfusion hidx
    · have hm1 : (0 : Int) - 1 = -1 := by norm_num
      rw [hm1, npIndex_neg_one hl0] at hidx
      have hkeq : k = s.queue.length - 1 := (Option.some.inj hidx).symm
      exact hne (by rw [hkeq]; exact hs.queueTail _ (by omega))
  obtain ⟨hkval, hklt⟩ := npIndex_some_nonneg (by omega) hidx
  have hkInt : (k : Int) = s.queueCursor - 1 := by rw [hkval]; omega
  have hkqc : (k : Int) < s.queueCursor := by omega
  obtain ⟨hedge, i, hi, hiv⟩ := hs.queueLive k hkqc
  have hnodup := visit_nodup hacyc hs hc
  -- the resume scan stops exactly at the queued entry's resume point
  have hscan : scanFor (s.reach.set s.cursor s.active) (s.queue.getD k (0, 0)).1
      = some i := by
    apply scanFor_buffer hnodup (by omega) (by rw [List.length_set, hs.reachLen]; omega)
    rw [getD_set_ne _ _ (by omega)]
    exact hiv
  have hscan' : scanFor ({ commit (visit cfg s) with
      queueCursor := s.queueCursor - 1 } : TraceSt R).reach
      (s.queue.getD k (0, 0)).1 = some i := hscan
  rw [resume_scan_some _ _ hscan']
  constructor
  case g =>
    obtain ⟨t1, t2, t3, t4, t5, t6⟩ :=
      ginv_after_commit hs hfresh hc hup hrows (s.queueCursor - 1)
    exact ⟨t1, t2, t3, t4, t5, t6⟩
  case rootMem => exact hs.rootMem
  case reachLen =>
    simp only [commit, visit]
    rw [length_zeroFrom, List.length_set, hs.reachLen]
  case timesLen =>
    simp only [commit, visit]
    rw [length_zeroFrom, List.length_set, hs.timesLen]
  case distsLen =>
    simp only [commit, visit]
    rw [length_zeroFrom, List.length_set, hs.distsLen]
  case queueLen =>
    simp only [commit, visit]
    exact hs.queueLen
  case startLe => exact Nat.le_refl _
  case cursorLe =>
    show i + 1 ≤ cfg.maxLength
    omega
  case cursorAl =>
    simp only [commit, visit, List.length_cons]
    have := hs.cursorAl
    omega
  case bufWalk =>
    simp only [commit, visit]
    rw [zeroFrom_take 0 (by rw [List.length_set, hs.reachLen]; omega)]
    have hch := visit_chain hs hc
    have htk : (s.reach.set s.cursor s.active).take (i + 1)
        = ((s.reach.set s.cursor s.active).take (s.cursor + 1)).take (i + 1) := by
      rw [List.take_take, min_eq_left (by omega)]
    rw [htk]
    exact hch.take _
  case bufHead =>
    intro _
    simp only [commit, visit]
    rw [getD_zeroFrom_lt 0 0 (by omega)]
    exact visit_head hs hc
  case activeLink =>
    right
    refine ⟨Nat.succ_pos i, ?_⟩
    simp only [commit, visit, Nat.add_sub_cancel]
    rw [getD_zeroFrom_lt 0 0 (by omega)]
    rw [getD_set_ne _ _ (by omega)]
    rw [hiv]
    exact hedge
  case activeLt => exact hN _ hedge
  case bufTimes =>
    intro k2 hk2
    simp only [commit, visit] at hk2 ⊢
    rw [getD_zeroFrom_lt 0 0 (by omega), getD_zeroFrom_lt 0 0 (by omega)]
    rw [getD_set_ne _ _ (by omega), getD_set_ne _ _ (by omega)]
    exact hs.bufTimes k2 (by omega)
  case bufDists =>
    intro k2 hk2
    simp only [commit, visit] at hk2 ⊢
    rw [getD_zeroFrom_lt 0 0 (by omega), getD_zeroFrom_lt 0 0 (by omega)]
    rw [getD_set_ne _ _ (by omega), getD_set_ne _ _ (by omega)]
    exact hs.bufDists k2 (by omega)
  case bufZero =>
    intro k2 hk2
    simp only [commit, visit] at hk2 ⊢
    exact getD_zeroFrom_ge 0 hk2
  case bufTZero =>
    intro k2 hk2
    simp only [commit, visit] at hk2 ⊢
    exact getD_zeroFrom_ge 0 hk2
  case bufDZero =>
    intro k2 hk2
    simp only [commit, visit] at hk2 ⊢
    exact getD_zeroFrom_ge 0 hk2
  case qcNonneg =>
    simp only [commit, visit]
    omega
  case queueLive =>
    intro k2 hk2
    simp only [commit, visit] at hk2 ⊢
    have hk2qc : (k2 : Int) < s.queueCursor := by omega
    obtain ⟨he2, i2, hi2, hiv2⟩ := hs.queueLive k2 hk2qc
    have hle : i2 ≤ i := hs.queueMono k2 k i2 i (by omega) hkqc hi2 hi hiv2 hiv
    refine ⟨he2, i2, by omega, ?_⟩
    rw [getD_zeroFrom_lt 0 0 (by omega), getD_set_ne _ _ (by omega)]
    exact hiv2
  case queueMono =>
    intro k1 k2 i1 i2 hk12 hk2 hi1 hi2 hv1 hv2
    simp only [commit, visit] at hk2 hi1 hi2 hv1 hv2
    rw [getD_zeroFrom_lt 0 0 (by omega), getD_set_ne _ _ (by omega)] at hv1
    rw [getD_zeroFrom_lt 0 0 (by omega), getD_set_ne _ _ (by omega)] at hv2
    exact hs.queueMono k1 k2 i1 i2 hk12 (by omega) (by omega) (by omega) hv1 hv2
  case queueBound =>
    obtain ⟨S, hSnd, hSmem, hSsum⟩ := hs.queueBound
    refine ⟨S, hSnd, ?_, ?_⟩
    · intro v hv
      refine ⟨?_, (hSmem v hv).2⟩
      simp only [commit, visit]
      exact List.mem_cons_of_mem _ (hSmem v hv).1
    · simp only [commit, visit]
      omega
  case queueTail =>
    intro k2 hk2
    simp only [commit, visit] at hk2 ⊢
    exact hs.queueTail k2 hk2

/-! ## Assembly of the run invariant and claim C1 -/

theorem oinv_stepPresTo {R : Type} [AddCommMonoid R] {cfg : NavCfg R}
    {outlets : List Nat} {N o : Nat}
    (hN : ∀ p ∈ cfg.nodes, p.2 < N) (hacyc : Acyclic cfg.nodes) :
    StepPresTo cfg (OInv cfg outlets N o) (GInv cfg outlets N) := by
  intro s hs
  constructor
  · intro s' hstep
    obtain ⟨hfresh, hc, hsplit⟩ := step_cont_shape hstep
    rcases hsplit with ⟨u0, rest, queue, qc, hup, hpush, rfl⟩ |
      ⟨k, hup, hrows, hidx, hne, rfl⟩
    · exact oinv_branch hN hacyc hs hfresh hc hup hpush
    · exact oinv_resume hN hacyc hs hfresh hc hup hrows hidx hne
  · intro s' hstep
    obtain ⟨hfresh, hc, hup, hrows, k, hidx, h4, rfl⟩ := step_done_shape hstep
    exact ginv_after_commit hs hfresh hc hup hrows _

theorem ginv_initSt {R : Type} [AddCommMonoid R] (cfg : NavCfg R)
    (outlets : List Nat) (N : Nat) : GInv cfg outlets N (initSt : TraceSt R) := by
  refine ⟨rfl, rfl, rfl, by simp [initSt], ?_,
    ⟨[], List.nodup_nil, rfl, by simp, rfl⟩⟩
  intro r hr
  simp [initSt] at hr

theorem runOutlets_ginv {R : Type} [AddCommMonoid R] {cfg : NavCfg R}
    {outlets : List Nat} {N : Nat} {fuel : Nat} {s' : TraceSt R}
    (hN : ∀ p ∈ cfg.nodes, p.2 < N) (hacyc : Acyclic cfg.nodes)
    (hout : ∀ o ∈ outlets, o < N)
    (h : runOutlets cfg fuel outlets initSt = .ok s') :
    GInv cfg outlets N s' :=
  runOutlets_presTo outlets (fun o _ => oinv_stepPresTo hN hacyc)
    (fun s o ho hg => oinv_initOutlet ho (hout o ho) hg)
    fuel initSt s' (ginv_initSt cfg outlets N) h

/-- A network whose node table strictly increases along every upstream
edge has no upstream cycle. -/
theorem acyclic_of_lt (nodes : List (Int × Nat))
    (h : ∀ p ∈ nodes, p.1 < (p.2 : Int)) : Acyclic nodes := by
  have hedge : ∀ a b, edge nodes a b → a < b := by
    intro a b he
    have := h _ he
    simp only at this
    exact_mod_cast this
  have hreach : ∀ a b, UpReach nodes a b → a ≤ b := by
    intro a b hr
    induction hr with
    | refl => exact le_refl _
    | tail _ he ih => exact le_of_lt (lt_of_le_of_lt ih (hedge _ _ he))
  intro a b hr he
  have h1 := hreach a b hr
  have h2 := hedge b a he
  omega

/-- An alias whose every table occurrence as an upstream end carries a
negative downstream id (such as the sentinel `-1`) has no upstream edge
pointing at it. -/
theorem not_edge_to {nodes : List (Int × Nat)} {o : Nat}
    (h : ∀ p ∈ nodes, p.2 = o → p.1 < 0) : ∀ a : Nat, ¬ edge nodes a o := by
  intro a he
  have := h _ he rfl
  simp only at this
  omega

/-- Claim C1: on every acyclic forest network (unique downstream
neighbors, no upstream edge into an outlet, aliases bounded by `N`), for
every row of the Path Table produced by `rapid_trace` and every occupied
position `p` of that row, there is a root outlet and a unique upstream
walk from it to the alias stored at `p`, and the cumulative time and
distance stored at `p` are exactly the sums of the per-reach times and
distances of the aliases on that walk.  Taking `p` to be the last
occupied column specializes this to the full root-to-headwater walk. -/
theorem rapid_trace_walk_sums {R : Type} [AddCommMonoid R] {cfg : NavCfg R}
    {outlets : List Nat}
    {paths : List (List Nat)} {ts ds : List (List R)} (N fuel : Nat)
    (hacyc : Acyclic cfg.nodes) (hcu : ChildUnique cfg.nodes)
    (hN : ∀ p ∈ cfg.nodes, p.2 < N)
    (hout : ∀ o ∈ outlets, o < N)
    (hrp : ∀ o ∈ outlets, ∀ p ∈ cfg.nodes, p.2 = o → p.1 < 0)
    (h : rapid_trace cfg outlets fuel = .ok (paths, ts, ds)) :
    ∀ r p, 0 < (paths.getD r []).getD p 0 →
      ∃ root w, root ∈ outlets ∧
        IsUpWalk cfg.nodes w root ((paths.getD r []).getD p 0) ∧
        (∀ root' w', root' ∈ outlets →
          IsUpWalk cfg.nodes w' root' ((paths.getD r []).getD p 0) → w' = w) ∧
        (ts.getD r []).getD p 0 = (w.map cfg.times).sum ∧
        (ds.getD r []).getD p 0 = (w.map cfg.dists).sum := by
  intro r p hp
  obtain ⟨s', hrun, hout3⟩ := rapid_trace_ok_elim h
  obtain ⟨rfl, rfl, rfl⟩ := hout3
  have hg : GInv cfg outlets N s' := runOutlets_ginv hN hacyc hout hrun
  have hr : r < s'.rows.length := by
    by_contra hge
    have hnil : (s'.rows.map (·.take s'.longest)).getD r [] = [] :=
      getD_of_le _ (by rw [List.length_map]; omega)
    rw [hnil] at hp
    simp at hp
  have hmapr : (s'.rows.map (·.take s'.longest)).getD r [] =
      (s'.rows.getD r []).take s'.longest := by
    rw [List.getD_eq_getElem _ _ (by simpa using hr), List.getElem_map,
      List.getD_eq_getElem _ _ hr]
  rw [hmapr] at hp
  have hpL : p < s'.longest := by
    by_contra hge
    have hnil : ((s'.rows.getD r []).take s'.longest).getD p 0 = 0 :=
      getD_of_le _ (by rw [List.length_take]; omega)
    rw [hnil] at hp
    omega
  rw [getD_take_lt _ hpL] at hp
  have hrt : r < s'.timeRows.length := by rw [hg.timeLen]; exact hr
  have hrd : r < s'.distRows.length := by rw [hg.distLen]; exact hr
  have hmapt : (s'.timeRows.map (·.take s'.longest)).getD r [] =
      (s'.timeRows.getD r []).take s'.longest := by
    rw [List.getD_eq_getElem _ _ (by simpa using hrt), List.getElem_map,
      List.getD_eq_getElem _ _ hrt]
  have hmapd : (s'.distRows.map (·.take s'.longest)).getD r [] =
      (s'.distRows.getD r []).take s'.longest := by
    rw [List.getD_eq_getElem _ _ (by simpa using hrd), List.getElem_map,
      List.getD_eq_getElem _ _ hrd]
  rw [hmapr, hmapt, hmapd, getD_take_lt _ hpL, getD_take_lt _ hpL, getD_take_lt _ hpL]
  obtain ⟨root, w0, hroot, hw0head, hw0chain, hw0⟩ := hg.rowsSound r hr
  obtain ⟨hplt, hweq, htval, hdval⟩ := hw0 p hp
  have hw0pos : 0 < w0.length := by omega
  have hrpE : ∀ o ∈ outlets, ∀ a, ¬ edge cfg.nodes a o := by
    intro o ho
    exact not_edge_to (hrp o ho)
  have hwWalk : IsUpWalk cfg.nodes (w0.take (p + 1)) root
      ((s'.rows.getD r []).getD p 0) := by
    refine ⟨?_, ?_, hw0chain.take _⟩
    · rw [head?_take 0 (Nat.succ_pos p) hw0pos]
      cases w0 with
      | nil => cases hw0head
      | cons a l => simpa using hw0head
    · rw [getLast?_take 0 (Nat.succ_pos p) (by omega)]
      rw [show p + 1 - 1 = p from rfl]
      rw [hweq]
  refine ⟨root, w0.take (p + 1), hroot, hwWalk, ?_, htval, hdval⟩
  intro root' w' ho' hw'
  exact upwalk_unique hcu hrpE w' ho' hroot hw' hwWalk

/-- Duplicate-free aliased comids give unique downstream neighbors: the
decidable entry point for establishing `ChildUnique` on concrete tables. -/
theorem childUnique_of_nodup_map {nodes : List (Int × Nat)}
    (h : (nodes.map (·.2)).Nodup) : ChildUnique nodes := by
  intro p q hp hq hpq
  exact List.inj_on_of_nodup_map h hp hq hpq

/-- A three-reach chain network used by the C1 witness: aliases 1-2-3
with the outlet at alias 1. -/
def witCfgC : NavCfg Int :=
  { nodes := [(-1, 1), (1, 2), (2, 3)], times := fun v => (v : Int) + 1,
    dists := fun v => 2 * (v : Int) + 1, conversion := fun a => (a : Int) + 100,
    maxLength := 4, maxPaths := 4 }

/-- Witness for claim C1: on the three-reach chain, the occupied cell at
row 0, column 2 holds alias 3, its unique outlet walk is `[1, 2, 3]`, and
the stored cumulative time 9 and distance 15 are the walk's attribute
sums. -/
theorem rapid_trace_walk_sums_witness :
    0 < (([[1, 2, 3]] : List (List Nat)).getD 0 []).getD 2 0 ∧
    ∃ root w, root ∈ [1] ∧
      IsUpWalk witCfgC.nodes w root
        ((([[1, 2, 3]] : List (List Nat)).getD 0 []).getD 2 0) ∧
      (∀ root' w', root' ∈ [1] →
        IsUpWalk witCfgC.nodes w' root'
          ((([[1, 2, 3]] : List (List Nat)).getD 0 []).getD 2 0) → w' = w) ∧
      (([[2, 5, 9]] : List (List Int)).getD 0 []).getD 2 0 = (w.map witCfgC.times).sum ∧
      (([[3, 8, 15]] : List (List Int)).getD 0 []).getD 2 0 = (w.map witCfgC.dists).sum :=
  ⟨by decide,
    rapid_trace_walk_sums 4 9 (acyclic_of_lt _ (by decide))
      (childUnique_of_nodup_map (by decide)) (by decide)
      (by decide) (by decide) (by decide) 0 2 (by decide)⟩

/-! ## Claim C6: branch and resume mechanics of one loop iteration -/

/-- Claim C6: in any continuing iteration of `rapid_trace`'s walk, if the
current alias has upstream aliases `u0 :: rest` (in input order) then the
walk continues with the first one `u0` and each other upstream alias
`rest[j]` is written to the pending queue at slot `queue_cursor + j`
paired with the current alias as its resume point, other slots unchanged;
and if the current alias has no upstream alias and the popped pending
item is taken at buffer position `j` of its resume-point alias, then the
cursor is set to `j + 1`, `start_cursor` is set to that same cursor, all
working-buffer positions from the cursor onward are zeroed (the earlier
ones kept), and the walk continues from the popped alias. -/
theorem step_branch_and_resume {R : Type} [AddCommMonoid R] (cfg : NavCfg R)
    (s s' : TraceSt R) (hqc : 0 ≤ s.queueCursor) (h : step cfg s = .cont s') :
    (∀ u0 rest, upstreamOf cfg.nodes s.active = u0 :: rest →
      s'.active = u0 ∧
      s'.queueCursor = s.queueCursor + rest.length ∧
      (∀ j, j < rest.length →
        s'.queue.getD (s.queueCursor.toNat + j) (0, 0) = (s.active, rest.getD j 0)) ∧
      (∀ (k : Nat) (d : Nat × Nat),
        ((k : Int) < s.queueCursor ∨ s.queueCursor + rest.length ≤ (k : Int)) →
        s'.queue.getD k d = s.queue.getD k d)) ∧
    (∀ k j, upstreamOf cfg.nodes s.active = [] →
      npIndex s.queue.length (s.queueCursor - 1) = some k →
      scanFor ((visit cfg s).reach) (s.queue.getD k (0, 0)).1 = some j →
      s'.cursor = j + 1 ∧ s'.startCursor = s'.cursor ∧
      s'.active = (s.queue.getD k (0, 0)).2 ∧
      (∀ i, s'.cursor ≤ i → s'.reach.getD i 0 = 0 ∧
        s'.timesBuf.getD i 0 = (0 : R) ∧ s'.distsBuf.getD i 0 = (0 : R)) ∧
      (∀ i, i < s'.cursor → s'.reach.getD i 0 = (visit cfg s).reach.getD i 0)) := by
  obtain ⟨hfresh, hc, hsplit⟩ := step_cont_shape h
  constructor
  · intro u0 rest hup
    rcases hsplit with ⟨u0', rest', queue, qc, hup', hpush, rfl⟩ |
      ⟨k, hup', hrows, hidx, hne, rfl⟩
    · rw [hup] at hup'
      obtain ⟨rfl, rfl⟩ : u0 = u0' ∧ rest = rest' := by
        injection hup' with h1 h2
        exact ⟨h1, h2⟩
      obtain ⟨hqEq, hqLen, hwrite, hpres⟩ := pushAll_ok_spec hpush hqc
      refine ⟨rfl, hqEq, ?_, ?_⟩
      · intro j hj
        exact (hwrite j hj).2
      · intro k d hk
        exact hpres k d hk
    · rw [hup'] at hup
      exact List.noConfusion hup
  · intro k j hup hidx hscan
    rcases hsplit with ⟨u0', rest', queue, qc, hup', hpush, rfl⟩ |
      ⟨k', hup', hrows, hidx', hne, rfl⟩
    · rw [hup] at hup'
      exact List.noConfusion hup'
    · have hkk : k = k' := by
        rw [hidx] at hidx'
        exact Option.some.inj hidx'
      subst hkk
      have hscan' : scanFor ({ commit (visit cfg s) with
          queueCursor := s.queueCursor - 1 } : TraceSt R).reach
          (s.queue.getD k (0, 0)).1 = some j := hscan
      rw [resume_scan_some _ _ hscan']
      refine ⟨rfl, rfl, rfl, ?_, ?_⟩
      · intro i hi
        exact ⟨getD_zeroFrom_ge 0 hi, getD_zeroFrom_ge 0 hi, getD_zeroFrom_ge 0 hi⟩
      · intro i hi
        exact getD_zeroFrom_lt 0 0 hi

/-- The state reached from the outlet-1 start of `witCfgA` after one
branching iteration: the walk advanced to upstream alias 2 and queued
`(1, 3)`. -/
def witBranchSt : TraceSt Int :=
  { rows := [], timeRows := [], distRows := [], rowStarts := [], longest := 1,
    already := [101], queue := [(1, 3), (0, 0), (0, 0), (0, 0)], queueCursor := 1,
    reach := [1, 0, 0, 0, 0, 0], timesBuf := [2, 0, 0, 0, 0, 0],
    distsBuf := [1, 0, 0, 0, 0, 0], startCursor := 0, cursor := 1, active := 2 }

/-- A mid-trace state of `witCfgA`: the walk sits at headwater alias 4
with `(1, 3)` pending, about to commit and resume. -/
def witResumePre : TraceSt Int :=
  { rows := [], timeRows := [], distRows := [], rowStarts := [], longest := 2,
    already := [102, 101], queue := [(1, 3), (0, 0), (0, 0), (0, 0)], queueCursor := 1,
    reach := [1, 2, 0, 0, 0, 0], timesBuf := [2, 2, 0, 0, 0, 0],
    distsBuf := [1, 1, 0, 0, 0, 0], startCursor := 0, cursor := 2, active := 4 }

/-- The state after the commit-and-resume iteration from `witResumePre`:
the path `[1, 2, 4]` is committed, the buffer is truncated one past the
resume point alias 1, and the walk continues from popped alias 3. -/
def witResumeSt : TraceSt Int :=
  { rows := [[1, 2, 4, 0, 0, 0]], timeRows := [[2, 4, 6, 0, 0, 0]],
    distRows := [[1, 2, 3, 0, 0, 0]], rowStarts := [0], longest := 3,
    already := [104, 102, 101], queue := [(1, 3), (0, 0), (0, 0), (0, 0)],
    queueCursor := 0, reach := [1, 0, 0, 0, 0, 0], timesBuf := [2, 0, 0, 0, 0, 0],
    distsBuf := [1, 0, 0, 0, 0, 0], startCursor := 1, cursor := 1, active := 3 }

/-- Witness for claim C6 on the four-reach network `witCfgA`: the
branching iteration from the outlet continues with upstream alias 2 and
queues `(1, 3)` at slot 0; the commit-and-resume iteration from the
headwater sets the cursor one past the resume point, equates
`start_cursor` with it, zeroes the buffer beyond, and continues from
popped alias 3. -/
theorem step_branch_and_resume_witness :
    (0 ≤ (initOutlet witCfgA (initSt : TraceSt Int) 1).queueCursor ∧
      witBranchSt.active = 2 ∧
      witBranchSt.queueCursor =
        (initOutlet witCfgA (initSt : TraceSt Int) 1).queueCursor +
          ((([3] : List Nat)).length : Int) ∧
      witBranchSt.queue.getD 0 (0, 0) =
        ((initOutlet witCfgA (initSt : TraceSt Int) 1).active,
          ([3] : List Nat).getD 0 0)) ∧
    (witResumeSt.cursor = 0 + 1 ∧
      witResumeSt.startCursor = witResumeSt.cursor ∧
      witResumeSt.active = (witResumePre.queue.getD 0 (0, 0)).2 ∧
      witResumeSt.reach.getD 3 0 = 0) := by
  have hB := (step_branch_and_resume witCfgA (initOutlet witCfgA initSt 1)
    witBranchSt (by decide) (by decide)).1 2 [3] (by decide)
  have hR := (step_branch_and_resume witCfgA witResumePre witResumeSt
    (by decide) (by decide)).2 0 0 (by decide) (by decide) (by decide)
  exact ⟨⟨by decide, hB.1, hB.2.1, hB.2.2.1 0 (by decide)⟩,
    hR.1, hR.2.1, hR.2.2.1, (hR.2.2.2.1 3 (by decide)).1⟩

/-! ## Claim C10: termination of the per-outlet loop -/

theorem traceOutlet_no_fuelOut {R : Type} [AddCommMonoid R] {cfg : NavCfg R}
    {outlets : List Nat} {N o : Nat}
    (hN : ∀ p ∈ cfg.nodes, p.2 < N) (hacyc : Acyclic cfg.nodes) :
    ∀ (fuel : Nat) (s : TraceSt R), OInv cfg outlets N o s →
      N + 1 ≤ fuel + s.already.length →
      traceOutlet cfg fuel s ≠ .error .fuelOut := by
  intro fuel
  induction fuel with
  | zero =>
    intro s hs hf _
    obtain ⟨V, hVnd, hValr, hVlt, -⟩ := hs.g.vis
    have hlen : s.already.length = V.length := by rw [hValr, List.length_map]
    have hVN : V.length ≤ N := by
      have hsub : V ⊆ List.range N := by
        intro v hv
        exact List.mem_range.mpr (hVlt v hv)
      have := (hVnd.subperm hsub).length_le
      simpa using this
    omega
  | succ fuel ih =>
    intro s hs hf hcontra
    unfold traceOutlet at hcontra
    cases hstep : step cfg s with
    | fail e =>
      rw [hstep] at hcontra
      have he : e = .fuelOut := by
        injection hcontra
      subst he
      rcases step_fail_shape hstep with ⟨h1, -⟩ | ⟨-, h2⟩
      · cases h1
      · rcases h2 with ⟨h3, -⟩ | ⟨-, h4⟩
        · cases h3
        · rcases h4 with ⟨h5, -⟩ | ⟨-, h6⟩
          · cases h5
          · rcases h6 with ⟨h7, -⟩ | ⟨h8, -⟩
            · cases h7
            · cases h8
    | done s₁ =>
      rw [hstep] at hcontra
      cases hcontra
    | cont s₁ =>
      rw [hstep] at hcontra
      have hs₁ : OInv cfg outlets N o s₁ := ((oinv_stepPresTo hN hacyc) s hs).1 s₁ hstep
      have hlen : s₁.already.length = s.already.length + 1 := by
        obtain ⟨-, -, hsplit⟩ := step_cont_shape hstep
        rcases hsplit with ⟨u0, rest, queue, qc, -, -, rfl⟩ | ⟨k, -, -, -, -, rfl⟩
        · simp [visit]
        · simp [resume, commit, visit]
      exact ih s₁ hs₁ (by omega) hcontra

/-- Claim C10: the per-outlet loop of `rapid_trace` terminates.  On a
forest state the loop cannot run out of fuel once the fuel covers the
remaining unvisited aliases (each iteration visits a fresh alias, of
which there are at most `N`); the loop exits (rather than continuing or
failing) exactly by popping a queue pair equal to `(0, 0)`, and that exit
iteration commits the final path row first; and when the queue cursor is
decremented past zero the wrapped numpy read hits the queue's last slot,
which the run invariant keeps zeroed, so the exit also fires from cursor
position zero. -/
theorem rapid_trace_loop_exit {R : Type} [AddCommMonoid R] {cfg : NavCfg R}
    {outlets : List Nat} {N o : Nat} (fuel : Nat) (s : TraceSt R)
    (hN : ∀ p ∈ cfg.nodes, p.2 < N) (hacyc : Acyclic cfg.nodes)
    (hs : OInv cfg outlets N o s)
    (hfuel : N + 1 ≤ fuel + s.already.length) :
    traceOutlet cfg fuel s ≠ .error .fuelOut ∧
    (∀ s₀ s' : TraceSt R, step cfg s₀ = .done s' →
      ∃ k, npIndex s₀.queue.length (s₀.queueCursor - 1) = some k ∧
        s₀.queue.getD k (0, 0) = (0, 0) ∧
        s' = { commit (visit cfg s₀) with queueCursor := s₀.queueCursor - 1 }) ∧
    (∀ s₀ : TraceSt R, OInv cfg outlets N o s₀ → s₀.queueCursor = 0 →
      0 < s₀.queue.length →
      npIndex s₀.queue.length (s₀.queueCursor - 1) = some (s₀.queue.length - 1) ∧
      s₀.queue.getD (s₀.queue.length - 1) (0, 0) = (0, 0)) := by
  refine ⟨traceOutlet_no_fuelOut hN hacyc fuel s hs hfuel, ?_, ?_⟩
  · intro s₀ s' hstep
    obtain ⟨-, -, -, -, k, hidx, hzero, hset⟩ := step_done_shape hstep
    exact ⟨k, hidx, hzero, hset⟩
  · intro s₀ hs₀ hq0 hlen
    constructor
    · rw [hq0]
      have hm1 : (0 : Int) - 1 = -1 := by norm_num
      rw [hm1]
      exact npIndex_neg_one hlen
    · exact hs₀.queueTail _ (by omega)

/-- The state `step` reaches from `witResumeSt` by committing the final
path `[_, 3]` and reading the still-zero wrapped queue slot. -/
def witDoneSt : TraceSt Int :=
  { rows := [[1, 2, 4, 0, 0, 0], [0, 3, 0, 0, 0, 0]],
    timeRows := [[2, 4, 6, 0, 0, 0], [0, 4, 0, 0, 0, 0]],
    distRows := [[1, 2, 3, 0, 0, 0], [0, 2, 0, 0, 0, 0]],
    rowStarts := [0, 1], longest := 3,
    already := [103, 104, 102, 101], queue := [(1, 3), (0, 0), (0, 0), (0, 0)],
    queueCursor := -1, reach := [1, 3, 0, 0, 0, 0], timesBuf := [2, 2, 0, 0, 0, 0],
    distsBuf := [1, 1, 0, 0, 0, 0], startCursor := 1, cursor := 2, active := 3 }

/-- Witness for claim C10 on the four-reach network `witCfgA`: the trace
from outlet 1 finishes within fuel 6, the exiting iteration from
`witResumeSt` pops the wrapped `(0, 0)` slot after committing its row,
and at queue cursor 0 the wrapped read of slot `length - 1` is zero. -/
theorem rapid_trace_loop_exit_witness :
    (traceOutlet witCfgA 6 (initOutlet witCfgA (initSt : TraceSt Int) 1) ≠
      .error .fuelOut) ∧
    (∃ k, npIndex witResumeSt.queue.length (witResumeSt.queueCursor - 1) = some k ∧
      witResumeSt.queue.getD k (0, 0) = (0, 0) ∧
      witDoneSt = { commit (visit witCfgA witResumeSt) with
        queueCursor := witResumeSt.queueCursor - 1 }) ∧
    (npIndex (initOutlet witCfgA (initSt : TraceSt Int) 1).queue.length
        ((initOutlet witCfgA (initSt : TraceSt Int) 1).queueCursor - 1) =
      some ((initOutlet witCfgA (initSt : TraceSt Int) 1).queue.length - 1) ∧
      (initOutlet witCfgA (initSt : TraceSt Int) 1).queue.getD
        ((initOutlet witCfgA (initSt : TraceSt Int) 1).queue.length - 1) (0, 0) =
        (0, 0)) := by
  have hmain := rapid_trace_loop_exit 6 (initOutlet witCfgA (initSt : TraceSt Int) 1)
    (by decide) (acyclic_of_lt _ (by decide))
    (oinv_initOutlet (by decide) (by decide) (ginv_initSt witCfgA [1] 5))
    (by decide)
  exact ⟨hmain.1, hmain.2.1 witResumeSt witDoneSt (by decide),
    hmain.2.2 (initOutlet witCfgA (initSt : TraceSt Int) 1)
      (oinv_initOutlet (by decide) (by decide) (ginv_initSt witCfgA [1] 5))
      rfl (by decide)⟩

/-! ## Claim C4: cycles and the fatal revisit check -/

/-- A network with a self-loop at alias 2 that is not upstream of the
outlet alias 1. -/
def witCfgCyc : NavCfg Int :=
  { nodes := [(-1, 1), (2, 2)], times := fun _ => 1, dists := fun _ => 1,
    conversion := fun a => (a : Int) + 100, maxLength := 3, maxPaths := 3 }

/-- Counterexample to claim C4 as stated: this network contains a cycle
(the self-loop at alias 2), yet `rapid_trace` does not abort — the cycle
is not upstream of any traced outlet, so the run completes and returns a
Path Table. -/
theorem cycle_not_reached_no_abort :
    edge witCfgCyc.nodes 2 2 ∧
    rapid_trace witCfgCyc [1] 5 =
      .ok (([[1]], [[1]], [[1]]) :
        List (List Nat) × List (List Int) × List (List Int)) :=
  ⟨by decide, by decide⟩

theorem take_succ_getD {l : List α} {i : Nat} (d : α) (h : i < l.length) :
    l.take (i + 1) = l.take i ++ [l.getD i d] := by
  rw [List.take_succ, List.getElem?_eq_getElem h]
  rw [List.getD_eq_getElem _ _ h]
  rfl

theorem length_le_sum {α : Type} {f : α → Nat} {l : List α}
    (h : ∀ x ∈ l, 1 ≤ f x) : l.length ≤ (l.map f).sum := by
  induction l with
  | nil => simp
  | cons a l ih =>
    simp only [List.length_cons, List.map_cons, List.sum_cons]
    have h1 := h a (by simp)
    have h2 := ih (fun x hx => h x (by simp [hx]))
    omega

/-- The cycle-pursuit induction: if a first-upstream walk `w` leaves the
current state — whose visited set extends an arbitrary baseline `A`
accumulated by earlier outlets of the run — and ends in a revisited
comid, the loop fails with a `cycleAt` error: at the walk's repeated
comid, or earlier at the first walk comid already in the baseline. -/
theorem pursuit_aux {R : Type} [AddCommMonoid R] {cfg : NavCfg R} {w : List Nat}
    (hsteps : ∀ i, i + 1 < w.length →
      ∃ rest, upstreamOf cfg.nodes (w.getD i 0) = w.getD (i + 1) 0 :: rest)
    (hfresh : ((w.dropLast).map cfg.conversion).Nodup)
    (hrev : cfg.conversion (w.getD (w.length - 1) 0) ∈ (w.dropLast).map cfg.conversion)
    (hml : w.length ≤ cfg.maxLength) :
    ∀ (d i : Nat) (s : TraceSt R) (A : List Int), i + d = w.length - 1 →
      s.active = w.getD i 0 → s.cursor = i →
      s.already = ((w.take i).map cfg.conversion).reverse ++ A →
      s.queue.length = cfg.nodes.length →
      s.queueCursor =
        (((w.take i).map (fun v => (upstreamOf cfg.nodes v).length)).sum : Int) - i →
      ∀ fuel, d + 1 ≤ fuel →
      ∃ c, traceOutlet cfg fuel s = .error (.cycleAt c) := by
  have hdlnd : w.dropLast.Nodup := hfresh.of_map
  have htake : ∀ n, n ≤ w.length - 1 → w.take n = w.dropLast.take n := by
    intro n hn
    rw [List.dropLast_eq_take, List.take_take, min_eq_left hn]
  have htakeMapNodup : ∀ n, n ≤ w.length - 1 →
      ((w.take n).map cfg.conversion).Nodup := by
    intro n hn
    rw [htake n hn, List.map_take]
    exact List.Nodup.sublist (List.take_sublist _ _) hfresh
  intro d
  induction d with
  | zero =>
    intro i s A hik hact hcur halr hqlen hqc fuel hfuel
    obtain ⟨fuel', rfl⟩ : ∃ fuel', fuel = fuel' + 1 := ⟨fuel - 1, by omega⟩
    have hie : i = w.length - 1 := by omega
    subst hie
    have hmem : cfg.conversion s.active ∈ s.already := by
      rw [hact, halr]
      refine List.mem_append_left _ ?_
      rw [List.mem_reverse]
      have hteq : w.take (w.length - 1) = w.dropLast := (List.dropLast_eq_take w).symm
      rw [hteq]
      exact hrev
    refine ⟨cfg.conversion s.active, ?_⟩
    unfold traceOutlet
    have hstep : step cfg s = .fail (.cycleAt (cfg.conversion s.active)) := by
      unfold step
      rw [if_pos hmem]
    rw [hstep]
  | succ d ih =>
    intro i s A hik hact hcur halr hqlen hqc fuel hfuel
    obtain ⟨fuel', rfl⟩ : ∃ fuel', fuel = fuel' + 1 := ⟨fuel - 1, by omega⟩
    have hi1 : i + 1 < w.length := by omega
    obtain ⟨rest, hup⟩ := hsteps i hi1
    by_cases hvis : cfg.conversion s.active ∈ s.already
    · refine ⟨cfg.conversion s.active, ?_⟩
      unfold traceOutlet
      have hstep : step cfg s = .fail (.cycleAt (cfg.conversion s.active)) := by
        unfold step
        rw [if_pos hvis]
      rw [hstep]
    have hsplit : ((w.take (i + 1)).map
          (fun v => (upstreamOf cfg.nodes v).length)).sum
        = ((w.take i).map (fun v => (upstreamOf cfg.nodes v).length)).sum
          + (rest.length + 1) := by
      rw [take_succ_getD 0 (by omega), List.map_append, List.sum_append,
        List.map_cons, List.map_nil, List.sum_cons, List.sum_nil, hup,
        List.length_cons]
      omega
    have hq0 : 0 ≤ s.queueCursor := by
      rw [hqc]
      have hge : (w.take i).length ≤
          ((w.take i).map (fun v => (upstreamOf cfg.nodes v).length)).sum := by
        apply length_le_sum
        intro x hx
        obtain ⟨j, hjl, hjx⟩ := List.getElem_of_mem hx
        rw [List.getElem_take] at hjx
        have hjw : j + 1 < w.length := by
          simp only [List.length_take] at hjl
          omega
        obtain ⟨rest', hrest'⟩ := hsteps j hjw
        have hxw : x = w.getD j 0 := by
          rw [List.getD_eq_getElem _ _ (by omega)]
          exact hjx.symm
        rw [hxw, hrest']
        simp
      have hlen : (w.take i).length = i := by simp; omega
      omega
    have hnd1 : (w.take (i + 1)).Nodup := by
      rw [htake (i + 1) (by omega)]
      exact List.Nodup.sublist (List.take_sublist _ _) hdlnd
    have hsum := sum_upstream_le cfg.nodes hnd1
    have hbound : s.queueCursor + rest.length ≤ (s.queue.length : Int) := by
      rw [hqc, hqlen]
      omega
    obtain ⟨queue', qc', hpush⟩ : ∃ queue' qc',
        pushAll s.active rest s.queue s.queueCursor = .ok (queue', qc') :=
      pushAll_no_error hq0 hbound
    obtain ⟨hqEq, hqLen2, -, -⟩ := pushAll_ok_spec hpush hq0
    have hcl : s.cursor < cfg.maxLength := by rw [hcur]; omega
    have hup' : upstreamOf cfg.nodes s.active = w.getD (i + 1) 0 :: rest := by
      rw [hact]; exact hup
    have hstep : step cfg s = .cont { visit cfg s with queue := queue', queueCursor := qc', active := w.getD (i + 1) 0 } := by
      unfold step
      rw [if_neg hvis, if_pos hcl]
      simp only [hup', hpush]
    have hcur' : ({ visit cfg s with queue := queue', queueCursor := qc', active := w.getD (i + 1) 0 } : TraceSt R).cursor = i + 1 := by
      simp [visit, hcur]
    have halr' : ({ visit cfg s with queue := queue', queueCursor := qc', active := w.getD (i + 1) 0 } : TraceSt R).already = ((w.take (i + 1)).map cfg.conversion).reverse ++ A := by
      simp only [visit]
      rw [take_succ_getD 0 (by omega), List.map_append, List.reverse_append]
      simp [halr, hact]
    have hqlen' : ({ visit cfg s with queue := queue', queueCursor := qc', active := w.getD (i + 1) 0 } : TraceSt R).queue.length = cfg.nodes.length := by
      show queue'.length = cfg.nodes.length
      rw [hqLen2, hqlen]
    have hqc'' : ({ visit cfg s with queue := queue', queueCursor := qc', active := w.getD (i + 1) 0 } : TraceSt R).queueCursor = (((w.take (i + 1)).map (fun v => (upstreamOf cfg.nodes v).length)).sum : Int) - (i + 1) := by
      show qc' = _
      rw [hqEq, hqc, hsplit]
      push_cast
      omega
    unfold traceOutlet
    rw [hstep]
    exact ih (i + 1) _ A (by omega) rfl hcur' halr' hqlen' hqc'' fuel' (by omega)

/-- Claim C4 (amended): when a cycle is actually pursued — a
first-upstream walk from a traced outlet ends in a revisited comid — the
run aborts fatally (given walk-covering capacity), for every outlet list
containing the pursued outlet: the whole run returns an error, never a
Path Table; the pursued outlet's own loop, started against any
accumulated visited set, fails with a `cycleAt` error naming the
offending comid; and the visited set used by the check survives every
per-outlet reinitialization, so a single set spans the whole run.  The
original claim's unconditional form is refuted by
`cycle_not_reached_no_abort`: a cycle not upstream of any outlet is never
revisited and the run completes. -/
theorem cycle_pursuit_aborts {R : Type} [AddCommMonoid R] (cfg : NavCfg R)
    (outlets : List Nat) (o fuel : Nat) (w : List Nat)
    (ho : o ∈ outlets)
    (hhead : w.head? = some o)
    (hsteps : ∀ i, i + 1 < w.length →
      ∃ rest, upstreamOf cfg.nodes (w.getD i 0) = w.getD (i + 1) 0 :: rest)
    (hfresh : ((w.dropLast).map cfg.conversion).Nodup)
    (hrev : cfg.conversion (w.getD (w.length - 1) 0) ∈ (w.dropLast).map cfg.conversion)
    (hml : w.length ≤ cfg.maxLength)
    (hfuel : w.length ≤ fuel) :
    (∃ e, rapid_trace cfg outlets fuel = .error e) ∧
    (∀ (s : TraceSt R) (fuel2 : Nat), w.length ≤ fuel2 →
      ∃ c, traceOutlet cfg fuel2 (initOutlet cfg s o) = .error (.cycleAt c)) ∧
    (∀ (s : TraceSt R) (o2 : Nat), (initOutlet cfg s o2).already = s.already) := by
  have hw1 : 1 ≤ w.length := by
    cases w with
    | nil => cases hhead
    | cons a l => simp
  have h0 : w.getD 0 0 = o := by
    cases w with
    | nil => cases hhead
    | cons a l => simpa using hhead
  have hper : ∀ (s : TraceSt R) (fuel2 : Nat), w.length ≤ fuel2 →
      ∃ c, traceOutlet cfg fuel2 (initOutlet cfg s o) = .error (.cycleAt c) := by
    intro s fuel2 hf2
    exact pursuit_aux hsteps hfresh hrev hml (w.length - 1) 0
      (initOutlet cfg s o) s.already (by omega) h0.symm
      rfl rfl (by simp [initOutlet]) (by simp [initOutlet]) fuel2 (by omega)
  refine ⟨?_, hper, fun s o2 => rfl⟩
  have hrun : ∀ (os : List Nat) (s : TraceSt R), o ∈ os →
      ∃ e, runOutlets cfg fuel os s = .error e := by
    intro os
    induction os with
    | nil => intro s hmem; cases hmem
    | cons o2 os2 ih =>
      intro s hmem
      unfold runOutlets
      cases htr : traceOutlet cfg fuel (initOutlet cfg s o2) with
      | error e => exact ⟨e, rfl⟩
      | ok s1 =>
        rcases List.mem_cons.mp hmem with rfl | hmem2
        · exfalso
          obtain ⟨c, hc⟩ := hper s fuel hfuel
          rw [htr] at hc
          cases hc
        · obtain ⟨e, he⟩ := ih s1 hmem2
          exact ⟨e, he⟩
  obtain ⟨e, he⟩ := hrun outlets initSt ho
  refine ⟨e, ?_⟩
  unfold rapid_trace
  rw [he]

/-- A two-outlet network where the second outlet's upstream chain runs
into a self-loop: outlet 3 is a lone headwater, outlet 1 has the chain
`1 ← 2 ← 2`. -/
def witCfgCyc3 : NavCfg Int :=
  { nodes := [(-1, 1), (1, 2), (2, 2), (-1, 3)], times := fun _ => 1, dists := fun _ => 1,
    conversion := fun a => (a : Int) + 100, maxLength := 4, maxPaths := 4 }

/-- A mid-run base state whose visited set is nonempty, for exercising
the per-outlet clauses of the amended claim C4 against a baseline
accumulated by an earlier outlet. -/
def witBaseSt : TraceSt Int :=
  { initSt with already := [103] }

/-- Witness for the amended claim C4 on a genuine two-outlet run: tracing
`[3, 1]` first completes outlet 3, then pursuing outlet 1's upstream
chain `[1, 2, 2]` revisits a comid, so the whole run aborts with an
error; outlet 1's loop started from a base state with visited set `[103]`
fails with a `cycleAt` report; and reinitializing for outlet 1 preserves
that nonempty visited set. -/
theorem cycle_pursuit_aborts_witness :
    (([1, 2, 2] : List Nat).length ≤ witCfgCyc3.maxLength) ∧
    (∃ e, rapid_trace witCfgCyc3 [3, 1] 5 =
      (.error e :
        Except TraceErr (List (List Nat) × List (List Int) × List (List Int)))) ∧
    (∃ c, traceOutlet witCfgCyc3 5 (initOutlet witCfgCyc3 witBaseSt 1) =
      .error (.cycleAt c)) ∧
    (initOutlet witCfgCyc3 witBaseSt 1).already = witBaseSt.already := by
  have hmain := cycle_pursuit_aborts witCfgCyc3 [3, 1] 1 5 [1, 2, 2]
    (by decide) (by decide)
    (by
      intro i hi
      have hi2 : i = 0 ∨ i = 1 := by simp at hi; omega
      rcases hi2 with rfl | rfl
      · exact ⟨[], by decide⟩
      · exact ⟨[], by decide⟩)
    (by decide) (by decide) (by decide) (by decide)
  exact ⟨by decide, hmain.1, hmain.2.1 witBaseSt 5 (by decide),
    hmain.2.2 witBaseSt 1⟩

/-! ## Claim C5: capacity errors instead of truncation -/

/-- The mid-loop completeness invariant: the visited list `V` underlies
`already`, counts the committed rows by its headwaters, carries a
capacity-bounded outlet walk for every visited alias, and every upstream
edge out of a visited alias is either already visited, pending on the
live queue, or the alias about to be visited. -/
def FInv {R : Type} [AddCommMonoid R] (cfg : NavCfg R) (outlets : List Nat)
    (N : Nat) (s : TraceSt R) : Prop :=
  ∃ V : List Nat, s.already = V.map cfg.conversion ∧ (∀ v ∈ V, v < N) ∧
    s.rows.length = (V.filter (fun v => decide (upstreamOf cfg.nodes v = []))).length ∧
    (∀ v ∈ V, ∃ p wv, p ∈ outlets ∧ IsUpWalk cfg.nodes wv p v ∧
      wv.length ≤ cfg.maxLength) ∧
    (∀ v ∈ V, ∀ u, edge cfg.nodes v u → u ∈ V ∨
      (∃ k : Nat, (k : Int) < s.queueCursor ∧ s.queue.getD k (0, 0) = (v, u)) ∨
      u = s.active)

/-- The loop-exit form of `FInv`: with the pending queue drained, the
visited set is closed under upstream edges. -/
def FExit {R : Type} [AddCommMonoid R] (cfg : NavCfg R) (outlets : List Nat)
    (N : Nat) (s : TraceSt R) : Prop :=
  ∃ V : List Nat, s.already = V.map cfg.conversion ∧ (∀ v ∈ V, v < N) ∧
    s.rows.length = (V.filter (fun v => decide (upstreamOf cfg.nodes v = []))).length ∧
    (∀ v ∈ V, ∃ p wv, p ∈ outlets ∧ IsUpWalk cfg.nodes wv p v ∧
      wv.length ≤ cfg.maxLength) ∧
    (∀ v ∈ V, ∀ u, edge cfg.nodes v u → u ∈ V)

/-- Each visit happens at a buffer position witnessing a root walk of
length within the buffer capacity. -/
theorem visit_walk {R : Type} [AddCommMonoid R] {cfg : NavCfg R}
    {outlets : List Nat} {N o : Nat} {s : TraceSt R}
    (hs : OInv cfg outlets N o s) (hc : s.cursor < cfg.maxLength) :
    ∃ p wv, p ∈ outlets ∧ IsUpWalk cfg.nodes wv p s.active ∧
      wv.length ≤ cfg.maxLength := by
  refine ⟨o, (s.reach.set s.cursor s.active).take (s.cursor + 1), hs.rootMem,
    ⟨?_, ?_, visit_chain hs hc⟩, ?_⟩
  · rw [head?_take 0 (Nat.succ_pos _) (by rw [List.length_set, hs.reachLen]; omega)]
    rw [visit_head hs hc]
  · rw [getLast?_take 0 (Nat.succ_pos _) (by rw [List.length_set, hs.reachLen]; omega)]
    rw [show s.cursor + 1 - 1 = s.cursor from rfl]
    rw [getD_set_self _ _ (by rw [hs.reachLen]; omega)]
  · rw [List.length_take, List.length_set, hs.reachLen]
    omega

theorem cap_stepPresTo {R : Type} [AddCommMonoid R] {cfg : NavCfg R}
    {outlets : List Nat} {N o : Nat}
    (hN : ∀ p ∈ cfg.nodes, p.2 < N) (hacyc : Acyclic cfg.nodes) :
    StepPresTo cfg (fun s => OInv cfg outlets N o s ∧ FInv cfg outlets N s)
      (fun s => GInv cfg outlets N s ∧ FExit cfg outlets N s) := by
  intro s hs
  obtain ⟨hO, hF⟩ := hs
  obtain ⟨V, halr, hbnd, hcount, hwalks, hfront⟩ := hF
  constructor
  · intro s' hstep
    obtain ⟨hfresh, hc, hsplit⟩ := step_cont_shape hstep
    refine ⟨((oinv_stepPresTo hN hacyc) s ⟨hO.g, hO.rootMem, hO.reachLen, hO.timesLen,
      hO.distsLen, hO.queueLen, hO.startLe, hO.cursorLe, hO.cursorAl, hO.bufWalk,
      hO.bufHead, hO.activeLink, hO.activeLt, hO.bufTimes, hO.bufDists, hO.bufZero,
      hO.bufTZero, hO.bufDZero, hO.qcNonneg, hO.queueLive, hO.queueMono,
      hO.queueBound, hO.queueTail⟩).1 s' hstep, ?_⟩
    have hwact := visit_walk hO hc
    rcases hsplit with ⟨u0, rest, queue, qc, hup, hpush, rfl⟩ |
      ⟨k, hup, hrows, hidx, hne, rfl⟩
    · obtain ⟨hqEq, hqLen, hqWrite, hqPres⟩ := pushAll_ok_spec hpush hO.qcNonneg
      refine ⟨s.active :: V, ?_, ?_, ?_, ?_, ?_⟩
      · simp [visit, halr]
      · intro v hv
        rcases List.mem_cons.mp hv with rfl | hv'
        · exact hO.activeLt
        · exact hbnd v hv'
      · simp only [visit]
        rw [List.filter_cons_of_neg (by simp [hup])]
        exact hcount
      · intro v hv
        rcases List.mem_cons.mp hv with rfl | hv'
        · exact hwact
        · exact hwalks v hv'
      · intro v hv u hedge
        rcases List.mem_cons.mp hv with rfl | hv'
        · have hu : u ∈ u0 :: rest := by rw [← hup]; exact upstreamOf_mem.mpr hedge
          rcases List.mem_cons.mp hu with rfl | hur
          · right; right; rfl
          · obtain ⟨j, hjl, hj⟩ := List.getElem_of_mem hur
            right; left
            refine ⟨s.queueCursor.toNat + j, ?_, ?_⟩
            · have := hO.qcNonneg
              push_cast
              omega
            · rw [(hqWrite j hjl).2]
              rw [List.getD_eq_getElem _ _ hjl, hj]
        · rcases hfront v hv' u hedge with hu | ⟨k2, hk2, hkv⟩ | hu
          · exact Or.inl (List.mem_cons_of_mem _ hu)
          · right; left
            refine ⟨k2, ?_, ?_⟩
            · show (k2 : Int) < qc
              rw [hqEq]
              omega
            · rw [hqPres k2 (0, 0) (Or.inl hk2)]
              exact hkv
          · exact Or.inl (by rw [hu]; exact List.mem_cons_self _ _)
    · have hqc0 := hO.qcNonneg
      have hqc1 : 1 ≤ s.queueCursor := by
        by_contra hlt
        have hq0 : s.queueCursor = 0 := by omega
        rw [hq0] at hidx
        rcases Nat.eq_zero_or_pos s.queue.length with hl0 | hl0
        · rw [npIndex_none (Or.inl (by omega))] at hidx
          exact Option.noConfusion hidx
        · have hm1 : (0 : Int) - 1 = -1 := by norm_num
          rw [hm1, npIndex_neg_one hl0] at hidx
          have hkeq : k = s.queue.length - 1 := (Option.some.inj hidx).symm
          exact hne (by rw [hkeq]; exact hO.queueTail _ (by omega))
      obtain ⟨hkval, hklt⟩ := npIndex_some_nonneg (by omega) hidx
      refine ⟨s.active :: V, ?_, ?_, ?_, ?_, ?_⟩
      · simp [resume, commit, visit, halr]
      · intro v hv
        rcases List.mem_cons.mp hv with rfl | hv'
        · exact hO.activeLt
        · exact hbnd v hv'
      · simp only [resume, commit, visit, List.length_append, List.length_cons,
          List.length_nil]
        rw [List.filter_cons_of_pos (by simp [hup])]
        simp [hcount]
      · intro v hv
        rcases List.mem_cons.mp hv with rfl | hv'
        · exact hwact
        · exact hwalks v hv'
      · intro v hv u hedge
        rcases List.mem_cons.mp hv with rfl | hv'
        · have hu : u ∈ ([] : List Nat) := by
            rw [← hup]; exact upstreamOf_mem.mpr hedge
          cases hu
        · rcases hfront v hv' u hedge with hu | ⟨k2, hk2, hkv⟩ | hu
          · exact Or.inl (List.mem_cons_of_mem _ hu)
          · rcases Int.lt_or_le (k2 : Int) (s.queueCursor - 1) with hk2' | hk2'
            · right; left
              exact ⟨k2, hk2', hkv⟩
            · have hke : k2 = k := by omega
              subst hke
              right; right
              rw [hkv]
              rfl
          · exact Or.inl (by rw [hu]; exact List.mem_cons_self _ _)
  · intro s' hstep
    obtain ⟨hfresh, hc, hup, hrows, k, hidx, hzero, rfl⟩ := step_done_shape hstep
    refine ⟨ginv_after_commit hO hfresh hc hup hrows _, ?_⟩
    have hqcz : s.queueCursor = 0 := by
      rcases Int.lt_or_le s.queueCursor 1 with h1 | h1
      · have := hO.qcNonneg; omega
      · exfalso
        obtain ⟨hkval, hklt⟩ :=
          npIndex_some_nonneg (by omega : (0 : Int) ≤ s.queueCursor - 1) hidx
        have hkqc : (k : Int) < s.queueCursor := by omega
        obtain ⟨hedge, -⟩ := hO.queueLive k hkqc
        rw [hzero] at hedge
        exact hacyc 0 0 (UpReach.refl 0) hedge
    have hwact := visit_walk hO hc
    refine ⟨s.active :: V, ?_, ?_, ?_, ?_, ?_⟩
    · simp [commit, visit, halr]
    · intro v hv
      rcases List.mem_cons.mp hv with rfl | hv'
      · exact hO.activeLt
      · exact hbnd v hv'
    · simp only [commit, visit, List.length_append, List.length_cons, List.length_nil]
      rw [List.filter_cons_of_pos (by simp [hup])]
      simp [hcount]
    · intro v hv
      rcases List.mem_cons.mp hv with rfl | hv'
      · exact hwact
      · exact hwalks v hv'
    · intro v hv u hedge
      rcases List.mem_cons.mp hv with rfl | hv'
      · have hu : u ∈ ([] : List Nat) := by
          rw [← hup]; exact upstreamOf_mem.mpr hedge
        cases hu
      · rcases hfront v hv' u hedge with hu | ⟨k2, hk2, -⟩ | hu
        · exact List.mem_cons_of_mem _ hu
        · exfalso
          rw [hqcz] at hk2
          omega
        · rw [hu]
          exact List.mem_cons_self _ _

theorem step_already_sub {R : Type} [AddCommMonoid R] {cfg : NavCfg R}
    {s s' : TraceSt R}
    (h : step cfg s = .cont s' ∨ step cfg s = .done s') :
    cfg.conversion s.active ∈ s'.already ∧ ∀ x ∈ s.already, x ∈ s'.already := by
  rcases h with h | h
  · obtain ⟨-, -, hsplit⟩ := step_cont_shape h
    rcases hsplit with ⟨u0, rest, queue, qc, -, -, rfl⟩ | ⟨k, -, -, -, -, rfl⟩
    · exact ⟨by simp [visit], fun x hx => by simp [visit, hx]⟩
    · exact ⟨by simp [resume, commit, visit],
        fun x hx => by simp [resume, commit, visit, hx]⟩
  · obtain ⟨-, -, -, -, k, -, -, rfl⟩ := step_done_shape h
    exact ⟨by simp [commit, visit], fun x hx => by simp [commit, visit, hx]⟩

theorem traceOutlet_already {R : Type} [AddCommMonoid R] {cfg : NavCfg R} :
    ∀ (fuel : Nat) (s s' : TraceSt R), traceOutlet cfg fuel s = .ok s' →
      (∀ x ∈ s.already, x ∈ s'.already) ∧ cfg.conversion s.active ∈ s'.already := by
  intro fuel
  induction fuel with
  | zero => intro s s' h; simp [traceOutlet] at h
  | succ fuel ih =>
    intro s s' h
    unfold traceOutlet at h
    cases hstep : step cfg s with
    | fail e => rw [hstep] at h; cases h
    | done s₁ =>
      rw [hstep] at h
      cases h
      obtain ⟨hm, hsub⟩ := step_already_sub (Or.inr hstep)
      exact ⟨hsub, hm⟩
    | cont s₁ =>
      rw [hstep] at h
      obtain ⟨hsub1, -⟩ := ih s₁ s' h
      obtain ⟨hm, hsub⟩ := step_already_sub (Or.inl hstep)
      exact ⟨fun x hx => hsub1 x (hsub x hx), hsub1 _ hm⟩

theorem runOutlets_already {R : Type} [AddCommMonoid R] {cfg : NavCfg R} :
    ∀ (outlets : List Nat) (fuel : Nat) (s s' : TraceSt R),
      runOutlets cfg fuel outlets s = .ok s' →
      (∀ x ∈ s.already, x ∈ s'.already) ∧
      ∀ o ∈ outlets, cfg.conversion o ∈ s'.already := by
  intro outlets
  induction outlets with
  | nil =>
    intro fuel s s' h
    simp [runOutlets] at h
    subst h
    exact ⟨fun x hx => hx, by simp⟩
  | cons o os ih =>
    intro fuel s s' h
    unfold runOutlets at h
    cases htr : traceOutlet cfg fuel (initOutlet cfg s o) with
    | error e => rw [htr] at h; cases h
    | ok s₁ =>
      rw [htr] at h
      obtain ⟨hs1, hm1⟩ := traceOutlet_already fuel _ s₁ htr
      obtain ⟨hs2, hm2⟩ := ih fuel s₁ s' h
      refine ⟨fun x hx => hs2 x (hs1 x hx), ?_⟩
      intro o' ho'
      rcases List.mem_cons.mp ho' with rfl | ho''
      · exact hs2 _ hm1
      · exact hm2 o' ho''

theorem upReach_closed {nodes : List (Int × Nat)} {V : List Nat}
    (hcl : ∀ v ∈ V, ∀ u, edge nodes v u → u ∈ V) {o v : Nat}
    (ho : o ∈ V) (h : UpReach nodes o v) : v ∈ V := by
  induction h with
  | refl => exact ho
  | tail _ he ih => exact hcl _ ih _ he

theorem upwalk_upReach {nodes : List (Int × Nat)} {w : List Nat} {root tip : Nat}
    (h : IsUpWalk nodes w root tip) : UpReach nodes root tip := by
  obtain ⟨hh, hl, hc⟩ := h
  cases w with
  | nil => cases hh
  | cons a l =>
    have h0 : (a :: l).getD 0 0 = root := by simpa using hh
    have hgl : (a :: l).getD ((a :: l).length - 1) 0 = tip := by
      rw [List.getD_eq_getElem _ _ (by simp)]
      rw [List.getLast?_eq_getElem?, List.getElem?_eq_getElem (by simp)] at hl
      exact Option.some.inj hl
    have hr := chain_upReach hc 0 ((a :: l).length - 1) (by omega) (by simp)
    rw [h0, hgl] at hr
    exact hr

/-- Claim C5: on a forest network within the traced region, whenever the
network needs more committed paths than `max_paths` (more reachable
headwaters than the path cap) or contains a root walk longer than
`max_length`, `rapid_trace` raises a fatal error and never returns a
truncated or partial index.  Proved via a completeness invariant: a
successful run visits every alias upstream of an outlet, counts one
committed row per visited headwater within `max_paths`, and only visits
aliases whose unique root walk fits the buffer. -/
theorem rapid_trace_capacity {R : Type} [AddCommMonoid R] (cfg : NavCfg R)
    (outlets : List Nat) (N : Nat)
    (hacyc : Acyclic cfg.nodes) (hcu : ChildUnique cfg.nodes)
    (hN : ∀ p ∈ cfg.nodes, p.2 < N) (hout : ∀ o ∈ outlets, o < N)
    (hrp : ∀ o ∈ outlets, ∀ p ∈ cfg.nodes, p.2 = o → p.1 < 0)
    (hinj : ∀ a, a < N → ∀ b, b < N → cfg.conversion a = cfg.conversion b → a = b)
    (hover :
      (∃ H : List Nat, H.Nodup ∧
        (∀ hw ∈ H, upstreamOf cfg.nodes hw = [] ∧
          ∃ o, o ∈ outlets ∧ UpReach cfg.nodes o hw) ∧
        cfg.maxPaths < H.length) ∨
      (∃ o w v, o ∈ outlets ∧ IsUpWalk cfg.nodes w o v ∧
        cfg.maxLength < w.length)) :
    ∀ fuel, ∃ e, rapid_trace cfg outlets fuel = .error e := by
  intro fuel
  cases hres : rapid_trace cfg outlets fuel with
  | error e => exact ⟨e, rfl⟩
  | ok out =>
    exfalso
    obtain ⟨s', hrun, -⟩ := rapid_trace_ok_elim hres
    have hQ : GInv cfg outlets N s' ∧ FExit cfg outlets N s' := by
      apply runOutlets_presTo outlets (fun o _ => cap_stepPresTo hN hacyc)
        (fun s o ho hq => ⟨oinv_initOutlet ho (hout o ho) hq.1, by
          obtain ⟨V, halr, hbnd, hcount, hwalks, hclosed⟩ := hq.2
          exact ⟨V, halr, hbnd, hcount, hwalks,
            fun v hv u he => Or.inl (hclosed v hv u he)⟩⟩)
        fuel initSt s'
        ⟨ginv_initSt cfg outlets N, ⟨[], rfl, by simp, rfl, by simp, by simp⟩⟩ hrun
    have hg := hQ.1
    obtain ⟨V, halr, hbnd, hcount, hwalks, hclosed⟩ := hQ.2
    have hroots : ∀ o ∈ outlets, o ∈ V := by
      intro o ho
      have hmem := (runOutlets_already outlets fuel initSt s' hrun).2 o ho
      rw [halr] at hmem
      obtain ⟨v, hvV, hconv⟩ := List.mem_map.mp hmem
      rw [hinj v (hbnd v hvV) o (hout o ho) hconv] at hvV
      exact hvV
    rcases hover with ⟨H, hHnd, hHmem, hHlen⟩ | ⟨o, w, v, ho, hw, hwlen⟩
    · have hHsub : H ⊆ V.filter (fun v => decide (upstreamOf cfg.nodes v = [])) := by
        intro hw hhw
        obtain ⟨hup, o, ho, hreach⟩ := hHmem hw hhw
        have hv : hw ∈ V := upReach_closed hclosed (hroots o ho) hreach
        exact List.mem_filter.mpr ⟨hv, by simp [hup]⟩
      have hle := (hHnd.subperm hHsub).length_le
      have hrows := hg.rowsMax
      omega
    · have hvV : v ∈ V :=
        upReach_closed hclosed (hroots o ho) (upwalk_upReach hw)
      obtain ⟨p, wv, hp, hwv, hwvlen⟩ := hwalks v hvV
      have hrpE : ∀ o ∈ outlets, ∀ a, ¬ edge cfg.nodes a o :=
        fun o ho => not_edge_to (hrp o ho)
      have hweq := upwalk_unique hcu hrpE w ho hp hw hwv
      rw [hweq] at hwlen
      omega

/-- A two-headwater network whose path cap is 1: the index would need two
rows. -/
def witCfgCap : NavCfg Int :=
  { nodes := [(-1, 1), (1, 2), (1, 3)], times := fun _ => 1, dists := fun _ => 1,
    conversion := fun a => (a : Int) + 100, maxLength := 4, maxPaths := 1 }

/-- Witness for claim C5: the two reachable headwaters 2 and 3 exceed
`max_paths = 1`, and the run fails with an error instead of returning a
one-row index. -/
theorem rapid_trace_capacity_witness :
    witCfgCap.maxPaths < ([2, 3] : List Nat).length ∧
    ∃ e, rapid_trace witCfgCap [1] 9 =
      (.error e : Except TraceErr
        (List (List Nat) × List (List Int) × List (List Int))) :=
  ⟨by decide,
    rapid_trace_capacity witCfgCap [1] 4 (acyclic_of_lt _ (by decide))
      (childUnique_of_nodup_map (by decide)) (by decide) (by decide) (by decide)
      (by decide)
      (Or.inl ⟨[2, 3], by decide, by
        intro hw hhw
        have hcase : hw = 2 ∨ hw = 3 := by simpa using hhw
        rcases hcase with rfl | rfl
        · exact ⟨by decide, 1, by decide, UpReach.tail (UpReach.refl 1) (by decide)⟩
        · exact ⟨by decide, 1, by decide,
            UpReach.tail (UpReach.refl 1) (by decide)⟩, by decide⟩) 9⟩

/-! ## Claim C2: the Path Locator Map contract -/

/-- A branching network whose outlet chain `1 ← 2` forks into headwaters
3, 0 and 4; the headwater carrying dense alias 0 is explored last. -/
def witCfgMap : NavCfg Int :=
  { nodes := [(-1, 1), (1, 2), (2, 3), (2, 0), (2, 4)], times := fun v => (v : Int) + 1,
    dists := fun v => 2 * (v : Int) + 1, conversion := fun a => (a : Int) + 100,
    maxLength := 4, maxPaths := 4 }

/-- The specification's reconstruction of a row's full path from the Path
Table's row-sharing layout: the cell a row inherits at a column is the
nearest earlier (or own) row's occupied cell in that column.  This
definition follows the spec's description of a path "traced from the
root"; it exists to compare the Path Locator Map's promise against the
table the code builds. -/
def specRowCell (paths : List (List Nat)) (r c : Nat) : Nat :=
  match (List.range (r + 1)).reverse.find?
      (fun i => decide (0 < (paths.getD i []).getD c 0)) with
  | some i => (paths.getD i []).getD c 0
  | none => 0

/-- Counterexample to claim C2's coverage promise: on `witCfgMap` the run
commits three rows, the third being the all-zero row of the headwater
with dense alias 0.  That row's path, traced from the root, occupies
alias 2 at column 1, yet the Path Locator Map entry for alias 2 is
`(0, 2, 1)` — its row range `[0, 2)` stops at the all-zero row's begin
column 0 and misses row 2. -/
theorem map_paths_coverage_counterexample :
    rapid_trace witCfgMap [1] 12 =
      .ok (([[1, 2, 3], [0, 0, 4], [0, 0, 0]],
        [[2, 5, 9], [0, 0, 10], [0, 0, 0]],
        [[3, 8, 15], [0, 0, 17], [0, 0, 0]]) :
          List (List Nat) × List (List Int) × List (List Int)) ∧
    map_paths [[1, 2, 3], [0, 0, 4], [0, 0, 0]] =
      some [(0, 0, 0), (0, 2, 0), (0, 2, 1), (0, 1, 2), (1, 2, 2)] ∧
    specRowCell [[1, 2, 3], [0, 0, 4], [0, 0, 0]] 2 1 = 2 ∧
    (([(0, 0, 0), (0, 2, 0), (0, 2, 1), (0, 1, 2), (1, 2, 2)] :
        List (Nat × Nat × Nat)).getD 2 (0, 0, 0)).2.1 ≤ 2 ∧
    2 < ([[1, 2, 3], [0, 0, 4], [0, 0, 0]] : List (List Nat)).length :=
  ⟨by decide, by decide, by decide, by decide, by decide⟩

theorem enum_mem_getD {α : Type} {d : α} {l : List α} {jv : Nat × α}
    (h : jv ∈ l.enum) : jv.1 < l.length ∧ l.getD jv.1 d = jv.2 := by
  obtain ⟨k, hk, hkv⟩ := List.getElem_of_mem h
  rw [List.getElem_enum] at hkv
  have hkl : k < l.length := by simpa using hk
  obtain ⟨h1, h2⟩ := Prod.mk.injEq .. ▸ hkv
  refine ⟨h1 ▸ hkl, ?_⟩
  rw [← h1, List.getD_eq_getElem _ _ hkl]
  exact h2

theorem getD_mem_enum {α : Type} {d : α} {l : List α} {j : Nat}
    (h : j < l.length) : (j, l.getD j d) ∈ l.enum := by
  have hj : j < l.enum.length := by simpa using h
  have he : l.enum[j] = (j, l[j]) := List.getElem_enum _ _ _
  have hmem : l.enum[j] ∈ l.enum := List.getElem_mem hj
  rw [he] at hmem
  have hgd : l.getD j d = l[j] := List.getD_eq_getElem _ _ h
  rw [hgd]
  exact hmem

theorem mp_inner_len (n : Nat) (begins : List Nat) (i : Nat) :
    ∀ (l : List (Nat × Nat)) (pm : List (Nat × Nat × Nat)),
      (l.foldl (fun pm jVal => if 0 < jVal.2 then
        pm.set jVal.2 (pathMapEntry n begins i jVal.1) else pm) pm).length
        = pm.length := by
  intro l
  induction l with
  | nil => intro pm; rfl
  | cons x xs ih =>
    intro pm
    simp only [List.foldl_cons]
    rw [ih]
    split
    · rw [List.length_set]
    · rfl

theorem mp_inner_pres (n : Nat) (begins : List Nat) (i a : Nat) :
    ∀ (l : List (Nat × Nat)) (pm : List (Nat × Nat × Nat)),
      (∀ jv ∈ l, jv.2 ≠ a) →
      (l.foldl (fun pm jVal => if 0 < jVal.2 then
        pm.set jVal.2 (pathMapEntry n begins i jVal.1) else pm) pm).getD a (0, 0, 0)
        = pm.getD a (0, 0, 0) := by
  intro l
  induction l with
  | nil => intro pm _; rfl
  | cons x xs ih =>
    intro pm hne
    simp only [List.foldl_cons]
    rw [ih _ (fun jv hjv => hne jv (List.mem_cons_of_mem _ hjv))]
    split
    · rw [getD_set_ne _ _ (hne x (List.mem_cons_self _ _))]
    · rfl

theorem mp_inner_stable (n : Nat) (begins : List Nat) (i a j : Nat) :
    ∀ (l : List (Nat × Nat)) (pm : List (Nat × Nat × Nat)),
      a < pm.length → (∀ jv ∈ l, jv.2 = a → jv.1 = j) →
      pm.getD a (0, 0, 0) = pathMapEntry n begins i j →
      (l.foldl (fun pm jVal => if 0 < jVal.2 then
        pm.set jVal.2 (pathMapEntry n begins i jVal.1) else pm) pm).getD a (0, 0, 0)
        = pathMapEntry n begins i j := by
  intro l
  induction l with
  | nil => intro pm _ _ hpm; exact hpm
  | cons x xs ih =>
    intro pm hlen huni hpm
    simp only [List.foldl_cons]
    apply ih
    · split
      · rw [List.length_set]; exact hlen
      · exact hlen
    · exact fun jv hjv => huni jv (List.mem_cons_of_mem _ hjv)
    · by_cases hxa : x.2 = a
      · have hxj : x.1 = j := huni x (List.mem_cons_self _ _) hxa
        split
        · rw [hxa, hxj, getD_set_self _ _ (hxa ▸ hlen)]
        · exact hpm
      · split
        · rw [getD_set_ne _ _ hxa]; exact hpm
        · exact hpm

theorem mp_inner_write (n : Nat) (begins : List Nat) (i a : Nat) (hpos : 0 < a) :
    ∀ (l : List (Nat × Nat)) (pm : List (Nat × Nat × Nat)) (j : Nat),
      a < pm.length → (j, a) ∈ l →
      (∀ jv ∈ l, jv.2 = a → jv.1 = j) →
      (l.foldl (fun pm jVal => if 0 < jVal.2 then
        pm.set jVal.2 (pathMapEntry n begins i jVal.1) else pm) pm).getD a (0, 0, 0)
        = pathMapEntry n begins i j := by
  intro l
  induction l with
  | nil => intro pm j _ hmem _; cases hmem
  | cons x xs ih =>
    intro pm j hlen hmem huni
    simp only [List.foldl_cons]
    by_cases hxa : x.2 = a
    · have hxj : x.1 = j := huni x (List.mem_cons_self _ _) hxa
      apply mp_inner_stable
      · split
        · rw [List.length_set]; exact hlen
        · exact hlen
      · exact fun jv hjv => huni jv (List.mem_cons_of_mem _ hjv)
      · rw [hxa, hxj, if_pos hpos, getD_set_self _ _ (hxa ▸ hlen)]
    · have hmem' : (j, a) ∈ xs := by
        rcases List.mem_cons.mp hmem with heq | hmem'
        · exact absurd (congrArg Prod.snd heq.symm) hxa
        · exact hmem'
      have hlen' : a < (if 0 < x.2 then
          pm.set x.2 (pathMapEntry n begins i x.1) else pm).length := by
        split
        · rw [List.length_set]; exact hlen
        · exact hlen
      exact ih _ j hlen' hmem' (fun jv hjv => huni jv (List.mem_cons_of_mem _ hjv))

theorem mp_outer_pres (n : Nat) (begins : List Nat) (a : Nat) :
    ∀ (l : List (Nat × List Nat)) (pm : List (Nat × Nat × Nat)),
      (∀ ir ∈ l, ∀ jv ∈ ir.2.enum, jv.2 ≠ a) →
      (l.foldl (fun pm iRow => iRow.2.enum.foldl (fun pm jVal =>
        if 0 < jVal.2 then
          pm.set jVal.2 (pathMapEntry n begins iRow.1 jVal.1) else pm) pm) pm).getD
        a (0, 0, 0) = pm.getD a (0, 0, 0) := by
  intro l
  induction l with
  | nil => intro pm _; rfl
  | cons x xs ih =>
    intro pm hne
    simp only [List.foldl_cons]
    rw [ih _ (fun ir hir => hne ir (List.mem_cons_of_mem _ hir))]
    exact mp_inner_pres n begins x.1 a _ pm (hne x (List.mem_cons_self _ _))

theorem mp_outer_len (n : Nat) (begins : List Nat) :
    ∀ (l : List (Nat × List Nat)) (pm : List (Nat × Nat × Nat)),
      (l.foldl (fun pm iRow => iRow.2.enum.foldl (fun pm jVal =>
        if 0 < jVal.2 then
          pm.set jVal.2 (pathMapEntry n begins iRow.1 jVal.1) else pm) pm)
        pm).length = pm.length := by
  intro l
  induction l with
  | nil => intro pm; rfl
  | cons x xs ih =>
    intro pm
    simp only [List.foldl_cons]
    rw [ih, mp_inner_len]

theorem mp_outer_write (n : Nat) (begins : List Nat) (a : Nat) (hpos : 0 < a) :
    ∀ (l : List (Nat × List Nat)) (pm : List (Nat × Nat × Nat)) (r j : Nat),
      a < pm.length →
      (∀ ir ∈ l, ∀ jv ∈ ir.2.enum, jv.2 = a → ir.1 = r ∧ jv.1 = j) →
      (∃ ir ∈ l, ir.1 = r ∧ (j, a) ∈ ir.2.enum) →
      (l.foldl (fun pm iRow => iRow.2.enum.foldl (fun pm jVal =>
        if 0 < jVal.2 then
          pm.set jVal.2 (pathMapEntry n begins iRow.1 jVal.1) else pm) pm) pm).getD
        a (0, 0, 0) = pathMapEntry n begins r j := by
  intro l
  induction l with
  | nil =>
    intro pm r j _ _ hex
    obtain ⟨ir, hir, -⟩ := hex
    cases hir
  | cons x xs ih =>
    intro pm r j hlen huni hex
    simp only [List.foldl_cons]
    by_cases hxr : ∃ jv ∈ x.2.enum, jv.2 = a
    · obtain ⟨jv, hjv, hjva⟩ := hxr
      obtain ⟨hx1, hjv1⟩ := huni x (List.mem_cons_self _ _) jv hjv hjva
      have hxwrite : (x.2.enum.foldl (fun pm jVal => if 0 < jVal.2 then
          pm.set jVal.2 (pathMapEntry n begins x.1 jVal.1) else pm) pm).getD
          a (0, 0, 0) = pathMapEntry n begins r j := by
        rw [hx1]
        apply mp_inner_write n begins r a hpos _ pm j hlen
        · have : jv = (j, a) := by
            rw [← hjv1, ← hjva]
          exact this ▸ hjv
        · intro jv' hjv' hjv'a
          exact (huni x (List.mem_cons_self _ _) jv' hjv' hjv'a).2
      -- the remaining rows cannot touch `a` again unless they are row `r`
      -- with the same cell, in which case the entry is rewritten identically
      have hstable : ∀ (l' : List (Nat × List Nat)) (pm' : List (Nat × Nat × Nat)),
          a < pm'.length →
          (∀ ir ∈ l', ∀ jv ∈ ir.2.enum, jv.2 = a → ir.1 = r ∧ jv.1 = j) →
          pm'.getD a (0, 0, 0) = pathMapEntry n begins r j →
          (l'.foldl (fun pm iRow => iRow.2.enum.foldl (fun pm jVal =>
            if 0 < jVal.2 then
              pm.set jVal.2 (pathMapEntry n begins iRow.1 jVal.1) else pm) pm)
            pm').getD a (0, 0, 0) = pathMapEntry n begins r j := by
        intro l'
        induction l' with
        | nil => intro pm' _ _ hpm; exact hpm
        | cons y ys ihy =>
          intro pm' hlen' huni' hpm
          simp only [List.foldl_cons]
          apply ihy
          · rw [mp_inner_len]; exact hlen'
          · exact fun ir hir => huni' ir (List.mem_cons_of_mem _ hir)
          · by_cases hya : ∃ jv ∈ y.2.enum, jv.2 = a
            · obtain ⟨jv2, hjv2, hjv2a⟩ := hya
              obtain ⟨hy1, -⟩ := huni' y (List.mem_cons_self _ _) jv2 hjv2 hjv2a
              rw [hy1]
              apply mp_inner_stable n begins r a j _ pm' hlen'
              · intro jv' hjv' hjv'a
                exact (huni' y (List.mem_cons_self _ _) jv' hjv' hjv'a).2
              · exact hpm
            · rw [mp_inner_pres n begins y.1 a _ pm'
                (fun jv hjv hja => hya ⟨jv, hjv, hja⟩)]
              exact hpm
      apply hstable xs _ (by rw [mp_inner_len]; exact hlen)
        (fun ir hir => huni ir (List.mem_cons_of_mem _ hir)) hxwrite
    · have hpres : (x.2.enum.foldl (fun pm jVal => if 0 < jVal.2 then
          pm.set jVal.2 (pathMapEntry n begins x.1 jVal.1) else pm) pm).getD
          a (0, 0, 0) = pm.getD a (0, 0, 0) :=
        mp_inner_pres n begins x.1 a _ pm (fun jv hjv hja => hxr ⟨jv, hjv, hja⟩)
      have hex' : ∃ ir ∈ xs, ir.1 = r ∧ (j, a) ∈ ir.2.enum := by
        obtain ⟨ir, hir, hir1, hirj⟩ := hex
        rcases List.mem_cons.mp hir with rfl | hir'
        · exact absurd ⟨(j, a), hirj, rfl⟩ hxr
        · exact ⟨ir, hir', hir1, hirj⟩
      exact ih _ r j (by rw [mp_inner_len]; exact hlen)
        (fun ir hir => huni ir (List.mem_cons_of_mem _ hir)) hex'

theorem foldl_max_le_init (l : List Nat) : ∀ b, b ≤ l.foldl max b := by
  induction l with
  | nil => intro b; exact le_refl b
  | cons x xs ih =>
    intro b
    exact le_trans (le_max_left b x) (ih (max b x))

theorem mem_le_foldl_max {l : List Nat} {x : Nat} (hx : x ∈ l) :
    ∀ b, x ≤ l.foldl max b := by
  induction l with
  | nil => cases hx
  | cons y ys ih =>
    intro b
    rcases List.mem_cons.mp hx with rfl | hx'
    · exact le_trans (le_max_right b x) (foldl_max_le_init ys (max b x))
    · exact ih hx' (max b y)

/-- The locator write of the double loop: when an alias occupies exactly
one table cell, its final entry is `pathMapEntry` at that cell. -/
theorem map_paths_core_getD {paths : List (List Nat)} {a r p : Nat}
    (hpos : 0 < a) (hcell : (paths.getD r []).getD p 0 = a)
    (hr : r < paths.length) (hp : p < (paths.getD r []).length)
    (huniq : ∀ r' p', 0 < (paths.getD r' []).getD p' 0 →
      (paths.getD r' []).getD p' 0 = a → r' = r ∧ p' = p) :
    (map_paths_core paths).getD a (0, 0, 0) =
      pathMapEntry paths.length (path_begins paths) r p := by
  unfold map_paths_core
  apply mp_outer_write paths.length (path_begins paths) a hpos paths.enum _ r p
  · -- the alias fits below the table maximum
    rw [List.length_replicate]
    have hmem : a ∈ paths.getD r [] := by
      rw [← hcell, List.getD_eq_getElem _ _ hp]
      exact List.getElem_mem _
    have h1 : a ≤ (paths.getD r []).foldl max 0 := mem_le_foldl_max hmem 0
    have h2 : (paths.getD r []).foldl max 0 ∈ paths.map (fun r => r.foldl max 0) := by
      rw [List.getD_eq_getElem _ _ hr] at *
      exact List.mem_map_of_mem _ (List.getElem_mem _)
    have h3 := mem_le_foldl_max h2 0
    omega
  · intro ir hir jv hjv hja
    obtain ⟨hi1, hi2⟩ := enum_mem_getD (d := ([] : List Nat)) hir
    obtain ⟨hj1, hj2⟩ := enum_mem_getD (d := 0) hjv
    have hcellpos : 0 < (paths.getD ir.1 []).getD jv.1 0 := by
      rw [hi2, hj2, hja]; exact hpos
    have hcella : (paths.getD ir.1 []).getD jv.1 0 = a := by
      rw [hi2, hj2, hja]
    exact huniq ir.1 jv.1 hcellpos hcella
  · refine ⟨(r, paths.getD r []), ?_, rfl, ?_⟩
    · have := getD_mem_enum (d := ([] : List Nat)) hr
      exact this
    · have := getD_mem_enum (d := 0) hp
      rw [hcell] at this
      exact this

/-- The cell-uniqueness invariant: every occupied Path Table cell holds a
previously visited alias, no alias occupies two cells, occupied cells
are distinct from the uncommitted buffer slice, buffer entries below the
cursor are visited, and occupied columns stay below `longest_path`. -/
def UInv {R : Type} [AddCommMonoid R] (cfg : NavCfg R) (s : TraceSt R) : Prop :=
  (∀ r p, 0 < (s.rows.getD r []).getD p 0 →
    cfg.conversion ((s.rows.getD r []).getD p 0) ∈ s.already) ∧
  (∀ r p r' p', 0 < (s.rows.getD r []).getD p 0 →
    0 < (s.rows.getD r' []).getD p' 0 →
    (s.rows.getD r []).getD p 0 = (s.rows.getD r' []).getD p' 0 →
    r = r' ∧ p = p') ∧
  (∀ r p k, 0 < (s.rows.getD r []).getD p 0 → s.startCursor ≤ k → k < s.cursor →
    (s.rows.getD r []).getD p 0 ≠ s.reach.getD k 0) ∧
  (∀ k, k < s.cursor → cfg.conversion (s.reach.getD k 0) ∈ s.already) ∧
  (∀ r p, 0 < (s.rows.getD r []).getD p 0 → p < s.longest)

/-- The exit form of `UInv`: visited cells, cell uniqueness and the
`longest_path` column bound. -/
def UExit {R : Type} [AddCommMonoid R] (cfg : NavCfg R) (s : TraceSt R) : Prop :=
  (∀ r p, 0 < (s.rows.getD r []).getD p 0 →
    cfg.conversion ((s.rows.getD r []).getD p 0) ∈ s.already) ∧
  (∀ r p r' p', 0 < (s.rows.getD r []).getD p 0 →
    0 < (s.rows.getD r' []).getD p' 0 →
    (s.rows.getD r []).getD p 0 = (s.rows.getD r' []).getD p' 0 →
    r = r' ∧ p = p') ∧
  (∀ r p, 0 < (s.rows.getD r []).getD p 0 → p < s.longest)

/-- Positions of occupied cells of a freshly committed row sit between the
row's start cursor and the visit cursor and carry the buffer's content. -/
theorem commit_cell_spec {R : Type} [AddCommMonoid R] {cfg : NavCfg R}
    {outlets : List Nat} {N o : Nat} {s : TraceSt R}
    (hs : OInv cfg outlets N o s) (hc : s.cursor < cfg.maxLength) :
    ∀ p, 0 < (List.replicate s.startCursor 0 ++
        (s.reach.set s.cursor s.active).drop s.startCursor).getD p 0 →
      s.startCursor ≤ p ∧ p ≤ s.cursor ∧
      (List.replicate s.startCursor 0 ++
        (s.reach.set s.cursor s.active).drop s.startCursor).getD p 0
        = (s.reach.set s.cursor s.active).getD p 0 := by
  intro p hp
  have hsc := hs.startLe
  have hcl := hs.cursorLe
  have hplen : p < cfg.maxLength := by
    by_contra hge
    rw [getD_of_le _ (by
      rw [List.length_append, List.length_replicate, List.length_drop,
        List.length_set, hs.reachLen]
      omega)] at hp
    omega
  have hpstart : s.startCursor ≤ p := by
    by_contra hlt
    rw [getD_append_left _ (by simp; omega), getD_replicate] at hp
    omega
  have hcell : (List.replicate s.startCursor 0 ++
      (s.reach.set s.cursor s.active).drop s.startCursor).getD p 0
      = (s.reach.set s.cursor s.active).getD p 0 := by
    rw [getD_append_right _ (by simp; omega), List.length_replicate, getD_drop]
    congr 1
    omega
  refine ⟨hpstart, ?_, hcell⟩
  rw [hcell] at hp
  by_contra hgt
  rw [getD_set_ne _ _ (by omega)] at hp
  rw [hs.bufZero p (by omega)] at hp
  omega

/-- The resume scan of a non-sentinel popped pair stops strictly inside
the visited buffer prefix. -/
theorem resume_scan_point {R : Type} [AddCommMonoid R] {cfg : NavCfg R}
    {outlets : List Nat} {N o : Nat} {s : TraceSt R} {k : Nat}
    (hacyc : Acyclic cfg.nodes) (hs : OInv cfg outlets N o s)
    (hc : s.cursor < cfg.maxLength)
    (hidx : npIndex s.queue.length (s.queueCursor - 1) = some k)
    (hne : s.queue.getD k (0, 0) ≠ (0, 0)) :
    ∃ i, i < s.cursor ∧
      scanFor (s.reach.set s.cursor s.active) (s.queue.getD k (0, 0)).1 = some i ∧
      s.reach.getD i 0 = (s.queue.getD k (0, 0)).1 := by
  have hqc0 := hs.qcNonneg
  have hqc1 : 1 ≤ s.queueCursor := by
    by_contra hlt
    have hq0 : s.queueCursor = 0 := by omega
    rw [hq0] at hidx
    rcases Nat.eq_zero_or_pos s.queue.length with hl0 | hl0
    · rw [npIndex_none (Or.inl (by omega))] at hidx
      exact Option.noConfusion hidx
    · have hm1 : (0 : Int) - 1 = -1 := by norm_num
      rw [hm1, npIndex_neg_one hl0] at hidx
      have hkeq : k = s.queue.length - 1 := (Option.some.inj hidx).symm
      exact hne (by rw [hkeq]; exact hs.queueTail _ (by omega))
  obtain ⟨hkval, hklt⟩ := npIndex_some_nonneg (by omega) hidx
  have hkqc : (k : Int) < s.queueCursor := by omega
  obtain ⟨-, i, hi, hiv⟩ := hs.queueLive k hkqc
  refine ⟨i, hi, ?_, hiv⟩
  apply scanFor_buffer (visit_nodup hacyc hs hc) (by omega)
    (by rw [List.length_set, hs.reachLen]; omega)
  rw [getD_set_ne _ _ (by omega)]
  exact hiv

theorem uinv_stepPresTo {R : Type} [AddCommMonoid R] {cfg : NavCfg R}
    {outlets : List Nat} {N o : Nat}
    (hN : ∀ p ∈ cfg.nodes, p.2 < N) (hacyc : Acyclic cfg.nodes) :
    StepPresTo cfg (fun s => OInv cfg outlets N o s ∧ UInv cfg s)
      (fun s => GInv cfg outlets N s ∧ UExit cfg s) := by
  intro s hs
  obtain ⟨hO, hu1, hu2, hu3, hu4, hu5⟩ := hs
  constructor
  · intro s' hstep
    obtain ⟨hfresh, hc, hsplit⟩ := step_cont_shape hstep
    refine ⟨((oinv_stepPresTo hN hacyc) s ⟨hO.g, hO.rootMem, hO.reachLen, hO.timesLen,
      hO.distsLen, hO.queueLen, hO.startLe, hO.cursorLe, hO.cursorAl, hO.bufWalk,
      hO.bufHead, hO.activeLink, hO.activeLt, hO.bufTimes, hO.bufDists, hO.bufZero,
      hO.bufTZero, hO.bufDZero, hO.qcNonneg, hO.queueLive, hO.queueMono,
      hO.queueBound, hO.queueTail⟩).1 s' hstep, ?_⟩
    have hactrow : ∀ r p, 0 < (s.rows.getD r []).getD p 0 →
        (s.rows.getD r []).getD p 0 ≠ s.active := by
      intro r p h heq
      exact hfresh (heq ▸ hu1 r p h)
    rcases hsplit with ⟨u0, rest, queue, qc, hup, hpush, rfl⟩ |
      ⟨k, hup, hrows, hidx, hne, rfl⟩
    · refine ⟨?_, ?_, ?_, ?_, ?_⟩
      · intro r p h
        simp only [visit] at h ⊢
        exact List.mem_cons_of_mem _ (hu1 r p h)
      · intro r p r' p' h h' he
        simp only [visit] at h h' he
        exact hu2 r p r' p' h h' he
      · intro r p k h hk1 hk2
        simp only [visit] at h hk1 hk2 ⊢
        rcases Nat.lt_or_ge k s.cursor with hkc | hkc
        · rw [getD_set_ne _ _ (by omega)]
          exact hu3 r p k h hk1 hkc
        · have hke : k = s.cursor := by omega
          subst hke
          rw [getD_set_self _ _ (by rw [hO.reachLen]; omega)]
          exact hactrow r p h
      · intro k hk
        simp only [visit] at hk ⊢
        rcases Nat.lt_or_ge k s.cursor with hkc | hkc
        · rw [getD_set_ne _ _ (by omega)]
          exact List.mem_cons_of_mem _ (hu4 k hkc)
        · have hke : k = s.cursor := by omega
          subst hke
          rw [getD_set_self _ _ (by rw [hO.reachLen]; omega)]
          exact List.mem_cons_self _ _
      · intro r p h
        simp only [visit] at h ⊢
        exact lt_of_lt_of_le (hu5 r p h) (le_max_left _ _)
    · obtain ⟨i, hi, hscan, hiv⟩ := resume_scan_point hacyc hO hc hidx hne
      have hscan' : scanFor ({ commit (visit cfg s) with
          queueCursor := s.queueCursor - 1 } : TraceSt R).reach
          (s.queue.getD k (0, 0)).1 = some i := hscan
      rw [resume_scan_some _ _ hscan']
      have hnodup := visit_nodup hacyc hO hc
      have hccs := commit_cell_spec hO hc
      have hrowlen : ∀ r', r' < s.rows.length →
          ((s.rows ++ [List.replicate s.startCursor 0 ++
            (s.reach.set s.cursor s.active).drop s.startCursor]).getD r' [])
            = s.rows.getD r' [] := by
        intro r' hr'
        rw [getD_append_left _ hr']
      have hrownew : ((s.rows ++ [List.replicate s.startCursor 0 ++
          (s.reach.set s.cursor s.active).drop s.startCursor]).getD
            s.rows.length [])
          = List.replicate s.startCursor 0 ++
            (s.reach.set s.cursor s.active).drop s.startCursor := by
        rw [getD_append_right _ (le_refl _), Nat.sub_self]
        rfl
      have hcases : ∀ r' p', 0 < ((s.rows ++ [List.replicate s.startCursor 0 ++
          (s.reach.set s.cursor s.active).drop s.startCursor]).getD r' []).getD
            p' 0 →
          r' < s.rows.length ∨ r' = s.rows.length := by
        intro r' p' h
        rcases Nat.lt_or_ge r' s.rows.length with hlt | hge
        · exact Or.inl hlt
        · rcases Nat.eq_or_lt_of_le hge with he | hlt2
          · exact Or.inr he.symm
          · exfalso
            have hnil : (s.rows ++ [List.replicate s.startCursor 0 ++
                (s.reach.set s.cursor s.active).drop s.startCursor]).getD r' []
                = [] := getD_of_le _ (by simp; omega)
            rw [hnil] at h
            simp at h
      refine ⟨?_, ?_, ?_, ?_, ?_⟩
      · intro r p h
        simp only [commit, visit] at h ⊢
        rcases hcases r p h with hlt | heq
        · rw [hrowlen r hlt] at h ⊢
          exact List.mem_cons_of_mem _ (hu1 r p h)
        · subst heq
          rw [hrownew] at h ⊢
          obtain ⟨hp1, hp2, hp3⟩ := hccs p h
          rw [hp3] at h ⊢
          rcases Nat.lt_or_ge p s.cursor with hpc | hpc
          · rw [getD_set_ne _ _ (by omega)] at h ⊢
            exact List.mem_cons_of_mem _ (hu4 p hpc)
          · have hpe : p = s.cursor := by omega
            subst hpe
            rw [getD_set_self _ _ (by rw [hO.reachLen]; omega)]
            exact List.mem_cons_self _ _
      · intro r p r' p' h h' he
        simp only [commit, visit] at h h' he
        rcases hcases r p h with hlt | heq <;> rcases hcases r' p' h' with hlt' | heq'
        · rw [hrowlen r hlt] at h he
          rw [hrowlen r' hlt'] at h' he
          exact hu2 r p r' p' h h' he
        · exfalso
          subst heq'
          rw [hrowlen r hlt] at h he
          rw [hrownew] at h' he
          obtain ⟨hp1, hp2, hp3⟩ := hccs p' h'
          rw [hp3] at he
          rcases Nat.lt_or_ge p' s.cursor with hpc | hpc
          · rw [getD_set_ne _ _ (by omega)] at he
            exact hu3 r p p' h hp1 hpc he
          · have hpe : p' = s.cursor := by omega
            subst hpe
            rw [getD_set_self _ _ (by rw [hO.reachLen]; omega)] at he
            exact hactrow r p h he
        · exfalso
          subst heq
          rw [hrownew] at h he
          rw [hrowlen r' hlt'] at h' he
          obtain ⟨hp1, hp2, hp3⟩ := hccs p h
          rw [hp3] at he
          rcases Nat.lt_or_ge p s.cursor with hpc | hpc
          · rw [getD_set_ne _ _ (by omega)] at he
            exact hu3 r' p' p h' hp1 hpc he.symm
          · have hpe : p = s.cursor := by omega
            subst hpe
            rw [getD_set_self _ _ (by rw [hO.reachLen]; omega)] at he
            exact hactrow r' p' h' he.symm
        · subst heq
          subst heq'
          rw [hrownew] at h h' he
          obtain ⟨hp1, hp2, hp3⟩ := hccs p h
          obtain ⟨hq1, hq2, hq3⟩ := hccs p' h'
          rw [hp3, hq3] at he
          refine ⟨rfl, ?_⟩
          apply nodup_getD_inj hnodup
          · rw [List.length_take, List.length_set, hO.reachLen]
            omega
          · rw [List.length_take, List.length_set, hO.reachLen]
            omega
          · rw [getD_take_lt _ (by omega), getD_take_lt _ (by omega)]
            exact he
      · intro r p k2 h hk1 hk2
        exfalso
        simp only at hk1 hk2
        omega
      · intro k2 hk2
        simp only at hk2
        simp only [commit, visit]
        rw [getD_zeroFrom_lt 0 0 (by omega), getD_set_ne _ _ (by omega)]
        exact List.mem_cons_of_mem _ (hu4 k2 (by omega))
      · intro r p h
        simp only [commit, visit] at h ⊢
        rcases hcases r p h with hlt | heq
        · rw [hrowlen r hlt] at h
          exact lt_of_lt_of_le (hu5 r p h) (le_max_left _ _)
        · subst heq
          rw [hrownew] at h
          obtain ⟨hp1, hp2, -⟩ := hccs p h
          exact lt_of_le_of_lt (by omega : p ≤ s.cursor)
            (lt_of_lt_of_le (by omega) (le_max_right s.longest (s.cursor + 1)))
  · intro s' hstep
    obtain ⟨hfresh, hc, hup, hrows, k, hidx, hzero, rfl⟩ := step_done_shape hstep
    refine ⟨ginv_after_commit hO hfresh hc hup hrows _, ?_, ?_, ?_⟩
    · intro r p h
      simp only [commit, visit] at h ⊢
      have hccs := commit_cell_spec hO hc
      rcases Nat.lt_or_ge r s.rows.length with hlt | hge
      · rw [getD_append_left _ hlt] at h ⊢
        exact List.mem_cons_of_mem _ (hu1 r p h)
      · rcases Nat.eq_or_lt_of_le hge with he | hlt2
        · rw [← he] at h ⊢
          rw [getD_append_right _ (le_refl _), Nat.sub_self] at h ⊢
          simp only [List.getD_cons_zero] at h ⊢
          obtain ⟨hp1, hp2, hp3⟩ := hccs p h
          rw [hp3] at h ⊢
          rcases Nat.lt_or_ge p s.cursor with hpc | hpc
          · rw [getD_set_ne _ _ (by omega)] at h ⊢
            exact List.mem_cons_of_mem _ (hu4 p hpc)
          · have hpe : p = s.cursor := by omega
            subst hpe
            rw [getD_set_self _ _ (by rw [hO.reachLen]; omega)]
            exact List.mem_cons_self _ _
        · exfalso
          have hnil : (s.rows ++ [List.replicate s.startCursor 0 ++
              (s.reach.set s.cursor s.active).drop s.startCursor]).getD r []
              = [] := getD_of_le _ (by simp; omega)
          rw [hnil] at h
          simp at h
    · intro r p r' p' h h' he
      simp only [commit, visit] at h h' he
      have hccs := commit_cell_spec hO hc
      have hactrow : ∀ r p, 0 < (s.rows.getD r []).getD p 0 →
          (s.rows.getD r []).getD p 0 ≠ s.active := by
        intro r p hx heq
        exact hfresh (heq ▸ hu1 r p hx)
      have hnodup := visit_nodup hacyc hO hc
      have hcases : ∀ r2 p2, 0 < ((s.rows ++ [List.replicate s.startCursor 0 ++
          (s.reach.set s.cursor s.active).drop s.startCursor]).getD r2 []).getD
            p2 0 →
          r2 < s.rows.length ∨ r2 = s.rows.length := by
        intro r2 p2 hx
        rcases Nat.lt_or_ge r2 s.rows.length with hlt | hge
        · exact Or.inl hlt
        · rcases Nat.eq_or_lt_of_le hge with he2 | hlt2
          · exact Or.inr he2.symm
          · exfalso
            have hnil : (s.rows ++ [List.replicate s.startCursor 0 ++
                (s.reach.set s.cursor s.active).drop s.startCursor]).getD r2 []
                = [] := getD_of_le _ (by simp; omega)
            rw [hnil] at hx
            simp at hx
      have hrownew : ((s.rows ++ [List.replicate s.startCursor 0 ++
          (s.reach.set s.cursor s.active).drop s.startCursor]).getD
            s.rows.length [])
          = List.replicate s.startCursor 0 ++
            (s.reach.set s.cursor s.active).drop s.startCursor := by
        rw [getD_append_right _ (le_refl _), Nat.sub_self]
        rfl
      rcases hcases r p h with hlt | heq <;> rcases hcases r' p' h' with hlt' | heq'
      · rw [getD_append_left _ hlt] at h he
        rw [getD_append_left _ hlt'] at h' he
        exact hu2 r p r' p' h h' he
      · exfalso
        subst heq'
        rw [getD_append_left _ hlt] at h he
        rw [hrownew] at h' he
        obtain ⟨hp1, hp2, hp3⟩ := hccs p' h'
        rw [hp3] at he
        rcases Nat.lt_or_ge p' s.cursor with hpc | hpc
        · rw [getD_set_ne _ _ (by omega)] at he
          exact hu3 r p p' h hp1 hpc he
        · have hpe : p' = s.cursor := by omega
          subst hpe
          rw [getD_set_self _ _ (by rw [hO.reachLen]; omega)] at he
          exact hactrow r p h he
      · exfalso
        subst heq
        rw [hrownew] at h he
        rw [getD_append_left _ hlt'] at h' he
        obtain ⟨hp1, hp2, hp3⟩ := hccs p h
        rw [hp3] at he
        rcases Nat.lt_or_ge p s.cursor with hpc | hpc
        · rw [getD_set_ne _ _ (by omega)] at he
          exact hu3 r' p' p h' hp1 hpc he.symm
        · have hpe : p = s.cursor := by omega
          subst hpe
          rw [getD_set_self _ _ (by rw [hO.reachLen]; omega)] at he
          exact hactrow r' p' h' he.symm
      · subst heq
        subst heq'
        rw [hrownew] at h h' he
        obtain ⟨hp1, hp2, hp3⟩ := hccs p h
        obtain ⟨hq1, hq2, hq3⟩ := hccs p' h'
        rw [hp3, hq3] at he
        refine ⟨rfl, ?_⟩
        apply nodup_getD_inj hnodup
        · rw [List.length_take, List.length_set, hO.reachLen]
          omega
        · rw [List.length_take, List.length_set, hO.reachLen]
          omega
        · rw [getD_take_lt _ (by omega), getD_take_lt _ (by omega)]
          exact he
    · intro r p h
      simp only [commit, visit] at h ⊢
      have hccs := commit_cell_spec hO hc
      rcases Nat.lt_or_ge r s.rows.length with hlt | hge
      · rw [getD_append_left _ hlt] at h
        exact lt_of_lt_of_le (hu5 r p h) (le_max_left _ _)
      · rcases Nat.eq_or_lt_of_le hge with he | hlt2
        · rw [← he] at h
          rw [getD_append_right _ (le_refl _), Nat.sub_self] at h
          simp only [List.getD_cons_zero] at h
          obtain ⟨hp1, hp2, -⟩ := hccs p h
          exact lt_of_le_of_lt (by omega : p ≤ s.cursor)
            (lt_of_lt_of_le (by omega) (le_max_right s.longest (s.cursor + 1)))
        · exfalso
          have hnil : (s.rows ++ [List.replicate s.startCursor 0 ++
              (s.reach.set s.cursor s.active).drop s.startCursor]).getD r []
              = [] := getD_of_le _ (by simp; omega)
          rw [hnil] at h
          simp at h

theorem pathMapEntry_shape (n : Nat) (begins : List Nat) (i j : Nat) :
    ∃ e, pathMapEntry n begins i j = (i, i + e + 1, j) := by
  unfold pathMapEntry
  exact ⟨_, rfl⟩

/-- Claim C2 (amended): on a forest network within the traced region,
every alias occupying a Path Table cell occupies exactly one cell, and
its Path Locator Map entry is `(row_start, row_end, column)` with
`row_start` that cell's row, `column` that cell's column, and
`row_end > row_start`.  The original coverage promise — that
`[row_start, row_end)` contains every row whose path passes through the
alias — is refuted by `map_paths_coverage_counterexample`: an all-zero
committed row (a headwater carrying dense alias 0) ends the scanned
block early. -/
theorem map_paths_unique_entry {R : Type} [AddCommMonoid R] (cfg : NavCfg R)
    (outlets : List Nat) (N fuel : Nat)
    {paths : List (List Nat)} {ts ds : List (List R)}
    {pm : List (Nat × Nat × Nat)}
    (hacyc : Acyclic cfg.nodes)
    (hN : ∀ p ∈ cfg.nodes, p.2 < N) (hout : ∀ o ∈ outlets, o < N)
    (h : rapid_trace cfg outlets fuel = .ok (paths, ts, ds))
    (hpm : map_paths paths = some pm) :
    ∀ a r p, (paths.getD r []).getD p 0 = a → 0 < a →
      (∀ r' p', 0 < (paths.getD r' []).getD p' 0 →
        (paths.getD r' []).getD p' 0 = a → r' = r ∧ p' = p) ∧
      ∃ re, pm.getD a (0, 0, 0) = (r, re, p) ∧ r < re := by
  intro a r p hcell hpos
  obtain ⟨s', hrun, hout3⟩ := rapid_trace_ok_elim h
  obtain ⟨rfl, rfl, rfl⟩ := hout3
  have hQ : GInv cfg outlets N s' ∧ UExit cfg s' := by
    apply runOutlets_presTo outlets (fun o _ => uinv_stepPresTo hN hacyc)
      (fun s o ho hq => ⟨oinv_initOutlet ho (hout o ho) hq.1,
        hq.2.1, hq.2.2.1,
        fun r p k _ _ hk2 => absurd hk2 (by simp [initOutlet]),
        fun k hk => absurd hk (by simp [initOutlet]),
        hq.2.2.2⟩)
      fuel initSt s'
      ⟨ginv_initSt cfg outlets N,
        by intro r p hx; simp [initSt] at hx,
        by intro r p r' p' hx; simp [initSt] at hx,
        by intro r p hx; simp [initSt] at hx⟩ hrun
  obtain ⟨hu1, hu2, hu5⟩ := hQ.2
  have hmapAll : ∀ r', (s'.rows.map (fun row => row.take s'.longest)).getD r' []
      = (s'.rows.getD r' []).take s'.longest := by
    intro r'
    rcases Nat.lt_or_ge r' s'.rows.length with hlt | hge
    · rw [List.getD_eq_getElem _ _ (by simpa using hlt), List.getElem_map,
        List.getD_eq_getElem _ _ hlt]
    · rw [getD_of_le _ (by simpa using hge), getD_of_le _ hge, List.take_nil]
  have hfwd : ∀ r' p',
      0 < ((s'.rows.map (fun row => row.take s'.longest)).getD r' []).getD p' 0 →
      ((s'.rows.map (fun row => row.take s'.longest)).getD r' []).getD p' 0
        = (s'.rows.getD r' []).getD p' 0 := by
    intro r' p' hpp
    rw [hmapAll] at hpp ⊢
    rcases Nat.lt_or_ge p' s'.longest with hlt | hge
    · rw [getD_take_lt _ hlt]
    · exfalso
      rw [getD_of_le _ (by rw [List.length_take]; omega)] at hpp
      omega
  have huniqP : ∀ r' p',
      0 < ((s'.rows.map (fun row => row.take s'.longest)).getD r' []).getD p' 0 →
      ((s'.rows.map (fun row => row.take s'.longest)).getD r' []).getD p' 0 = a →
      r' = r ∧ p' = p := by
    intro r' p' hpp hpa
    have he' := hfwd r' p' hpp
    have hcell' : 0 < (s'.rows.getD r' []).getD p' 0 := by
      rw [← he']; exact hpp
    have hemain := hfwd r p (by rw [hcell]; exact hpos)
    have hra : (s'.rows.getD r []).getD p 0 = a := by rw [← hemain, hcell]
    have hr'a : (s'.rows.getD r' []).getD p' 0 = a := by rw [← he', hpa]
    exact hu2 r' p' r p hcell' (by rw [hra]; exact hpos) (by rw [hr'a, hra])
  have hrowP : 0 < ((s'.rows.map (fun row => row.take s'.longest)).getD r []).getD
      p 0 := by
    rw [hcell]; exact hpos
  have hr : r < (s'.rows.map (fun row => row.take s'.longest)).length := by
    by_contra hge
    have hnil : (s'.rows.map (fun row => row.take s'.longest)).getD r [] = [] :=
      getD_of_le _ (by omega)
    rw [hnil] at hrowP
    simp at hrowP
  have hp : p < ((s'.rows.map (fun row => row.take s'.longest)).getD r []).length := by
    by_contra hge
    rw [getD_of_le _ (by omega)] at hrowP
    omega
  have hpmEq : pm = map_paths_core (s'.rows.map (fun row => row.take s'.longest)) := by
    unfold map_paths at hpm
    split at hpm
    · cases hpm
    · exact (Option.some.inj hpm).symm
  subst hpmEq
  refine ⟨huniqP, ?_⟩
  rw [map_paths_core_getD hpos hcell hr hp huniqP]
  obtain ⟨e, he⟩ := pathMapEntry_shape
    (s'.rows.map (fun row => row.take s'.longest)).length
    (path_begins (s'.rows.map (fun row => row.take s'.longest))) r p
  rw [he]
  exact ⟨r + e + 1, rfl, by omega⟩

/-- Witness for the amended claim C2 on the three-reach chain: alias 2
occupies only the cell at row 0, column 1, and its locator entry is
`(0, 1, 1)`. -/
theorem map_paths_unique_entry_witness :
    (∀ r' p', 0 < (([[1, 2, 3]] : List (List Nat)).getD r' []).getD p' 0 →
      (([[1, 2, 3]] : List (List Nat)).getD r' []).getD p' 0 = 2 →
      r' = 0 ∧ p' = 1) ∧
    ∃ re, ([(0, 0, 0), (0, 1, 0), (0, 1, 1), (0, 1, 2)] :
      List (Nat × Nat × Nat)).getD 2 (0, 0, 0) = (0, re, 1) ∧ 0 < re := by
  have h : rapid_trace witCfgC [1] 9 =
      .ok (([[1, 2, 3]], [[2, 5, 9]], [[3, 8, 15]]) :
        List (List Nat) × List (List Int) × List (List Int)) := by decide
  exact map_paths_unique_entry witCfgC [1] 4 9 (acyclic_of_lt _ (by decide))
    (by decide) (by decide) h (by decide) 2 0 1 (by decide) (by decide)

end HydroNav
